import Mathlib

/-!
# Shallow embedding of `workbook.go` (package `xls`)

The workbook record-stream parser: `Parse`, `parseBof`, `get_string`,
`decodeCharset`, `addSheet`, `GetSheet`.

Conventions.
* A byte is a `Nat` below 256; a byte slice is a `List Nat`.
* A Go `string` is its byte sequence (UTF-8), a `List Nat`.
* A `bytes.Reader` that is only read forward is the list of bytes not yet read.
* A Go `error` is `Option GoErr` (`none` is `nil`).
* A run-time panic is `Except.error`.
* `uint16`/`uint32` arithmetic is written with an explicit `% 65536` wherever the
  source can wrap.
-/

namespace Xls

/-! ## Go run-time and library primitives -/

/-- The two `io` errors a `bytes.Reader` can produce through `io.ReadFull`. -/
inductive GoErr
  | eof
  | unexpectedEOF
  deriving DecidableEq, Repr

/-- Run-time panics of Go slice and index expressions. -/
inductive Fault
  | sliceBounds
  | indexRange
  deriving DecidableEq, Repr

/-- Little-endian value of a byte slice (`binary.LittleEndian`). -/
def le : List Nat → Nat
  | [] => 0
  | b :: bs => b % 256 + 256 * le bs

/-- Outcome of one read on a reader: the error, the bytes delivered, the bytes left. -/
structure Rd where
  err : Option GoErr
  data : List Nat
  rest : List Nat
  deriving DecidableEq, Repr

/-- Go `io.ReadFull(r, make([]byte, n))` on a `bytes.Reader` with `r` left: all `n`
bytes or an error; a failed read has drained the reader, `io.EOF` when nothing was
left and `io.ErrUnexpectedEOF` when some but fewer than `n` bytes were. -/
def readFull (r : List Nat) (n : Nat) : Rd :=
  if n ≤ r.length then ⟨none, r.take n, r.drop n⟩
  else if r = [] then ⟨some .eof, [], []⟩
  else ⟨some .unexpectedEOF, [], []⟩

/-- Go `(*bytes.Reader).Read(make([]byte, n))`: `io.EOF` at the end of the data
(also for `n = 0`), otherwise as many bytes as are there, up to `n`, and no error. -/
def readSome (r : List Nat) (n : Nat) : Rd :=
  if r = [] then ⟨some .eof, [], []⟩ else ⟨none, r.take n, r.drop n⟩

/-- Outcome of reading one unsigned integer: the error, the value of the variable
afterwards, the bytes left. -/
structure RdU where
  err : Option GoErr
  val : Nat
  rest : List Nat
  deriving DecidableEq, Repr

/-- Go `binary.Read(r, binary.LittleEndian, &v)` for an unsigned integer `v` of
`n` bytes whose current value is `old`: on a failed read `v` keeps `old`. -/
def readUint (r : List Nat) (n : Nat) (old : Nat) : RdU :=
  let rd := readFull r n
  match rd.err with
  | none => ⟨none, le rd.data, rd.rest⟩
  | some e => ⟨some e, old, rd.rest⟩

/-- Go `binary.Read(r, binary.LittleEndian, p)` for a pointer `p` to a fresh struct
of `n` bytes, the error discarded as at every call site: the bytes of the struct,
all zero when the read failed. -/
def readStruct (r : List Nat) (n : Nat) : List Nat × List Nat :=
  let rd := readFull r n
  match rd.err with
  | none => (rd.data, rd.rest)
  | some _ => (List.replicate n 0, rd.rest)

/-- Go slice expression `xs[:i]`: panics when `i` exceeds the capacity, which for a
slice from `make([]T, n)` is its length. -/
def sliceTo {α : Type} (xs : List α) (i : Nat) : Except Fault (List α) :=
  if i ≤ xs.length then .ok (xs.take i) else .error .sliceBounds

/-- Go index expression `xs[i]` for an `int` index: panics outside `0 ≤ i < len`. -/
def goIndex {α : Type} (xs : List α) (i : Int) : Except Fault α :=
  if i < 0 then .error .indexRange
  else match xs[i.toNat]? with
    | some x => .ok x
    | none => .error .indexRange

/-- Go `utf16.Decode`: a high surrogate followed by a low surrogate is one rune,
any other surrogate is U+FFFD. -/
def utf16Decode : List Nat → List Nat
  | [] => []
  | [r] => if r < 0xd800 ∨ 0xe000 ≤ r then [r] else [0xFFFD]
  | r :: r2 :: rest =>
    if r < 0xd800 ∨ 0xe000 ≤ r then r :: utf16Decode (r2 :: rest)
    else if r < 0xdc00 ∧ 0xdc00 ≤ r2 ∧ r2 < 0xe000 then
      ((r - 0xd800) * 1024 + (r2 - 0xdc00) + 0x10000) :: utf16Decode rest
    else 0xFFFD :: utf16Decode (r2 :: rest)

/-- UTF-8 bytes of one rune, as Go's `string(rune)` writes it: a surrogate or a
value above U+10FFFF becomes U+FFFD. -/
def encodeRune (r : Nat) : List Nat :=
  if r < 0x80 then [r]
  else if r < 0x800 then [0xC0 + r / 64, 0x80 + r % 64]
  else if 0xD800 ≤ r ∧ r < 0xE000 then [0xEF, 0xBF, 0xBD]
  else if r < 0x10000 then [0xE0 + r / 4096, 0x80 + r / 64 % 64, 0x80 + r % 64]
  else if r < 0x110000 then
    [0xF0 + r / 262144, 0x80 + r / 4096 % 64, 0x80 + r / 64 % 64, 0x80 + r % 64]
  else [0xEF, 0xBF, 0xBD]

/-- Go `string(runes)` for a `[]rune`. -/
def runesToString (rs : List Nat) : List Nat := rs.flatMap encodeRune

/-! ## Character maps (`golang.org/x/text/encoding/charmap`) -/

/-- The character maps the source names. -/
inductive Charmap
  | Windows1250 | Windows1251 | Windows1252 | Windows1253 | Windows1254
  | Windows1255 | Windows1256 | Windows1257 | Windows1258 | Windows874
  | Macintosh | ISO8859_1 | ISO8859_2 | ISO8859_5 | ISO8859_9 | ISO8859_15
  | KOI8R | KOI8U
  deriving DecidableEq, Repr

/-- The decode tables of the character maps: for each map and source byte the UTF-8
bytes it decodes to. The tables belong to the external `charmap` package and are a
parameter of the development. -/
abbrev Tables := Charmap → Nat → List Nat

/-- Go `charmap.NewDecoder().Bytes(enc)`: every source byte is replaced by its
table entry; the decoder of a character map reports no error. -/
def decoderBytes (T : Tables) (c : Charmap) (enc : List Nat) : Except Unit (List Nat) :=
  .ok (enc.flatMap (T c))

/-- A table for examples: ASCII bytes decode to themselves and every other byte to
U+FFFD. Every character map named above agrees with it below 0x80. -/
def asciiTables : Tables := fun _ b => if b < 0x80 then [b] else [0xEF, 0xBF, 0xBD]

/-! ## Data model -/

/-- The previous-record context `bof`: record id and declared size. -/
structure bof where
  Id : Nat
  Size : Nat
  deriving DecidableEq, Repr

/-- A field of a fixed-layout record: byte offset and width, little-endian. -/
structure Field where
  off : Nat
  width : Nat
  deriving DecidableEq, Repr

/-- Value of a field in the bytes of its struct. -/
def Field.get (f : Field) (bs : List Nat) : Nat := le ((bs.drop f.off).take f.width)

/-- Byte layouts of the fixed records `biffHeader`, `SstInfo`, `boundsheet`, `Xf5`,
`Xf8`, `FontInfo` and `Format.Head`. Their Go declarations are in other files of
the package, so the layout is a parameter of the development. -/
structure Layout where
  biffHeaderSize : Nat
  biffVer : Field
  biffType : Field
  sstInfoSize : Nat
  sstCount : Field
  boundsheetSize : Nat
  bsFilepos : Field
  bsVisible : Field
  bsName : Field
  xf5Size : Nat
  xf8Size : Nat
  fontInfoSize : Nat
  fontNameB : Field
  formatHeadSize : Nat
  fmtIndex : Field
  fmtSize : Field
  deriving DecidableEq, Repr

/-- The BIFF8 layout of the fixed records, used for concrete streams:
`biffHeader` = Ver, Type, Id_make, Year (16 bit), Flags, Min_ver (32 bit);
`SstInfo` = Total, Count (32 bit); `boundsheet` = Filepos (32 bit), Type, Visible,
Name (8 bit); `FontInfo` = five 16-bit fields then five bytes, the last being
NameB; `Format.Head` = Index, Size (16 bit). -/
def biff8 : Layout where
  biffHeaderSize := 16
  biffVer := ⟨0, 2⟩
  biffType := ⟨2, 2⟩
  sstInfoSize := 8
  sstCount := ⟨4, 4⟩
  boundsheetSize := 7
  bsFilepos := ⟨0, 4⟩
  bsVisible := ⟨5, 1⟩
  bsName := ⟨6, 1⟩
  xf5Size := 16
  xf8Size := 20
  fontInfoSize := 15
  fontNameB := ⟨14, 1⟩
  formatHeadSize := 4
  fmtIndex := ⟨0, 2⟩
  fmtSize := ⟨2, 2⟩

/-- The style record `st_xf_data`: the raw bytes of an `Xf5` or an `Xf8`. -/
inductive st_xf_data
  | xf5 (raw : List Nat)
  | xf8 (raw : List Nat)
  deriving DecidableEq, Repr

/-- A font: the raw `FontInfo` and the decoded name. -/
structure Font where
  Info : List Nat
  Name : List Nat
  deriving DecidableEq, Repr

/-- A number format: the raw `Head` and the decoded string. -/
structure Format where
  Head : List Nat
  str : List Nat
  deriving DecidableEq, Repr

/-- A cell handler of a row. The handler types are declared in other files of the
package; a handler is given by what its methods `FirstCol()`, `LastCol()` (both
`uint16`) and `String(w)` return. -/
structure Col where
  FirstCol : Nat
  LastCol : Nat
  str : List (List Nat)
  deriving DecidableEq, Repr

/-- A row of a sheet: its cell handlers `cols`, in the order a `range` over the map
visits them. -/
structure Row where
  cols : List Col
  deriving DecidableEq, Repr

/-- A sheet descriptor. `bs` is the raw `boundsheet` header; `rows` is the map from
row index (`uint16`) to row, in the order a `range` visits it. -/
structure WorkSheet where
  bs : List Nat
  Name : List Nat
  Visibility : Nat
  parsed : Bool
  MaxRow : Nat
  rows : List (Nat × Row) := []
  deriving DecidableEq, Repr

/-- The workbook. `rs` is the whole byte stream behind the `io.ReadSeeker`;
`Formats` is the map, most recent binding of a key first; `Type_` is the field
`Type`. -/
structure WorkBook where
  Is5ver : Bool
  Type_ : Nat
  Codepage : Nat
  Xfs : List st_xf_data
  Fonts : List Font
  Formats : List (Nat × Format)
  sheets : List WorkSheet
  Author : List Nat
  rs : List Nat
  sst : List (List Nat)
  continue_utf16 : Nat
  continue_rich : Nat
  continue_apsb : Nat
  dateMode : Nat
  charset : String
  deriving DecidableEq, Repr

/-! ## Charset resolver -/

/-- Source lines 203-246. -/
def getDecoderFromCodepage (codepage : Nat) : Option Charmap :=
  match codepage with
  | 1252 => some .Windows1252
  | 1250 => some .Windows1250
  | 1251 => some .Windows1251
  | 1253 => some .Windows1253
  | 1254 => some .Windows1254
  | 1255 => some .Windows1255
  | 1256 => some .Windows1256
  | 1257 => some .Windows1257
  | 1258 => some .Windows1258
  | 874 => some .Windows874
  | 10000 => some .Macintosh
  | 28591 => some .ISO8859_1
  | 28592 => some .ISO8859_2
  | 28595 => some .ISO8859_5
  | 28599 => some .ISO8859_9
  | 28605 => some .ISO8859_15
  | 20866 => some .KOI8R
  | 21866 => some .KOI8U
  | _ => none

/-- Source lines 248-273. -/
def getDecoderFromCharsetName (charset : String) : Option Charmap :=
  if charset = "windows-1251" ∨ charset = "cp1251" then some .Windows1251
  else if charset = "windows-1252" ∨ charset = "cp1252" then some .Windows1252
  else if charset = "windows-1258" ∨ charset = "cp1258" then some .Windows1258
  else if charset = "utf-8" ∨ charset = "UTF-8" then some .ISO8859_1
  else if charset = "iso-8859-1" ∨ charset = "latin1" then some .ISO8859_1
  else if charset = "iso-8859-2" ∨ charset = "latin2" then some .ISO8859_2
  else if charset = "iso-8859-5" then some .ISO8859_5
  else if charset = "koi8-r" then some .KOI8R
  else if charset = "macintosh" ∨ charset = "mac-roman" then some .Macintosh
  else none

/-- The part of `decodeCharset` after the codepage attempt (source lines 183-200);
`decoder` is the value the variable has on entry. -/
def decodeCharsetTail (T : Tables) (w : WorkBook) (decoder : Option Charmap)
    (enc : List Nat) : List Nat :=
  let decoder := if w.charset ≠ "" then getDecoderFromCharsetName w.charset else decoder
  let decoder := match decoder with
    | none => Charmap.Windows1252
    | some d => d
  match decoderBytes T decoder enc with
  | .ok out => out
  | .error _ =>
    match decoderBytes T .Windows1252 enc with
    | .ok out => out
    | .error _ => []

/-- Source lines 168-201. -/
def decodeCharset (T : Tables) (w : WorkBook) (enc : List Nat) : List Nat :=
  if w.Codepage ≠ 0 then
    match getDecoderFromCodepage w.Codepage with
    | some d =>
      match decoderBytes T d enc with
      | .ok out => out
      | .error _ => decodeCharsetTail T w (some d) enc
    | none => decodeCharsetTail T w none enc
  else decodeCharsetTail T w none enc

/-! ## String decoder -/

/-- What `get_string` hands back: the two results, the workbook and the reader. -/
structure GsResult where
  res : List Nat
  err : Option GoErr
  w : WorkBook
  buf : List Nat
  deriving DecidableEq, Repr

/-- Local variables of the modern branch of `get_string`, with the workbook and the
reader. -/
structure GsState where
  w : WorkBook
  buf : List Nat
  err : Option GoErr
  richtext_num : Nat
  phonetic_size : Nat
  res : List Nat
  deriving DecidableEq, Repr

/-- Source lines 282-291: the flag byte and the rich-text run count. The first
component is the flag. -/
def gsFlagRich (w : WorkBook) (buf : List Nat) : Nat × GsState :=
  let f := readUint buf 1 0
  if f.val &&& 0x8 ≠ 0 then
    let r := readUint f.rest 2 0
    (f.val, ⟨w, r.rest, r.err, r.val, 0, []⟩)
  else if w.continue_rich > 0 then
    (f.val, ⟨{ w with continue_rich := 0 }, f.rest, f.err, w.continue_rich, 0, []⟩)
  else (f.val, ⟨w, f.rest, f.err, 0, 0, []⟩)

/-- Source lines 292-297: the phonetic size. -/
def gsPhonetic (flag : Nat) (s : GsState) : GsState :=
  if flag &&& 0x4 ≠ 0 then
    let r := readUint s.buf 4 0
    { s with buf := r.rest, err := r.err, phonetic_size := r.val }
  else if s.w.continue_apsb > 0 then
    { s with w := { s.w with continue_apsb := 0 }, phonetic_size := s.w.continue_apsb }
  else s

/-- Loop variables of the UTF-16 read loop. -/
structure Units where
  i : Nat
  err : Option GoErr
  bts : List Nat
  buf : List Nat
  deriving DecidableEq, Repr

/-- Source lines 301-303, `for ; i < size && err == nil; i++`: the first argument is
`size - i`, the number of iterations the bound `i < size` still allows. -/
def readUnits : Nat → Units → Units
  | 0, u => u
  | n + 1, u =>
    if u.err = none then
      let r := readUint u.buf 2 (u.bts.getD u.i 0)
      readUnits n ⟨u.i + 1, r.err, u.bts.set u.i r.val, r.rest⟩
    else u

/-- Source lines 299-315: the UTF-16 branch. `i - 1` is `uint16` arithmetic. -/
def gsTextWide (s : GsState) (size : Nat) : Except Fault GsState :=
  let u := readUnits size ⟨0, s.err, List.replicate size 0, s.buf⟩
  let i := if u.err = some .eof then (u.i + 65535) % 65536 else u.i
  match sliceTo u.bts i with
  | .error f => .error f
  | .ok units =>
    .ok { s with
      w := if i < size then { s.w with continue_utf16 := size - i } else s.w
      buf := u.buf
      err := u.err
      res := runesToString (utf16Decode units) }

/-- Source lines 318-328: the single-byte branch. `n` is the length of the data
read, `uint16(n)` is `n % 65536`. -/
def gsTextNarrow (T : Tables) (s : GsState) (size : Nat) : GsState :=
  let rd := readSome s.buf size
  let n := rd.data.length
  let w := if n % 65536 < size then { s.w with continue_utf16 := size - n % 65536 } else s.w
  { s with
    w := w
    buf := rd.rest
    err := if n % 65536 < size then some .eof else rd.err
    res := decodeCharset T w rd.data }

/-- Source lines 330-345: skipping the rich-text runs. The products are `uint16`
products. -/
def gsSkipRich (s : GsState) : GsState :=
  if s.richtext_num > 0 then
    let seek_size :=
      if s.w.Is5ver then 2 * s.richtext_num % 65536 else 4 * s.richtext_num % 65536
    let rd := readFull s.buf seek_size
    { s with
      w := if rd.err = some .eof then { s.w with continue_rich := s.richtext_num } else s.w
      buf := rd.rest
      err := rd.err }
  else s

/-- Source lines 346-353: skipping the phonetic block. -/
def gsSkipPhonetic (s : GsState) : GsState :=
  if s.phonetic_size > 0 then
    let rd := readFull s.buf s.phonetic_size
    { s with
      w := if rd.err = some .eof then { s.w with continue_apsb := s.phonetic_size } else s.w
      buf := rd.rest
      err := rd.err }
  else s

/-- Source lines 275-356. `size` is a `uint16`. -/
def get_string (T : Tables) (w : WorkBook) (buf : List Nat) (size : Nat) :
    Except Fault GsResult :=
  if w.Is5ver then
    let rd := readSome buf size
    let bts := rd.data ++ List.replicate (size - rd.data.length) 0
    .ok ⟨decodeCharset T w bts, rd.err, w, rd.rest⟩
  else
    let h := gsFlagRich w buf
    let s := gsPhonetic h.1 h.2
    let t := if h.1 &&& 0x1 ≠ 0 then gsTextWide s size else .ok (gsTextNarrow T s size)
    match t with
    | .error f => .error f
    | .ok t =>
      let e := gsSkipPhonetic (gsSkipRich t)
      .ok ⟨e.res, e.err, e.w, e.buf⟩

/-! ## Record handlers -/

/-- Go `wb.sst[i] = wb.sst[i] + str` for an index the caller has checked. -/
def appendAt (sst : List (List Nat)) (i : Nat) (str : List Nat) : List (List Nat) :=
  sst.set i (sst.getD i [] ++ str)

/-- Variables of the two shared-string loops. -/
structure SstLoop where
  w : WorkBook
  buf : List Nat
  size : Nat
  err : Option GoErr
  offset : Nat
  deriving DecidableEq, Repr

/-- Source lines 101-112, the loop of the CONTINUE handler. The first argument
bounds the iterations; `len(wb.sst) - offset_pre` is enough, since every iteration
that does not leave the loop adds one to `offset_pre`. -/
def continueLoop (T : Tables) : Nat → SstLoop → Except Fault SstLoop
  | 0, s => .ok s
  | n + 1, s =>
    if s.err = none ∧ s.offset < s.w.sst.length then
      match get_string T s.w s.buf s.size with
      | .error f => .error f
      | .ok g =>
        let w := { g.w with sst := appendAt g.w.sst s.offset g.res }
        if g.err = some .eof then .ok ⟨w, g.buf, s.size, g.err, s.offset⟩
        else
          let r := readUint g.buf 2 s.size
          continueLoop T n ⟨w, r.rest, r.val, r.err, s.offset + 1⟩
    else .ok s

/-- Source lines 125-137, the loop of the SST handler. The first argument is
`int(info.Count) - i`. -/
def sstLoop (T : Tables) : Nat → SstLoop → Except Fault SstLoop
  | 0, s => .ok s
  | n + 1, s =>
    let r := readUint s.buf 2 s.size
    if r.err = none then
      match get_string T s.w r.rest r.val with
      | .error f => .error f
      | .ok g =>
        let w := { g.w with sst := appendAt g.w.sst s.offset g.res }
        if g.err = some .eof then .ok ⟨w, g.buf, r.val, g.err, s.offset⟩
        else sstLoop T n ⟨w, g.buf, r.val, g.err, s.offset + 1⟩
    else if r.err = some .eof then .ok ⟨s.w, r.rest, r.val, r.err, s.offset⟩
    else sstLoop T n ⟨s.w, r.rest, r.val, r.err, s.offset + 1⟩

/-- Source lines 358-361. `uint16(sheet.Name)` is the name-length field. -/
def addSheet (L : Layout) (T : Tables) (w : WorkBook) (sheet : List Nat) (buf : List Nat) :
    Except Fault WorkBook :=
  match get_string T w buf (L.bsName.get sheet % 65536) with
  | .error f => .error f
  | .ok g =>
    .ok { g.w with
      sheets := g.w.sheets ++
        [{ bs := sheet, Name := g.res, Visibility := L.bsVisible.get sheet,
           parsed := false, MaxRow := 0 }] }

/-- Source lines 63-66. -/
def addFont (L : Layout) (T : Tables) (w : WorkBook) (font : List Nat) (buf : List Nat) :
    Except Fault WorkBook :=
  match get_string T w buf (L.fontNameB.get font % 65536) with
  | .error f => .error f
  | .ok g => .ok { g.w with Fonts := g.w.Fonts ++ [{ Info := font, Name := g.res }] }

/-- Source lines 59-61. -/
def addXf (w : WorkBook) (xf : st_xf_data) : WorkBook :=
  { w with Xfs := w.Xfs ++ [xf] }

/-- Source lines 68-73; the map made by `newWorkBookFromOle2` is never nil. -/
def addFormat (L : Layout) (w : WorkBook) (format : Format) : WorkBook :=
  { w with
    Formats := (L.fmtIndex.get format.Head, format) ::
      w.Formats.filter (fun kv => kv.1 ≠ L.fmtIndex.get format.Head) }

/-- The variables `Parse` keeps between records: the workbook, `bof_pre`, `offset`. -/
structure PState where
  w : WorkBook
  pre : bof
  offset : Nat
  deriving DecidableEq, Repr

/-- Source lines 91-116, the CONTINUE case. -/
def handleContinue (T : Tables) (w : WorkBook) (bts : List Nat) (pre : bof)
    (offset_pre : Nat) : Except Fault PState :=
  if pre.Id = 0xfc then
    let s0 : SstLoop :=
      if w.continue_utf16 ≥ 1 then
        ⟨{ w with continue_utf16 := 0 }, bts, w.continue_utf16, none, offset_pre⟩
      else
        let r := readUint bts 2 0
        ⟨w, r.rest, r.val, r.err, offset_pre⟩
    match continueLoop T (s0.w.sst.length - s0.offset) s0 with
    | .error f => .error f
    | .ok s => .ok ⟨s.w, pre, s.offset⟩
  else .ok ⟨w, pre, offset_pre⟩

/-- Source lines 117-138, the SST case. -/
def handleSst (L : Layout) (T : Tables) (w : WorkBook) (b : bof) (bts : List Nat) :
    Except Fault PState :=
  let info := readStruct bts L.sstInfoSize
  let count := L.sstCount.get info.1
  let w := { w with sst := List.replicate count [] }
  match sstLoop T count ⟨w, info.2, 0, none, 0⟩ with
  | .error f => .error f
  | .ok s => .ok ⟨s.w, b, s.offset⟩

/-- Source lines 81-166: the `switch` of `parseBof` on the private copy `bts` of the
payload. The result holds `after` and `offset`; `after_using` is only the struct the
next header is read into. -/
def handle (L : Layout) (T : Tables) (w : WorkBook) (b : bof) (bts : List Nat) (pre : bof)
    (offset_pre : Nat) : Except Fault PState :=
  if b.Id = 0x809 then
    let bifh := (readStruct bts L.biffHeaderSize).1
    let w := if L.biffVer.get bifh ≠ 0x600 then { w with Is5ver := true } else w
    .ok ⟨{ w with Type_ := L.biffType.get bifh }, b, 0⟩
  else if b.Id = 0x042 then
    .ok ⟨{ w with Codepage := (readUint bts 2 w.Codepage).val }, b, 0⟩
  else if b.Id = 0x3c then handleContinue T w bts pre offset_pre
  else if b.Id = 0xfc then handleSst L T w b bts
  else if b.Id = 0x85 then
    let bs := readStruct bts L.boundsheetSize
    match addSheet L T w bs.1 bs.2 with
    | .error f => .error f
    | .ok w => .ok ⟨w, b, 0⟩
  else if b.Id = 0x0e0 then
    if w.Is5ver then
      .ok ⟨addXf w (.xf5 (readStruct bts L.xf5Size).1), b, 0⟩
    else
      .ok ⟨addXf w (.xf8 (readStruct bts L.xf8Size).1), b, 0⟩
  else if b.Id = 0x031 then
    let f := readStruct bts L.fontInfoSize
    match addFont L T w f.1 f.2 with
    | .error e => .error e
    | .ok w => .ok ⟨w, b, 0⟩
  else if b.Id = 0x41E then
    let head := readStruct bts L.formatHeadSize
    match get_string T w head.2 (L.fmtSize.get head.1 % 65536) with
    | .error f => .error f
    | .ok g => .ok ⟨addFormat L g.w { Head := head.1, str := g.res }, b, 0⟩
  else if b.Id = 0x22 then
    .ok ⟨{ w with dateMode := (readUint bts 2 w.dateMode).val }, b, 0⟩
  else .ok ⟨w, b, 0⟩

/-- Source lines 75-167. `buf` is what the main stream still holds after the record
header; the second component of the result is what it holds afterwards. `bts` stays
all zero when the stream is too short for the declared size. -/
def parseBof (L : Layout) (T : Tables) (w : WorkBook) (buf : List Nat) (b pre : bof)
    (offset_pre : Nat) : Except Fault (PState × List Nat) :=
  let bts := readStruct buf b.Size
  match handle L T w b bts.1 pre offset_pre with
  | .error f => .error f
  | .ok s => .ok (s, bts.2)

/-- Modelled from the spec: the declaration of the record header `bof` is in another
file of the package; section 3 gives it a 16-bit id followed by a 16-bit declared
size. This is `binary.Read(buf, binary.LittleEndian, b)` of source line 51. -/
def readBof (buf : List Nat) : Option (bof × List Nat) :=
  let rd := readFull buf 4
  match rd.err with
  | none => some (⟨le (rd.data.take 2), le (rd.data.drop 2)⟩, rd.rest)
  | some _ => none

/-- The workbook `newWorkBookFromOle2` starts `Parse` with. -/
def emptyWorkBook (rs : List Nat) (charset : String) : WorkBook :=
  { Is5ver := false, Type_ := 0, Codepage := 0, Xfs := [], Fonts := [], Formats := [],
    sheets := [], Author := [], rs := rs, sst := [], continue_utf16 := 0,
    continue_rich := 0, continue_apsb := 0, dateMode := 0, charset := charset }

/-- The state `Parse` starts its loop in. -/
def initState (w : WorkBook) : PState := ⟨w, ⟨0, 0⟩, 0⟩

/-- Source lines 50-56, the loop of `Parse`. The first argument bounds the
iterations; the length of the stream is enough, every iteration reads four bytes. -/
def ParseLoop (L : Layout) (T : Tables) : Nat → List Nat → PState → Except Fault PState
  | 0, _, s => .ok s
  | fuel + 1, buf, s =>
    match readBof buf with
    | none => .ok s
    | some (b, rest) =>
      match parseBof L T s.w rest b s.pre s.offset with
      | .error f => .error f
      | .ok (s1, buf1) => ParseLoop L T fuel buf1 s1

/-- Source lines 45-57. -/
def Parse (L : Layout) (T : Tables) (w : WorkBook) (buf : List Nat) : Except Fault WorkBook :=
  match ParseLoop L T buf.length buf (initState w) with
  | .error f => .error f
  | .ok s => .ok s.w

/-- Source lines 34-43. -/
def newWorkBookFromOle2 (L : Layout) (T : Tables) (rs : List Nat) (charset : String) :
    Except Fault WorkBook :=
  Parse L T (emptyWorkBook rs charset) rs

/-! ## Workbook directory -/

/-- The sheet decoder `(*WorkSheet).parse` is in another file of the package and is
a parameter: from the workbook, the stream positioned at the sheet and the
descriptor it gives the descriptor after parsing. -/
abbrev SheetParse := WorkBook → List Nat → WorkSheet → WorkSheet

/-- Source lines 364-367: seek to the stored offset, then parse. -/
def prepareSheet (L : Layout) (P : SheetParse) (w : WorkBook) (sheet : WorkSheet) :
    WorkSheet :=
  P w (w.rs.drop (L.bsFilepos.get sheet.bs)) sheet

/-- Source lines 370-380. The result is the descriptor handed back (`none` is nil)
and the workbook, whose `num`-th descriptor is that same object. -/
def GetSheet (L : Layout) (P : SheetParse) (w : WorkBook) (num : Int) :
    Except Fault (Option WorkSheet × WorkBook) :=
  if num < (w.sheets.length : Int) then
    match goIndex w.sheets num with
    | .error f => .error f
    | .ok s =>
      if !s.parsed then
        let s1 := prepareSheet L P w s
        .ok (some s1, { w with sheets := w.sheets.set num.toNat s1 })
      else .ok (some s, w)
  else .ok (none, w)

/-- Source lines 383-385. -/
def NumSheets (w : WorkBook) : Nat := w.sheets.length

/-- Source lines 411-413, `for i := uint16(0); i < col.LastCol()-col.FirstCol()+1; i++`
with body `data[col.FirstCol()+i] = str[i]`. The first argument is the loop bound
minus `i`; both index expressions can fault. -/
def fillCells : Nat → Nat → Col → List (List Nat) → Except Fault (List (List Nat))
  | 0, _, _, data => .ok data
  | n + 1, i, col, data =>
    match col.str[i]? with
    | none => .error .indexRange
    | some v =>
      if (col.FirstCol + i) % 65536 < data.length then
        fillCells n (i + 1) col (data.set ((col.FirstCol + i) % 65536) v)
      else .error .indexRange

/-- Source lines 405-414, the loop over the cell handlers of one row. The
differences are `uint16` differences. -/
def fillRow : List Col → List (List Nat) → Except Fault (List (List Nat))
  | [], data => .ok data
  | col :: cols, data =>
    let data1 :=
      if data.length % 65536 ≤ col.LastCol then
        data ++ List.replicate ((col.LastCol + 65536 - data.length % 65536 + 1) % 65536) []
      else data
    match fillCells ((col.LastCol + 65536 - col.FirstCol % 65536 + 1) % 65536) 0 col data1 with
    | .error f => .error f
    | .ok data2 => fillRow cols data2

/-- Source lines 402-419, the loop over the rows of one sheet; `temp` has `leng`
entries. -/
def fillRows (leng : Int) :
    List (Nat × Row) → List (List (List Nat)) → Except Fault (List (List (List Nat)))
  | [], temp => .ok temp
  | kr :: rows, temp =>
    if kr.2.cols.length > 0 then
      match fillRow kr.2.cols [] with
      | .error f => .error f
      | .ok data => fillRows leng rows (if leng > (kr.1 : Int) then temp.set kr.1 data else temp)
    else fillRows leng rows temp

/-- The variables of `ReadAllCells`: the result so far, `max`, and the workbook. -/
structure Cells where
  res : List (List (List Nat))
  max : Int
  w : WorkBook
  deriving DecidableEq, Repr

/-- Source lines 393-422, the body of the loop over the sheets for the sheet at
index `idx`. -/
def readSheet (L : Layout) (P : SheetParse) (c : Cells) (idx : Nat) (sheet : WorkSheet) :
    Except Fault Cells :=
  if (c.res.length : Int) < c.max then
    let max := c.max - (c.res.length : Int)
    let sheet1 := prepareSheet L P c.w sheet
    let w := { c.w with sheets := c.w.sheets.set idx sheet1 }
    if sheet1.MaxRow ≠ 0 then
      let leng : Int := if max < (sheet1.MaxRow : Int) + 1 then max else (sheet1.MaxRow : Int) + 1
      match fillRows leng sheet1.rows (List.replicate leng.toNat []) with
      | .error f => .error f
      | .ok temp => .ok ⟨c.res ++ temp, max, w⟩
    else .ok ⟨c.res, max, w⟩
  else .ok c

/-- Source lines 392-423, `for _, sheet := range w.sheets`: the sheets still to
visit, the first of them at index `idx`. -/
def readSheets (L : Layout) (P : SheetParse) : Nat → List WorkSheet → Cells → Except Fault Cells
  | _, [], c => .ok c
  | idx, sheet :: rest, c =>
    match readSheet L P c idx sheet with
    | .error f => .error f
    | .ok c1 => readSheets L P (idx + 1) rest c1

/-- Source lines 390-425. The result is the rows and the workbook, whose sheets the
call has parsed again. -/
def ReadAllCells (L : Layout) (P : SheetParse) (w : WorkBook) (max : Int) :
    Except Fault (List (List (List Nat)) × WorkBook) :=
  match readSheets L P 0 w.sheets ⟨[], max, w⟩ with
  | .error f => .error f
  | .ok c => .ok (c.res, c.w)

/-- Modelled from the spec: `(*WorkSheet).parse` is in another file of the package.
Section 3 has a descriptor go from unparsed to parsed on first access and section
4.5 has get-sheet-by-index parse a sheet once; so parsing leaves the descriptor
marked parsed. What the Sheet Decoder reads into the descriptor is the parameter
`D`. -/
def parseSheet (D : SheetParse) : SheetParse :=
  fun w buf s => { D w buf s with parsed := true }

/-! ## Record streams and string encodings used in the statements -/

/-- One record of the stream: header and payload. -/
abbrev Record := bof × List Nat

/-- The per-record handler of `parseBof` folded over a list of records, threading
the variables `Parse` keeps. -/
def handleAll (L : Layout) (T : Tables) : PState → List Record → Except Fault PState
  | s, [] => .ok s
  | s, r :: rest =>
    match handle L T s.w r.1 r.2 s.pre s.offset with
    | .error f => .error f
    | .ok s1 => handleAll L T s1 rest

/-- Two bytes, little-endian. -/
def le16 (v : Nat) : List Nat := [v % 256, v / 256 % 256]

/-- A record on the wire: id, size, payload. -/
def encodeRecord (r : Record) : List Nat := le16 r.1.Id ++ le16 r.1.Size ++ r.2

/-- A stream of records on the wire. -/
def encodeRecords (rs : List Record) : List Nat := rs.flatMap encodeRecord

/-- A well-formed record: 16-bit id, and a declared size that is the length of the
payload and fits 16 bits. -/
def Record.wf (r : Record) : Prop :=
  r.1.Id < 65536 ∧ r.1.Size = r.2.length ∧ r.2.length < 65536

instance (r : Record) : Decidable r.wf :=
  inferInstanceAs (Decidable (r.1.Id < 65536 ∧ r.1.Size = r.2.length ∧ r.2.length < 65536))

/-- The table `decodeCharset` ends up with, read off its code: the one
`getDecoderFromCodepage` gives, else the one `getDecoderFromCharsetName` gives, else
Windows-1252. -/
def cascadeTable (codepage : Nat) (charset : String) : Charmap :=
  match getDecoderFromCodepage codepage with
  | some c => c
  | none =>
    match getDecoderFromCharsetName charset with
    | some c => c
    | none => .Windows1252

/-- The mapped codepages of section 4.4 (Windows 1250-1258, 874, Macintosh, the
ISO-8859 variants 1, 2, 5, 9 and 15, KOI8-R and KOI8-U), each under its Windows
code-page identifier, with the table it stands for. -/
def mappedCodepages : List (Nat × Charmap) :=
  [(1250, .Windows1250), (1251, .Windows1251), (1252, .Windows1252), (1253, .Windows1253),
   (1254, .Windows1254), (1255, .Windows1255), (1256, .Windows1256), (1257, .Windows1257),
   (1258, .Windows1258), (874, .Windows874), (10000, .Macintosh),
   (28591, .ISO8859_1), (28592, .ISO8859_2), (28595, .ISO8859_5), (28599, .ISO8859_9),
   (28605, .ISO8859_15), (20866, .KOI8R), (21866, .KOI8U)]

/-- The recognised charset hints of section 4.4 with the table each names: the
windows-125x names and their cp aliases, utf-8 (single bytes passed through, which is
ISO 8859-1), the ISO-8859 names and their latin aliases, koi8-r, macintosh. -/
def recognisedHints : List (String × Charmap) :=
  [("windows-1251", .Windows1251), ("cp1251", .Windows1251),
   ("windows-1252", .Windows1252), ("cp1252", .Windows1252),
   ("windows-1258", .Windows1258), ("cp1258", .Windows1258),
   ("utf-8", .ISO8859_1), ("UTF-8", .ISO8859_1),
   ("iso-8859-1", .ISO8859_1), ("latin1", .ISO8859_1),
   ("iso-8859-2", .ISO8859_2), ("latin2", .ISO8859_2),
   ("iso-8859-5", .ISO8859_5), ("koi8-r", .KOI8R),
   ("macintosh", .Macintosh), ("mac-roman", .Macintosh)]

/-- A table for examples that shows which character map decoded a byte: the index of
the map in the list of mapped codepages, then the byte. -/
def labelTables : Tables := fun c b => [mappedCodepages.findIdx (fun kv => kv.2 = c), b]

/-- The count an SST payload declares: the `Count` field of the `SstInfo` read from
the payload. -/
def declaredCount (L : Layout) (bts : List Nat) : Nat :=
  L.sstCount.get (readStruct bts L.sstInfoSize).1

/-- The descriptor `addSheet` builds from a sheet-boundary payload in workbook `w`:
the header, the decoded trailing name, the visibility field, unparsed. -/
def descriptorOf (L : Layout) (T : Tables) (w : WorkBook) (bts : List Nat) : WorkSheet :=
  let bs := readStruct bts L.boundsheetSize
  { bs := bs.1
    Name := match get_string T w bs.2 (L.bsName.get bs.1 % 65536) with
      | .ok g => g.res
      | .error _ => []
    Visibility := L.bsVisible.get bs.1
    parsed := false
    MaxRow := 0 }

/-- The descriptors built along a list of records, in stream order: one for each
sheet-boundary record, from its payload and the workbook as it is at that record. -/
def sheetsBuilt (L : Layout) (T : Tables) : PState → List Record → List WorkSheet
  | _, [] => []
  | s, r :: rest =>
    match handle L T s.w r.1 r.2 s.pre s.offset with
    | .error _ => []
    | .ok s1 =>
      (if r.1.Id = 0x85 then [descriptorOf L T s.w r.2] else []) ++ sheetsBuilt L T s1 rest

/-- The second workbook differs from the first at most in the three carry counters. -/
def carryOnly (w w1 : WorkBook) : Prop :=
  w1 = { w with continue_utf16 := w1.continue_utf16, continue_rich := w1.continue_rich,
                continue_apsb := w1.continue_apsb }

/-- The second workbook differs from the first at most in the shared-string table
and the three carry counters. -/
def stringsOnly (w w1 : WorkBook) : Prop :=
  w1 = { w with sst := w1.sst, continue_utf16 := w1.continue_utf16,
                continue_rich := w1.continue_rich, continue_apsb := w1.continue_apsb }

/-! ## Concrete streams -/

/-- A sheet-boundary record whose payload ends right after the flag byte 0x09 (UTF-16
and rich-text bits) of the sheet name. -/
def truncatedNameStream : List Nat :=
  [0x85, 0x00, 8, 0, 0, 0, 0, 0, 0, 0, 1, 0x09]

/-- The end-to-end stream of section 8: header, codepage 1252, an SST of one string
"Hi" with "H" in the SST record and "i" in a CONTINUE, a sheet "Sheet1". -/
def hiStream : List Nat :=
  [0x09, 0x08, 16, 0, 0x00, 0x06, 0x05, 0x00, 0, 0, 0, 0, 0, 0, 0, 0, 0, 0, 0, 0] ++
  [0x42, 0x00, 2, 0, 0xE4, 0x04] ++
  [0xfc, 0x00, 12, 0, 1, 0, 0, 0, 1, 0, 0, 0, 2, 0, 0, 0x48] ++
  [0x3c, 0x00, 2, 0, 0, 0x69] ++
  [0x85, 0x00, 14, 0, 0x10, 0x20, 0, 0, 0, 0, 6, 0, 0x53, 0x68, 0x65, 0x65, 0x74, 0x31]

/-- An SST of two strings, "A" with one rich-text run and then plain "B", in one
record; the run block is `0, 0, 1, 0` (character 0, font 1). -/
def richUnsplit : List Nat :=
  [0xfc, 0x00, 22, 0, 2, 0, 0, 0, 2, 0, 0, 0,
    1, 0, 8, 1, 0, 0x41, 0, 0, 1, 0, 1, 0, 0, 0x42]

/-- The same strings with the record boundary in the middle of the four-byte run
block of "A". -/
def richSplitInside : List Nat :=
  [0xfc, 0x00, 16, 0, 2, 0, 0, 0, 2, 0, 0, 0, 1, 0, 8, 1, 0, 0x41, 0, 0] ++
  [0x3c, 0x00, 6, 0, 1, 0, 1, 0, 0, 0x42]

/-- The same strings with the record boundary right before the run block of "A". -/
def richSplitBefore : List Nat :=
  [0xfc, 0x00, 14, 0, 2, 0, 0, 0, 2, 0, 0, 0, 1, 0, 8, 1, 0, 0x41] ++
  [0x3c, 0x00, 8, 0, 0, 0, 1, 0, 1, 0, 0, 0x42]

/-- The shared-string table after parsing a stream with the BIFF8 layout. -/
def sstOf (T : Tables) (stream : List Nat) : Except Fault (List (List Nat)) :=
  (newWorkBookFromOle2 biff8 T stream "").map (fun w => w.sst)

/-- A sheet decoder for examples: it only marks the descriptor parsed. -/
def markParsed : SheetParse := fun _ _ s => { s with parsed := true }

/-- The records `Parse` meets in a stream: the headers it reads and the payload
copies `parseBof` makes. The first argument bounds their number. -/
def records : Nat → List Nat → List Record
  | 0, _ => []
  | fuel + 1, buf =>
    match readBof buf with
    | none => []
    | some (b, rest) =>
      (b, (readStruct rest b.Size).1) :: records fuel (readStruct rest b.Size).2

/-- The records of a whole stream. -/
def recordsOf (buf : List Nat) : List Record := records buf.length buf

/-- The SST record of `hiStream`: count 1, the string of length 2 cut after "H". -/
def hiSst : Record := (⟨0xfc, 12⟩, [1, 0, 0, 0, 1, 0, 0, 0, 2, 0, 0, 0x48])

/-- The CONTINUE record of `hiStream`: flag byte 0 and "i". -/
def hiContinue : Record := (⟨0x3c, 2⟩, [0, 0x69])

/-- The sheet-boundary record of `hiStream`. -/
def hiSheet : Record :=
  (⟨0x85, 14⟩, [0x10, 0x20, 0, 0, 0, 0, 6, 0, 0x53, 0x68, 0x65, 0x65, 0x74, 0x31])

/-- The state after `hiSst` on a fresh workbook: "H" in slot 0, one byte pending. -/
def hiAfterSst : PState :=
  ⟨{ emptyWorkBook [] "" with sst := [[0x48]], continue_utf16 := 1 }, ⟨0xfc, 12⟩, 0⟩

/-- The state after `hiSst`, `hiContinue` and `hiSheet` on a fresh workbook. -/
def hiAfterAll : PState :=
  ⟨{ emptyWorkBook [] "" with
      sst := [[0x48, 0x69]]
      sheets := [{ bs := [0x10, 0x20, 0, 0, 0, 0, 6], Name := [0x53, 0x68, 0x65, 0x65, 0x74, 0x31],
                   Visibility := 0, parsed := false, MaxRow := 0 }] },
    ⟨0x85, 14⟩, 0⟩

/-- A codepage record declaring 1252. -/
def codepageRecord : Record := (⟨0x42, 2⟩, [0xE4, 0x04])

/-- The state after `codepageRecord` on a fresh workbook. -/
def afterCodepage : PState := ⟨{ emptyWorkBook [] "" with Codepage := 1252 }, ⟨0x42, 2⟩, 0⟩

/-- The three records of the end-to-end stream that build strings and sheets. -/
def hiRecords : List Record := [hiSst, hiContinue, hiSheet]

/-- A string without rich-text runs and phonetic data as a record stores it: the
flag byte and the character units, bytes when the UTF-16 bit of the flag is clear and
16-bit units when it is set. -/
structure XStr where
  flag : Nat
  units : List Nat
  deriving DecidableEq, Repr

/-- UTF-16 units on the wire. -/
def unitBytes (us : List Nat) : List Nat := us.flatMap le16

/-- The character data of a string on the wire. -/
def XStr.body (x : XStr) : List Nat :=
  if x.flag &&& 0x1 ≠ 0 then unitBytes x.units else x.units

/-- A string on the wire: length, flag byte, character data. -/
def XStr.encode (x : XStr) : List Nat := le16 x.units.length ++ x.flag :: x.body

/-- The text of a string: UTF-16 decoding or charset decoding of its units. -/
def XStr.text (T : Tables) (w : WorkBook) (x : XStr) : List Nat :=
  if x.flag &&& 0x1 ≠ 0 then runesToString (utf16Decode x.units) else decodeCharset T w x.units

/-- The flag is a byte with the rich-text and phonetic bits clear, the length fits 16
bits and UTF-16 units fit 16 bits. -/
def XStr.plain (x : XStr) : Prop :=
  x.flag < 256 ∧ x.flag &&& 0x8 = 0 ∧ x.flag &&& 0x4 = 0 ∧ x.units.length < 65536 ∧
    (x.flag &&& 0x1 ≠ 0 → ∀ u ∈ x.units, u < 65536)

instance (x : XStr) : Decidable x.plain :=
  inferInstanceAs (Decidable (x.flag < 256 ∧ x.flag &&& 0x8 = 0 ∧ x.flag &&& 0x4 = 0 ∧
    x.units.length < 65536 ∧ (x.flag &&& 0x1 ≠ 0 → ∀ u ∈ x.units, u < 65536)))

/-- Strings on the wire, one after the other. -/
def encodeStrings (xs : List XStr) : List Nat := xs.flatMap XStr.encode

/-- The table after the texts `ts` have been appended to the slots `i`, `i + 1`, ... -/
def fillFrom (sst : List (List Nat)) (i : Nat) : List (List Nat) → List (List Nat)
  | [] => sst
  | t :: ts => fillFrom (appendAt sst i t) (i + 1) ts

/-- No carry is pending and the workbook is in modern mode. -/
def WorkBook.settled (w : WorkBook) : Prop :=
  w.Is5ver = false ∧ w.continue_rich = 0 ∧ w.continue_apsb = 0

instance (w : WorkBook) : Decidable w.settled :=
  inferInstanceAs (Decidable (w.Is5ver = false ∧ w.continue_rich = 0 ∧ w.continue_apsb = 0))

/-- A high (leading) surrogate unit. -/
def isHighSurrogate (r : Nat) : Prop := 0xd800 ≤ r ∧ r < 0xdc00

instance (r : Nat) : Decidable (isHighSurrogate r) :=
  inferInstanceAs (Decidable (0xd800 ≤ r ∧ r < 0xdc00))

/-- A low (trailing) surrogate unit. -/
def isLowSurrogate (r : Nat) : Prop := 0xdc00 ≤ r ∧ r < 0xe000

instance (r : Nat) : Decidable (isLowSurrogate r) :=
  inferInstanceAs (Decidable (0xdc00 ≤ r ∧ r < 0xe000))

/-- The cut between `a` and `b` separates a high surrogate from the low surrogate
that follows it. -/
def cutsPair (a b : List Nat) : Prop :=
  ∃ h l, a.getLast? = some h ∧ b.head? = some l ∧ isHighSurrogate h ∧ isLowSurrogate l

instance (a b : List Nat) : Decidable (cutsPair a b) :=
  match ha : a.getLast?, hb : b.head? with
  | some h, some l =>
    if hh : isHighSurrogate h ∧ isLowSurrogate l then isTrue ⟨h, l, ha, hb, hh.1, hh.2⟩
    else isFalse (fun ⟨_, _, h1, h2, h3, h4⟩ => by
      rw [ha] at h1; rw [hb] at h2
      cases h1; cases h2
      exact hh ⟨h3, h4⟩)
  | none, _ => isFalse (fun ⟨_, _, h1, _⟩ => by rw [ha] at h1; cases h1)
  | some _, none => isFalse (fun ⟨_, _, _, h2, _⟩ => by rw [hb] at h2; cases h2)

/-- An SST payload: the `SstInfo` bytes, whole plain strings, then `tail`. -/
def sstPayload (hdr : List Nat) (xs : List XStr) (tail : List Nat) : List Nat :=
  hdr ++ (encodeStrings xs ++ tail)

/-- The SST record with a given payload. -/
def sstRecord (payload : List Nat) : Record := (⟨0xfc, payload.length⟩, payload)

/-- The CONTINUE record with flag byte `f` and character data `data`. -/
def continueRecord (f : Nat) (data : List Nat) : Record := (⟨0x3c, data.length + 1⟩, f :: data)

/-- An SST of one UTF-16 string, the surrogate pair D83D DE00 (U+1F600), with the
record boundary between the two units and the second unit in a CONTINUE record
behind the flag byte 1. -/
def surrogateSplit : List Nat :=
  [0xfc, 0x00, 13, 0, 1, 0, 0, 0, 1, 0, 0, 0, 2, 0, 1, 0x3D, 0xD8] ++
  [0x3c, 0x00, 3, 0, 1, 0x00, 0xDE]

/-- The same string in one SST record. -/
def surrogateUnsplit : List Nat :=
  [0xfc, 0x00, 15, 0, 1, 0, 0, 0, 1, 0, 0, 0, 2, 0, 1, 0x3D, 0xD8, 0x00, 0xDE]

/-- The `SstInfo` bytes of the examples: total 1, count 1. -/
def oneStringInfo : List Nat := [1, 0, 0, 0, 1, 0, 0, 0]

/-- A sheet decoder for examples that records in `MaxRow` how often it has run. -/
def countingDecoder : SheetParse := fun _ _ s => { s with MaxRow := s.MaxRow + 1 }

/-- The descriptor of "Sheet1" of the end-to-end stream after `n` runs of
`parseSheet countingDecoder`. -/
def sheet1After (n : Nat) : WorkSheet :=
  { bs := [0x10, 0x20, 0, 0, 0, 0, 6], Name := [0x53, 0x68, 0x65, 0x65, 0x74, 0x31],
    Visibility := 0, parsed := true, MaxRow := n }

/-- The workbook of the end-to-end stream with its sheet as in `sheet1After n`. -/
def bookAfter (n : Nat) : WorkBook := { hiAfterAll.w with sheets := [sheet1After n] }

/-- A loaded sheet with rows 0 and 1 (`MaxRow = 1`) and no cells. -/
def twoRowSheet : WorkSheet :=
  { bs := [0, 0, 0, 0, 0, 0, 0], Name := [], Visibility := 0, parsed := true, MaxRow := 1 }

/-- A workbook with three loaded sheets of two rows each. -/
def threeSheetBook : WorkBook :=
  { emptyWorkBook [] "" with sheets := [twoRowSheet, twoRowSheet, twoRowSheet] }

/-- An SST of two single-byte strings, the empty string and "B", in one record. -/
def emptyThenB : List Nat :=
  [0xfc, 0x00, 15, 0, 2, 0, 0, 0, 2, 0, 0, 0, 0, 0, 0, 1, 0, 0, 0x42]

/-- The same two strings with the record boundary between them: the empty string
ends the SST payload and a CONTINUE record holds "B". -/
def emptyThenBSplit : List Nat :=
  [0xfc, 0x00, 11, 0, 2, 0, 0, 0, 2, 0, 0, 0, 0, 0, 0] ++
  [0x3c, 0x00, 4, 0, 1, 0, 0, 0x42]

/-- A workbook header (version 0x500) followed by a second header (version 0x600). -/
def legacyThenModern : List Nat :=
  [0x09, 0x08, 16, 0, 0x00, 0x05, 0x05, 0x00, 0, 0, 0, 0, 0, 0, 0, 0, 0, 0, 0, 0] ++
  [0x09, 0x08, 16, 0, 0x00, 0x06, 0x10, 0x00, 0, 0, 0, 0, 0, 0, 0, 0, 0, 0, 0, 0]

/-- The header struct a header-record payload yields: the bytes read, all zero when
the payload is too short. -/
def headerOf (L : Layout) (bts : List Nat) : List Nat := (readStruct bts L.biffHeaderSize).1

/-- Every slot of the table above index `k` is unset (the empty string). -/
def tailUnset (sst : List (List Nat)) (k : Nat) : Prop :=
  ∀ j, k < j → sst.getD j [] = []

/-- The resume index of a state whose remembered record is an SST record is within
the table and every slot above it is unset. -/
def openSlotInv (s : PState) : Prop :=
  s.pre.Id = 0xfc → s.offset ≤ s.w.sst.length ∧ tailUnset s.w.sst s.offset

/-- The two workbooks differ at most in the pending UTF-16 remainder. -/
def sameButUtf16 (w1 w2 : WorkBook) : Prop :=
  ({ w1 with continue_utf16 := 0 } : WorkBook) = { w2 with continue_utf16 := 0 }

/-- Two outcomes of `get_string` agree: the same fault, or the same text, error and
remaining bytes with workbooks that differ at most in the pending UTF-16 remainder. -/
def agreeGs : Except Fault GsResult → Except Fault GsResult → Prop
  | .ok g1, .ok g2 => g1.res = g2.res ∧ g1.err = g2.err ∧ g1.buf = g2.buf ∧ sameButUtf16 g1.w g2.w
  | .error f1, .error f2 => f1 = f2
  | _, _ => False

/-- Two outcomes of a record handler agree: the same fault, or the same remembered
record and resume index with workbooks that differ at most in the pending UTF-16
remainder. -/
def agreePs : Except Fault PState → Except Fault PState → Prop
  | .ok s1, .ok s2 => s1.pre = s2.pre ∧ s1.offset = s2.offset ∧ sameButUtf16 s1.w s2.w
  | .error f1, .error f2 => f1 = f2
  | _, _ => False

/-- Two states of the modern branch of `get_string` agree. -/
def agreeSt (s1 s2 : GsState) : Prop :=
  s1.buf = s2.buf ∧ s1.err = s2.err ∧ s1.richtext_num = s2.richtext_num ∧
    s1.phonetic_size = s2.phonetic_size ∧ s1.res = s2.res ∧ sameButUtf16 s1.w s2.w

/-- Two states of a shared-string loop agree. -/
def agreeLoop : Except Fault SstLoop → Except Fault SstLoop → Prop
  | .ok s1, .ok s2 =>
    s1.buf = s2.buf ∧ s1.size = s2.size ∧ s1.err = s2.err ∧ s1.offset = s2.offset ∧
      sameButUtf16 s1.w s2.w
  | .error f1, .error f2 => f1 = f2
  | _, _ => False

/-- A fresh workbook in which a rich-text run count of 1 is still pending. -/
def staleRichBook : WorkBook := { emptyWorkBook [] "" with continue_rich := 1 }

/-- An SST record with the two single-byte strings "A" and "B". -/
def abRecord : Record :=
  (⟨0xfc, 16⟩, [2, 0, 0, 0, 2, 0, 0, 0, 1, 0, 0, 0x41, 1, 0, 0, 0x42])

/-- A FONT record whose name has declared length 2 and of which only "A" is in the
payload. -/
def shortFontRecord : Record :=
  (⟨0x31, 17⟩, [0, 0, 0, 0, 0, 0, 0, 0, 0, 0, 0, 0, 0, 0, 2, 0, 0x41])

/-- Four bytes, little-endian. -/
def le32 (v : Nat) : List Nat := [v % 256, v / 256 % 256, v / 65536 % 256, v / 16777216 % 256]

/-- The header of a string with rich-text runs as a record stores it: the flag byte,
the run count and, when the flag has the phonetic bit, the phonetic size. -/
def richHeader (f r p : Nat) : List Nat :=
  f :: (le16 r ++ (if f &&& 0x4 ≠ 0 then le32 p else []))

/-- What `get_string` returns from the state its last step leaves. -/
def GsState.result (e : GsState) : GsResult := ⟨e.res, e.err, e.w, e.buf⟩

/-- A FONT record whose one-character name "A" has the flag 0x08 (rich-text bit) and
the run count 1, and whose payload ends right behind the text, without the run
block. -/
def richNameFont : List Nat :=
  [0x31, 0x00, 19, 0, 0, 0, 0, 0, 0, 0, 0, 0, 0, 0, 0, 0, 0, 0, 1, 0x08, 1, 0, 0x41]

/-- An SST of the two single-byte strings "A" and "Hi", the record boundary behind
"H", and a CONTINUE record with the flag byte 0 and "i". -/
def aHiSplit : List Nat :=
  [0xfc, 0x00, 16, 0, 2, 0, 0, 0, 2, 0, 0, 0, 1, 0, 0, 0x41, 2, 0, 0, 0x48] ++
  [0x3c, 0x00, 2, 0, 0, 0x69]

/-! ## Theorems -/

/-! ### What `get_string` may change -/

theorem carryOnly_refl (w : WorkBook) : carryOnly w w := by
  cases w; rfl

theorem carryOnly_trans {a b c : WorkBook} (h1 : carryOnly a b) (h2 : carryOnly b c) :
    carryOnly a c := by
  unfold carryOnly at *
  rw [h2, h1]

theorem carryOnly_utf16 (w : WorkBook) (v : Nat) : carryOnly w { w with continue_utf16 := v } := by
  cases w; rfl

theorem carryOnly_rich (w : WorkBook) (v : Nat) : carryOnly w { w with continue_rich := v } := by
  cases w; rfl

theorem carryOnly_apsb (w : WorkBook) (v : Nat) : carryOnly w { w with continue_apsb := v } := by
  cases w; rfl

theorem gsFlagRich_carryOnly (w : WorkBook) (buf : List Nat) :
    carryOnly w (gsFlagRich w buf).2.w := by
  unfold gsFlagRich
  dsimp only
  split_ifs
  · exact carryOnly_refl w
  · exact carryOnly_rich w 0
  · exact carryOnly_refl w

theorem gsPhonetic_carryOnly (flag : Nat) (s : GsState) :
    carryOnly s.w (gsPhonetic flag s).w := by
  unfold gsPhonetic
  dsimp only
  split_ifs
  · exact carryOnly_refl _
  · exact carryOnly_apsb _ 0
  · exact carryOnly_refl _

theorem gsTextWide_carryOnly (s t : GsState) (size : Nat) (h : gsTextWide s size = .ok t) :
    carryOnly s.w t.w := by
  unfold gsTextWide at h
  dsimp only at h
  split at h
  · cases h
  · injection h with h
    subst h
    dsimp only
    split_ifs
    all_goals exact carryOnly_utf16 _ _

theorem gsTextNarrow_carryOnly (T : Tables) (s : GsState) (size : Nat) :
    carryOnly s.w (gsTextNarrow T s size).w := by
  unfold gsTextNarrow
  dsimp only
  split_ifs
  · exact carryOnly_utf16 _ _
  · exact carryOnly_refl _

theorem gsSkipRich_carryOnly (s : GsState) : carryOnly s.w (gsSkipRich s).w := by
  unfold gsSkipRich
  dsimp only
  split_ifs
  all_goals exact carryOnly_refl _

theorem gsSkipPhonetic_carryOnly (s : GsState) : carryOnly s.w (gsSkipPhonetic s).w := by
  unfold gsSkipPhonetic
  dsimp only
  split_ifs
  all_goals exact carryOnly_refl _

theorem get_string_carryOnly (T : Tables) (w : WorkBook) (buf : List Nat) (size : Nat)
    (g : GsResult) (h : get_string T w buf size = .ok g) : carryOnly w g.w := by
  unfold get_string at h
  split_ifs at h with h5
  · injection h with h; subst h; exact carryOnly_refl w
  · dsimp only at h
    split at h
    · cases h
    · rename_i t ht
      injection h with h; subst h
      dsimp only
      have h1 := gsFlagRich_carryOnly w buf
      have h2 := gsPhonetic_carryOnly (gsFlagRich w buf).1 (gsFlagRich w buf).2
      have h3 : carryOnly (gsPhonetic (gsFlagRich w buf).1 (gsFlagRich w buf).2).w t.w := by
        split_ifs at ht
        · exact gsTextWide_carryOnly _ _ _ ht
        · injection ht with ht; subst ht; exact gsTextNarrow_carryOnly T _ size
      exact carryOnly_trans (carryOnly_trans (carryOnly_trans (carryOnly_trans h1 h2) h3)
        (gsSkipRich_carryOnly _)) (gsSkipPhonetic_carryOnly _)

/-! ### Faults -/

/-- C1. The claim fails on the code: on a sheet-boundary record whose payload ends
right after a name flag byte with the UTF-16 and rich-text bits, the rich-text count
read reports end of data, the UTF-16 loop is skipped, `i - 1` wraps to 65535 and the
slice `bts[:i]` is out of range, so `Parse` stops with a run-time fault. -/
theorem Parse_faults_on_truncated_string_header (T : Tables) :
    newWorkBookFromOle2 biff8 T truncatedNameStream "" = .error .sliceBounds := by
  rfl

/-- C5. The claim fails on the code: with the record boundary inside the run block
of "A", or right before it, the CONTINUE handler reads the first bytes of the run
block as a length prefix and a flag byte, and the table differs from the one the
unsplit record gives, `["A", "B"]`. -/
theorem rich_block_across_records_corrupts :
    sstOf asciiTables richUnsplit = .ok [[0x41], [0x42]] ∧
    sstOf asciiTables richSplitInside = .ok [[0x41], [0]] ∧
    sstOf asciiTables richSplitBefore = .ok [[0x41], []] := by
  exact ⟨rfl, rfl, rfl⟩

/-- C10. The claim fails on the code for a negative index: the test `num < len` lets
it through and the index expression `w.sheets[num]` faults. -/
theorem GetSheet_negative_faults (L : Layout) (P : SheetParse) (w : WorkBook) :
    GetSheet L P w (-1) = .error .indexRange := by
  have h : (-1 : Int) < (w.sheets.length : Int) := by omega
  simp [GetSheet, goIndex, h]

/-! ### What the record handlers may change -/

theorem stringsOnly_refl (w : WorkBook) : stringsOnly w w := by
  cases w; rfl

theorem stringsOnly_trans {a b c : WorkBook} (h1 : stringsOnly a b) (h2 : stringsOnly b c) :
    stringsOnly a c := by
  unfold stringsOnly at *
  rw [h2, h1]

theorem carryOnly_stringsOnly {a b : WorkBook} (h : carryOnly a b) : stringsOnly a b := by
  unfold carryOnly at h
  unfold stringsOnly
  rw [h]

theorem carryOnly_sst {a b : WorkBook} (h : carryOnly a b) : b.sst = a.sst := by
  unfold carryOnly at h
  rw [h]

theorem stringsOnly_sst (w : WorkBook) (v : List (List Nat)) :
    stringsOnly w { w with sst := v } := by
  cases w; rfl

theorem appendAt_length (sst : List (List Nat)) (i : Nat) (str : List Nat) :
    (appendAt sst i str).length = sst.length := by
  simp [appendAt]

/-- One `get_string` followed by the table update of the two loops. -/
theorem get_string_append_frame (T : Tables) (w : WorkBook) (buf : List Nat) (size i : Nat)
    (g : GsResult) (h : get_string T w buf size = .ok g) :
    stringsOnly w { g.w with sst := appendAt g.w.sst i g.res } ∧
      (appendAt g.w.sst i g.res).length = w.sst.length := by
  have hc := get_string_carryOnly T w buf size g h
  refine ⟨stringsOnly_trans (carryOnly_stringsOnly hc) (stringsOnly_sst _ _), ?_⟩
  rw [appendAt_length, carryOnly_sst hc]

theorem continueLoop_frame (T : Tables) (n : Nat) :
    ∀ (s s1 : SstLoop), continueLoop T n s = .ok s1 →
      stringsOnly s.w s1.w ∧ s1.w.sst.length = s.w.sst.length := by
  induction n with
  | zero =>
    intro s s1 h
    simp only [continueLoop] at h
    injection h with h; subst h
    exact ⟨stringsOnly_refl _, rfl⟩
  | succ n ih =>
    intro s s1 h
    simp only [continueLoop] at h
    split_ifs at h with hc
    · split at h
      · cases h
      · rename_i g hg
        have hf := get_string_append_frame T s.w s.buf s.size s.offset g hg
        split_ifs at h with he
        · injection h with h; subst h
          exact hf
        · have := ih _ _ h
          exact ⟨stringsOnly_trans hf.1 this.1, this.2.trans hf.2⟩
    · injection h with h; subst h
      exact ⟨stringsOnly_refl _, rfl⟩

theorem sstLoop_frame (T : Tables) (n : Nat) :
    ∀ (s s1 : SstLoop), sstLoop T n s = .ok s1 →
      stringsOnly s.w s1.w ∧ s1.w.sst.length = s.w.sst.length := by
  induction n with
  | zero =>
    intro s s1 h
    simp only [sstLoop] at h
    injection h with h; subst h
    exact ⟨stringsOnly_refl _, rfl⟩
  | succ n ih =>
    intro s s1 h
    simp only [sstLoop] at h
    split_ifs at h with hc he
    · split at h
      · cases h
      · rename_i g hg
        have hf := get_string_append_frame T s.w _ _ s.offset g hg
        split_ifs at h with he
        · injection h with h; subst h
          exact hf
        · have := ih _ _ h
          exact ⟨stringsOnly_trans hf.1 this.1, this.2.trans hf.2⟩
    · injection h with h; subst h
      exact ⟨stringsOnly_refl _, rfl⟩
    · have := ih _ _ h
      exact this

theorem carryOnly_sheets {a b : WorkBook} (h : carryOnly a b) : b.sheets = a.sheets := by
  unfold carryOnly at h
  rw [h]

theorem stringsOnly_sheets {a b : WorkBook} (h : stringsOnly a b) : b.sheets = a.sheets := by
  unfold stringsOnly at h
  rw [h]

theorem handleContinue_frame (T : Tables) (w : WorkBook) (bts : List Nat) (pre : bof)
    (off : Nat) (s : PState) (h : handleContinue T w bts pre off = .ok s) :
    stringsOnly w s.w ∧ s.w.sst.length = w.sst.length ∧ s.pre = pre := by
  unfold handleContinue at h
  split_ifs at h with hp hu
  · dsimp only at h
    split at h
    · cases h
    · rename_i s1 hs
      injection h with h; subst h
      have hf := continueLoop_frame T _ _ _ hs
      exact ⟨stringsOnly_trans (carryOnly_stringsOnly (carryOnly_utf16 w 0)) hf.1, hf.2, rfl⟩
  · dsimp only at h
    split at h
    · cases h
    · rename_i s1 hs
      injection h with h; subst h
      have hf := continueLoop_frame T _ _ _ hs
      exact ⟨hf.1, hf.2, rfl⟩
  · injection h with h; subst h
    exact ⟨stringsOnly_refl _, rfl, rfl⟩

theorem handleSst_frame (L : Layout) (T : Tables) (w : WorkBook) (b : bof) (bts : List Nat)
    (s : PState) (h : handleSst L T w b bts = .ok s) :
    stringsOnly w s.w ∧ s.w.sst.length = declaredCount L bts ∧ s.pre = b := by
  unfold handleSst at h
  dsimp only at h
  split at h
  · cases h
  · rename_i s1 hs
    injection h with h; subst h
    have hf := sstLoop_frame T _ _ _ hs
    refine ⟨stringsOnly_trans (stringsOnly_sst w _) hf.1, ?_, rfl⟩
    rw [hf.2]
    simp [declaredCount]

theorem addSheet_ok (L : Layout) (T : Tables) (w : WorkBook) (sheet buf : List Nat)
    (w1 : WorkBook) (h : addSheet L T w sheet buf = .ok w1) :
    ∃ g, get_string T w buf (L.bsName.get sheet % 65536) = .ok g ∧
      w1 = { g.w with sheets := g.w.sheets ++
        [{ bs := sheet, Name := g.res, Visibility := L.bsVisible.get sheet,
           parsed := false, MaxRow := 0 }] } := by
  unfold addSheet at h
  split at h
  · cases h
  · rename_i g hg
    injection h with h
    exact ⟨g, hg, h.symm⟩

theorem addFont_ok (L : Layout) (T : Tables) (w : WorkBook) (font buf : List Nat)
    (w1 : WorkBook) (h : addFont L T w font buf = .ok w1) :
    ∃ g, get_string T w buf (L.fontNameB.get font % 65536) = .ok g ∧
      w1 = { g.w with Fonts := g.w.Fonts ++ [{ Info := font, Name := g.res }] } := by
  unfold addFont at h
  split at h
  · cases h
  · rename_i g hg
    injection h with h
    exact ⟨g, hg, h.symm⟩

theorem handle_sst_length (L : Layout) (T : Tables) (w : WorkBook) (b : bof) (bts : List Nat)
    (pre : bof) (off : Nat) (s : PState) (hb : b.Id ≠ 0xfc)
    (h : handle L T w b bts pre off = .ok s) : s.w.sst.length = w.sst.length := by
  unfold handle at h
  split_ifs at h
  · injection h with h; subst h
    dsimp only
    split_ifs <;> rfl
  · injection h with h; subst h; rfl
  · exact (handleContinue_frame T w bts pre off s h).2.1
  · dsimp only at h
    split at h
    · cases h
    · rename_i w1 hw
      injection h with h; subst h
      obtain ⟨g, hg, rfl⟩ := addSheet_ok L T w _ _ w1 hw
      have hc := carryOnly_sst (get_string_carryOnly _ _ _ _ _ hg)
      show g.w.sst.length = w.sst.length
      rw [hc]
  · injection h with h; subst h; rfl
  · injection h with h; subst h; rfl
  · dsimp only at h
    split at h
    · cases h
    · rename_i w1 hw
      injection h with h; subst h
      obtain ⟨g, hg, rfl⟩ := addFont_ok L T w _ _ w1 hw
      have hc := carryOnly_sst (get_string_carryOnly _ _ _ _ _ hg)
      show g.w.sst.length = w.sst.length
      rw [hc]
  · dsimp only at h
    split at h
    · cases h
    · rename_i g hg
      injection h with h; subst h
      have hc := carryOnly_sst (get_string_carryOnly _ _ _ _ _ hg)
      show g.w.sst.length = w.sst.length
      rw [hc]
  · injection h with h; subst h; rfl
  · injection h with h; subst h; rfl

theorem handleAll_sst_length (L : Layout) (T : Tables) (recs : List Record) :
    ∀ (s s1 : PState), (∀ r ∈ recs, r.1.Id ≠ 0xfc) → handleAll L T s recs = .ok s1 →
      s1.w.sst.length = s.w.sst.length := by
  induction recs with
  | nil =>
    intro s s1 _ h
    simp only [handleAll] at h
    injection h with h; subst h; rfl
  | cons r rest ih =>
    intro s s1 hne h
    simp only [handleAll] at h
    split at h
    · cases h
    · rename_i s2 hs
      have h1 := handle_sst_length L T _ _ _ _ _ _ (hne r (List.mem_cons_self _ _)) hs
      have h2 := ih s2 s1 (fun x hx => hne x (List.mem_cons_of_mem _ hx)) h
      exact h2.trans h1

/-- C2. After an SST record the shared-string table has exactly the declared number
of slots, and no later record other than another SST record changes that number. -/
theorem sst_length_is_declared_count (L : Layout) (T : Tables) (w : WorkBook) (b : bof)
    (bts : List Nat) (pre : bof) (off : Nat) (s : PState) (hb : b.Id = 0xfc)
    (h : handle L T w b bts pre off = .ok s) :
    s.w.sst.length = declaredCount L bts ∧
      ∀ (recs : List Record) (s1 : PState), (∀ r ∈ recs, r.1.Id ≠ 0xfc) →
        handleAll L T s recs = .ok s1 → s1.w.sst.length = declaredCount L bts := by
  have h0 : s.w.sst.length = declaredCount L bts := by
    unfold handle at h
    have e1 : ¬ b.Id = 0x809 := by omega
    have e2 : ¬ b.Id = 0x042 := by omega
    have e3 : ¬ b.Id = 0x3c := by omega
    rw [if_neg e1, if_neg e2, if_neg e3, if_pos hb] at h
    exact (handleSst_frame L T w b bts s h).2.1
  refine ⟨h0, ?_⟩
  intro recs s1 hne hs
  rw [handleAll_sst_length L T recs s s1 hne hs, h0]

/-- C2, at the SST record of the end-to-end stream, followed by its CONTINUE and its
sheet-boundary record: one slot throughout. -/
theorem sst_length_is_declared_count_witness :
    hiAfterSst.w.sst.length = 1 ∧ hiAfterAll.w.sst.length = 1 :=
  have h := sst_length_is_declared_count biff8 asciiTables (emptyWorkBook [] "") hiSst.1
    hiSst.2 ⟨0, 0⟩ 0 hiAfterSst rfl rfl
  ⟨h.1, h.2 [hiContinue, hiSheet] hiAfterAll (by decide) rfl⟩

/-! ### CONTINUE after a record other than SST -/

theorem handle_pre_of_ne_continue (L : Layout) (T : Tables) (w : WorkBook) (b : bof)
    (bts : List Nat) (pre : bof) (off : Nat) (s : PState) (hb : b.Id ≠ 0x3c)
    (h : handle L T w b bts pre off = .ok s) : s.pre = b := by
  unfold handle at h
  split_ifs at h
  · injection h with h; subst h; rfl
  · injection h with h; subst h; rfl
  · exact (handleSst_frame L T w b bts s h).2.2
  · dsimp only at h
    split at h
    · cases h
    · injection h with h; subst h; rfl
  · injection h with h; subst h; rfl
  · injection h with h; subst h; rfl
  · dsimp only at h
    split at h
    · cases h
    · injection h with h; subst h; rfl
  · dsimp only at h
    split at h
    · cases h
    · injection h with h; subst h; rfl
  · injection h with h; subst h; rfl
  · injection h with h; subst h; rfl

theorem handle_continue_of_pre_ne (L : Layout) (T : Tables) (w : WorkBook) (c : bof)
    (bts : List Nat) (pre : bof) (off : Nat) (hc : c.Id = 0x3c) (hp : pre.Id ≠ 0xfc) :
    handle L T w c bts pre off = .ok ⟨w, pre, off⟩ := by
  unfold handle
  have e1 : ¬ c.Id = 0x809 := by omega
  have e2 : ¬ c.Id = 0x042 := by omega
  rw [if_neg e1, if_neg e2, if_pos hc]
  unfold handleContinue
  rw [if_neg hp]

/-- C6. A CONTINUE record whose remembered previous record is not an SST record
leaves the workbook, the remembered previous record and the resume index as they
were. That is the case when the record right before it is a record `b` other than
SST and CONTINUE (after `b` the remembered record is `b`), and when there is no
record before it (`Parse` starts with a zero previous record). A CONTINUE is
therefore acted on only right after an SST record or another CONTINUE. -/
theorem continue_ignored_unless_after_sst (L : Layout) (T : Tables) (w : WorkBook)
    (c : bof) (bts : List Nat) (hc : c.Id = 0x3c) :
    (∀ (pre : bof) (off : Nat), pre.Id ≠ 0xfc →
        handle L T w c bts pre off = .ok ⟨w, pre, off⟩) ∧
    (∀ (w0 : WorkBook) (b : bof) (bts0 : List Nat) (pre0 : bof) (off0 : Nat) (s : PState),
        b.Id ≠ 0xfc → b.Id ≠ 0x3c → handle L T w0 b bts0 pre0 off0 = .ok s →
        handle L T s.w c bts s.pre s.offset = .ok s) ∧
    handle L T w c bts (initState w).pre (initState w).offset = .ok (initState w) := by
  refine ⟨?_, ?_, ?_⟩
  · intro pre off hp
    exact handle_continue_of_pre_ne L T w c bts pre off hc hp
  · intro w0 b bts0 pre0 off0 s hb1 hb2 hs
    have hpre := handle_pre_of_ne_continue L T w0 b bts0 pre0 off0 s hb2 hs
    have hp : s.pre.Id ≠ 0xfc := by rw [hpre]; exact hb1
    exact handle_continue_of_pre_ne L T s.w c bts s.pre s.offset hc hp
  · have hp : (initState w).pre.Id ≠ 0xfc := by
      show (0 : Nat) ≠ 0xfc
      decide
    exact handle_continue_of_pre_ne L T w c bts _ _ hc hp

/-- C6, at a CONTINUE record carrying "i" that comes first in the stream and one
that follows a codepage record. -/
theorem continue_ignored_unless_after_sst_witness :
    handle biff8 asciiTables (emptyWorkBook [] "") hiContinue.1 hiContinue.2 ⟨0x31, 0⟩ 7 =
        .ok ⟨emptyWorkBook [] "", ⟨0x31, 0⟩, 7⟩ ∧
    handle biff8 asciiTables afterCodepage.w hiContinue.1 hiContinue.2 afterCodepage.pre
        afterCodepage.offset = .ok afterCodepage ∧
    handle biff8 asciiTables (emptyWorkBook [] "") hiContinue.1 hiContinue.2
        (initState (emptyWorkBook [] "")).pre (initState (emptyWorkBook [] "")).offset =
        .ok (initState (emptyWorkBook [] "")) :=
  have h := continue_ignored_unless_after_sst biff8 asciiTables (emptyWorkBook [] "")
    hiContinue.1 hiContinue.2 rfl
  ⟨h.1 ⟨0x31, 0⟩ 7 (by decide),
   (continue_ignored_unless_after_sst biff8 asciiTables afterCodepage.w hiContinue.1
      hiContinue.2 rfl).2.1 (emptyWorkBook [] "") codepageRecord.1 codepageRecord.2 ⟨0, 0⟩ 0
      afterCodepage (by decide) (by decide) rfl,
   h.2.2⟩

/-! ### The charset cascade -/

theorem decodeCharset_eq (T : Tables) (w : WorkBook) (enc : List Nat) :
    decodeCharset T w enc = enc.flatMap (T (cascadeTable w.Codepage w.charset)) := by
  unfold decodeCharset cascadeTable
  by_cases h0 : w.Codepage = 0
  · rw [h0]
    simp only [ne_eq, not_true_eq_false, if_false]
    have : getDecoderFromCodepage 0 = none := rfl
    rw [this]
    unfold decodeCharsetTail decoderBytes
    by_cases hc : w.charset = ""
    · rw [hc]
      have : getDecoderFromCharsetName "" = none := rfl
      simp [this]
    · simp only [ne_eq, hc, not_false_eq_true, if_true]
      cases getDecoderFromCharsetName w.charset <;> rfl
  · simp only [ne_eq, h0, not_false_eq_true, if_true]
    cases hd : getDecoderFromCodepage w.Codepage with
    | some d => simp [decoderBytes]
    | none =>
      unfold decodeCharsetTail decoderBytes
      by_cases hc : w.charset = ""
      · rw [hc]
        have : getDecoderFromCharsetName "" = none := rfl
        simp [this]
      · simp only [ne_eq, hc, not_false_eq_true, if_true]
        cases getDecoderFromCharsetName w.charset <;> rfl

theorem getDecoderFromCodepage_mapped (cp : Nat) (c : Charmap)
    (h : (cp, c) ∈ mappedCodepages) : getDecoderFromCodepage cp = some c := by
  simp only [mappedCodepages, List.mem_cons, Prod.mk.injEq, List.mem_singleton,
    List.not_mem_nil, or_false] at h
  rcases h with h | h | h | h | h | h | h | h | h | h | h | h | h | h | h | h | h | h <;>
    (obtain ⟨h1, h2⟩ := h; subst h1 h2; rfl)

theorem getDecoderFromCodepage_unmapped (cp : Nat)
    (h : cp ∉ mappedCodepages.map Prod.fst) : getDecoderFromCodepage cp = none := by
  simp only [mappedCodepages, List.map_cons, List.map_nil, List.mem_cons, List.mem_singleton,
    List.not_mem_nil, or_false, not_or] at h
  unfold getDecoderFromCodepage
  split <;> simp_all

theorem getDecoderFromCharsetName_recognised (h : String) (c : Charmap)
    (hm : (h, c) ∈ recognisedHints) : getDecoderFromCharsetName h = some c := by
  simp only [recognisedHints, List.mem_cons, Prod.mk.injEq, List.mem_singleton,
    List.not_mem_nil, or_false] at hm
  rcases hm with hm | hm | hm | hm | hm | hm | hm | hm | hm | hm | hm | hm | hm | hm | hm | hm <;>
    (obtain ⟨h1, h2⟩ := hm; subst h1 h2; rfl)

theorem getDecoderFromCharsetName_unknown (h : String)
    (hm : h ∉ recognisedHints.map Prod.fst) : getDecoderFromCharsetName h = none := by
  simp only [recognisedHints, List.map_cons, List.map_nil, List.mem_cons, List.mem_singleton,
    List.not_mem_nil, or_false, not_or] at hm
  unfold getDecoderFromCharsetName
  simp [hm]

/-- C8. `decodeCharset` decodes byte by byte under the table of the cascade. When the
file codepage is one of the mapped values it is that codepage's table, whatever the
hint says; otherwise, when the hint is one of the recognised names, it is the table
the hint names; otherwise it is Windows-1252. Codepage 0 (none recorded) and the hint
"" (none given) are among the unmapped and unrecognised ones. No key occurs twice in
either list, so each codepage and each hint selects one table. -/
theorem decodeCharset_cascade (T : Tables) (w : WorkBook) (enc : List Nat) :
    (∀ c, (w.Codepage, c) ∈ mappedCodepages → decodeCharset T w enc = enc.flatMap (T c)) ∧
    (∀ c, w.Codepage ∉ mappedCodepages.map Prod.fst → (w.charset, c) ∈ recognisedHints →
      decodeCharset T w enc = enc.flatMap (T c)) ∧
    (w.Codepage ∉ mappedCodepages.map Prod.fst → w.charset ∉ recognisedHints.map Prod.fst →
      decodeCharset T w enc = enc.flatMap (T .Windows1252)) ∧
    (mappedCodepages.map Prod.fst).Nodup ∧ (recognisedHints.map Prod.fst).Nodup ∧
    0 ∉ mappedCodepages.map Prod.fst ∧ "" ∉ recognisedHints.map Prod.fst := by
  refine ⟨?_, ?_, ?_, by decide, by decide, by decide, by decide⟩
  · intro c hc
    rw [decodeCharset_eq]
    unfold cascadeTable
    rw [getDecoderFromCodepage_mapped _ c hc]
  · intro c hcp hh
    rw [decodeCharset_eq]
    unfold cascadeTable
    rw [getDecoderFromCodepage_unmapped _ hcp, getDecoderFromCharsetName_recognised _ c hh]
  · intro hcp hh
    rw [decodeCharset_eq]
    unfold cascadeTable
    rw [getDecoderFromCodepage_unmapped _ hcp, getDecoderFromCharsetName_unknown _ hh]

/-- C8 at the examples of the claim, under a table that shows the map used: codepage
1251 decodes under Windows-1251 (entry 1 of the list) with no hint and with the hint
"koi8-r"; the unmapped codepage 9999 with the hint "koi8-r" under KOI8-R (entry 16);
no codepage and no hint under Windows-1252 (entry 2). -/
theorem decodeCharset_cascade_witness :
    decodeCharset labelTables { emptyWorkBook [] "" with Codepage := 1251 } [0xC0] = [1, 0xC0] ∧
    decodeCharset labelTables { emptyWorkBook [] "koi8-r" with Codepage := 1251 } [0xC0] =
      [1, 0xC0] ∧
    decodeCharset labelTables { emptyWorkBook [] "koi8-r" with Codepage := 9999 } [0xC0] =
      [16, 0xC0] ∧
    decodeCharset labelTables (emptyWorkBook [] "") [0xC0] = [2, 0xC0] :=
  ⟨(decodeCharset_cascade labelTables { emptyWorkBook [] "" with Codepage := 1251 } [0xC0]).1
      .Windows1251 (by decide),
   (decodeCharset_cascade labelTables { emptyWorkBook [] "koi8-r" with Codepage := 1251 }
      [0xC0]).1 .Windows1251 (by decide),
   (decodeCharset_cascade labelTables { emptyWorkBook [] "koi8-r" with Codepage := 9999 }
      [0xC0]).2.1 .KOI8R (by decide) (by decide),
   (decodeCharset_cascade labelTables (emptyWorkBook [] "") [0xC0]).2.2.1 (by decide)
      (by decide)⟩

/-! ### `Parse` as a fold over the records -/

theorem ParseLoop_eq_handleAll (L : Layout) (T : Tables) (fuel : Nat) :
    ∀ (buf : List Nat) (s : PState),
      ParseLoop L T fuel buf s = handleAll L T s (records fuel buf) := by
  induction fuel with
  | zero => intro buf s; rfl
  | succ n ih =>
    intro buf s
    simp only [ParseLoop, records]
    cases hb : readBof buf with
    | none => rfl
    | some p =>
      obtain ⟨b, rest⟩ := p
      simp only [handleAll, parseBof]
      cases hh : handle L T s.w b (readStruct rest b.Size).1 s.pre s.offset with
      | error f => rfl
      | ok s1 => exact ih _ _

theorem le_le16 (v : Nat) (h : v < 65536) : le (le16 v) = v := by
  simp only [le, le16]
  omega

theorem readFull_append (a r : List Nat) (n : Nat) (h : n = a.length) :
    readFull (a ++ r) n = ⟨none, a, r⟩ := by
  subst h
  simp [readFull]

theorem readStruct_append (a r : List Nat) (n : Nat) (h : n = a.length) :
    readStruct (a ++ r) n = (a, r) := by
  simp [readStruct, readFull_append a r n h]

theorem readBof_encode (b : bof) (rest : List Nat) (h1 : b.Id < 65536) (h2 : b.Size < 65536) :
    readBof (le16 b.Id ++ le16 b.Size ++ rest) = some (b, rest) := by
  have h : readFull (le16 b.Id ++ le16 b.Size ++ rest) 4 =
      ⟨none, le16 b.Id ++ le16 b.Size, rest⟩ := readFull_append _ _ _ (by simp [le16])
  unfold readBof
  rw [h]
  have e1 : le ((le16 b.Id ++ le16 b.Size).take 2) = b.Id := by
    have : (le16 b.Id ++ le16 b.Size).take 2 = le16 b.Id := by simp [le16]
    rw [this, le_le16 _ h1]
  have e2 : le ((le16 b.Id ++ le16 b.Size).drop 2) = b.Size := by
    have : (le16 b.Id ++ le16 b.Size).drop 2 = le16 b.Size := by simp [le16]
    rw [this, le_le16 _ h2]
  simp only [e1, e2]

theorem readBof_short (tail : List Nat) (h : tail.length < 4) : readBof tail = none := by
  unfold readBof readFull
  have : ¬ 4 ≤ tail.length := by omega
  simp only [this, if_false]
  split_ifs <;> rfl

theorem encodeRecords_cons (r : Record) (rest : List Record) :
    encodeRecords (r :: rest) = le16 r.1.Id ++ le16 r.1.Size ++ (r.2 ++ encodeRecords rest) := by
  simp [encodeRecords, encodeRecord]

theorem encodeRecords_cons_length (r : Record) (rest : List Record) :
    (encodeRecords (r :: rest)).length = 4 + r.2.length + (encodeRecords rest).length := by
  rw [encodeRecords_cons]
  simp [le16]
  omega

theorem records_encode (recs : List Record) :
    ∀ (fuel : Nat) (tail : List Nat), (∀ r ∈ recs, r.wf) → tail.length < 4 →
      (encodeRecords recs ++ tail).length ≤ fuel →
      records fuel (encodeRecords recs ++ tail) = recs := by
  induction recs with
  | nil =>
    intro fuel tail _ ht _
    cases fuel with
    | zero => rfl
    | succ n =>
      simp only [records, encodeRecords, List.flatMap_nil, List.nil_append, readBof_short tail ht]
  | cons r rest ih =>
    intro fuel tail hwf ht hf
    obtain ⟨h1, h2, h3⟩ := hwf r (List.mem_cons_self _ _)
    have hlen := encodeRecords_cons_length r rest
    cases fuel with
    | zero =>
      rw [List.length_append, hlen] at hf
      omega
    | succ n =>
      have hb : readBof (encodeRecords (r :: rest) ++ tail) =
          some (r.1, r.2 ++ (encodeRecords rest ++ tail)) := by
        rw [encodeRecords_cons]
        have := readBof_encode r.1 (r.2 ++ (encodeRecords rest ++ tail)) h1 (by omega)
        simpa [List.append_assoc] using this
      simp only [records, hb]
      rw [readStruct_append r.2 _ r.1.Size h2]
      dsimp only
      rw [ih n tail (fun x hx => hwf x (List.mem_cons_of_mem _ hx)) ht]
      · rw [List.length_append, hlen] at hf
        rw [List.length_append]
        omega

theorem parseBof_append (L : Layout) (T : Tables) (w : WorkBook) (b pre : bof) (off : Nat)
    (payload rest : List Nat) (h : b.Size = payload.length) :
    parseBof L T w (payload ++ rest) b pre off =
      (handle L T w b payload pre off).map (fun s => (s, rest)) := by
  unfold parseBof
  rw [readStruct_append payload rest b.Size h]
  dsimp only
  cases handle L T w b payload pre off <;> rfl

theorem Parse_eq_handleAll (L : Layout) (T : Tables) (w : WorkBook) (buf : List Nat) :
    Parse L T w buf = (handleAll L T (initState w) (recordsOf buf)).map (fun s => s.w) := by
  unfold Parse recordsOf
  rw [ParseLoop_eq_handleAll]
  cases handleAll L T (initState w) (records buf.length buf) <;> rfl

/-- C7. `parseBof` hands its handler a private copy of exactly the declared number
of payload bytes and leaves the main stream right after them; so on the
concatenation of well-formed records, followed by fewer than four bytes, the records
`Parse` meets are the given ones and `Parse` is the handler folded over them in
order, the trailing bytes being left unread. -/
theorem Parse_is_fold_of_handler (L : Layout) (T : Tables) (w : WorkBook)
    (recs : List Record) (tail : List Nat) (hwf : ∀ r ∈ recs, r.wf) (ht : tail.length < 4) :
    Parse L T w (encodeRecords recs ++ tail) =
        (handleAll L T (initState w) recs).map (fun s => s.w) ∧
      recordsOf (encodeRecords recs ++ tail) = recs ∧
      ∀ (w1 : WorkBook) (b pre : bof) (off : Nat) (payload rest : List Nat),
        b.Size = payload.length →
        parseBof L T w1 (payload ++ rest) b pre off =
          (handle L T w1 b payload pre off).map (fun s => (s, rest)) := by
  have hr : recordsOf (encodeRecords recs ++ tail) = recs :=
    records_encode recs _ tail hwf ht (le_refl _)
  refine ⟨?_, hr, ?_⟩
  · rw [Parse_eq_handleAll, hr]
  · intro w1 b pre off payload rest h
    exact parseBof_append L T w1 b pre off payload rest h

theorem hiRecords_wf : ∀ r ∈ hiRecords, r.wf := by
  decide

/-- C7, at the SST, CONTINUE and sheet-boundary records of the end-to-end stream
followed by two stray bytes. -/
theorem Parse_is_fold_of_handler_witness :
    Parse biff8 asciiTables (emptyWorkBook [] "") (encodeRecords hiRecords ++ [0x3c, 0]) =
        .ok hiAfterAll.w ∧
      recordsOf (encodeRecords hiRecords ++ [0x3c, 0]) = hiRecords :=
  have h := Parse_is_fold_of_handler biff8 asciiTables (emptyWorkBook [] "") hiRecords
    [0x3c, 0] hiRecords_wf (by decide)
  ⟨h.1.trans rfl, h.2.1⟩

/-! ### Sheet descriptors -/

theorem handle_sheets (L : Layout) (T : Tables) (w : WorkBook) (b : bof) (bts : List Nat)
    (pre : bof) (off : Nat) (s : PState) (h : handle L T w b bts pre off = .ok s) :
    s.w.sheets = w.sheets ++ (if b.Id = 0x85 then [descriptorOf L T w bts] else []) := by
  unfold handle at h
  by_cases hb : b.Id = 0x85
  · have e1 : ¬ b.Id = 0x809 := by omega
    have e2 : ¬ b.Id = 0x042 := by omega
    have e3 : ¬ b.Id = 0x3c := by omega
    have e4 : ¬ b.Id = 0xfc := by omega
    rw [if_neg e1, if_neg e2, if_neg e3, if_neg e4, if_pos hb] at h
    rw [if_pos hb]
    dsimp only at h
    split at h
    · cases h
    · rename_i w1 hw
      injection h with h; subst h
      obtain ⟨g, hg, rfl⟩ := addSheet_ok L T w _ _ w1 hw
      have hc := carryOnly_sheets (get_string_carryOnly _ _ _ _ _ hg)
      show g.w.sheets ++ _ = _
      rw [hc]
      simp [descriptorOf, hg]
  · rw [if_neg hb, List.append_nil]
    split_ifs at h
    · injection h with h; subst h
      dsimp only
      split_ifs <;> rfl
    · injection h with h; subst h; rfl
    · exact stringsOnly_sheets (handleContinue_frame T w bts pre off s h).1
    · exact stringsOnly_sheets (handleSst_frame L T w b bts s h).1
    · injection h with h; subst h; rfl
    · injection h with h; subst h; rfl
    · dsimp only at h
      split at h
      · cases h
      · rename_i w1 hw
        injection h with h; subst h
        obtain ⟨g, hg, rfl⟩ := addFont_ok L T w _ _ w1 hw
        have hc := carryOnly_sheets (get_string_carryOnly _ _ _ _ _ hg)
        exact hc
    · dsimp only at h
      split at h
      · cases h
      · rename_i g hg
        injection h with h; subst h
        have hc := carryOnly_sheets (get_string_carryOnly _ _ _ _ _ hg)
        exact hc
    · injection h with h; subst h; rfl
    · injection h with h; subst h; rfl

theorem handleAll_sheets (L : Layout) (T : Tables) (recs : List Record) :
    ∀ (s s1 : PState), handleAll L T s recs = .ok s1 →
      s1.w.sheets = s.w.sheets ++ sheetsBuilt L T s recs ∧
      (sheetsBuilt L T s recs).length = recs.countP (fun r => r.1.Id = 0x85) ∧
      ∀ d ∈ sheetsBuilt L T s recs, d.parsed = false := by
  induction recs with
  | nil =>
    intro s s1 h
    simp only [handleAll] at h
    injection h with h; subst h
    simp [sheetsBuilt]
  | cons r rest ih =>
    intro s s1 h
    simp only [handleAll] at h
    cases hs : handle L T s.w r.1 r.2 s.pre s.offset with
    | error f => rw [hs] at h; cases h
    | ok s2 =>
      rw [hs] at h
      dsimp only at h
      obtain ⟨i1, i2, i3⟩ := ih s2 s1 h
      have h1 := handle_sheets L T _ _ _ _ _ _ hs
      simp only [sheetsBuilt, hs]
      refine ⟨?_, ?_, ?_⟩
      · rw [i1, h1, List.append_assoc]
      · rw [List.length_append, i2, List.countP_cons]
        by_cases hb : r.1.Id = 0x85 <;> simp [hb]
        omega
      · intro d hd
        rw [List.mem_append] at hd
        rcases hd with hd | hd
        · by_cases hb : r.1.Id = 0x85
          · simp only [hb, if_true, List.mem_singleton] at hd
            rw [hd]; rfl
          · simp [hb] at hd
        · exact i3 d hd

/-- C9. After `Parse` the number of sheets is the number of sheet-boundary records
in the stream, and the descriptors are, in stream order, the ones built from those
records: the name decoded by `get_string` from the bytes after the header with the
declared name length, the header's visibility, unparsed. A record adds one
descriptor at the end when it is a sheet-boundary record and changes nothing of the
list otherwise. -/
theorem sheets_are_boundsheet_records (L : Layout) (T : Tables) (rs : List Nat)
    (charset : String) (w : WorkBook) (h : newWorkBookFromOle2 L T rs charset = .ok w) :
    NumSheets w = (recordsOf rs).countP (fun r => r.1.Id = 0x85) ∧
      w.sheets = sheetsBuilt L T (initState (emptyWorkBook rs charset)) (recordsOf rs) ∧
      (∀ d ∈ w.sheets, d.parsed = false) ∧
      ∀ (w0 : WorkBook) (b : bof) (bts : List Nat) (pre : bof) (off : Nat) (s : PState),
        handle L T w0 b bts pre off = .ok s →
        s.w.sheets = w0.sheets ++ (if b.Id = 0x85 then [descriptorOf L T w0 bts] else []) := by
  unfold newWorkBookFromOle2 at h
  rw [Parse_eq_handleAll] at h
  cases hs : handleAll L T (initState (emptyWorkBook rs charset)) (recordsOf rs) with
  | error f => rw [hs] at h; cases h
  | ok s1 =>
    rw [hs] at h
    injection h with h
    subst h
    obtain ⟨i1, i2, i3⟩ := handleAll_sheets L T _ _ _ hs
    have e : s1.w.sheets = sheetsBuilt L T (initState (emptyWorkBook rs charset)) (recordsOf rs) := by
      rw [i1]; rfl
    refine ⟨?_, e, ?_, ?_⟩
    · show s1.w.sheets.length = _
      rw [e, i2]
    · intro d hd
      rw [e] at hd
      exact i3 d hd
    · intro w0 b bts pre off s hh
      exact handle_sheets L T w0 b bts pre off s hh

/-- C9, at the end-to-end stream: one sheet-boundary record, one sheet, "Sheet1". -/
theorem sheets_are_boundsheet_records_witness :
    NumSheets (hiAfterAll.w) = 1 ∧
      hiAfterAll.w.sheets.map (fun d => d.Name) = [[0x53, 0x68, 0x65, 0x65, 0x74, 0x31]] :=
  have h := sheets_are_boundsheet_records biff8 asciiTables hiStream ""
    { hiAfterAll.w with rs := hiStream, Type_ := 5, Codepage := 1252 } rfl
  ⟨h.1.trans rfl, rfl⟩

/-! ### `get_string` on plain strings -/

theorem readUint_append (a r : List Nat) (n old : Nat) (h : n = a.length) :
    readUint (a ++ r) n old = ⟨none, le a, r⟩ := by
  simp [readUint, readFull_append a r n h]

theorem readUint_cons (f : Nat) (r : List Nat) (old : Nat) (hf : f < 256) :
    readUint (f :: r) 1 old = ⟨none, f, r⟩ := by
  have := readUint_append [f] r 1 old rfl
  simp only [List.singleton_append] at this
  rw [this]
  simp [le, Nat.mod_eq_of_lt hf]

theorem readUint_le16 (v : Nat) (r : List Nat) (old : Nat) (hv : v < 65536) :
    readUint (le16 v ++ r) 2 old = ⟨none, v, r⟩ := by
  rw [readUint_append (le16 v) r 2 old (by simp [le16]), le_le16 v hv]

theorem readUint_nil (n old : Nat) (hn : 0 < n) :
    readUint [] n old = ⟨some .eof, old, []⟩ := by
  have : ¬ n ≤ 0 := by omega
  simp [readUint, readFull, this]

theorem gsFlagRich_plain (w : WorkBook) (f : Nat) (r : List Nat) (hf : f < 256)
    (h8 : f &&& 0x8 = 0) (hr : w.continue_rich = 0) :
    gsFlagRich w (f :: r) = (f, ⟨w, r, none, 0, 0, []⟩) := by
  unfold gsFlagRich
  rw [readUint_cons f r 0 hf]
  simp [h8, hr]

theorem gsPhonetic_plain (f : Nat) (s : GsState) (h4 : f &&& 0x4 = 0)
    (ha : s.w.continue_apsb = 0) : gsPhonetic f s = s := by
  unfold gsPhonetic
  simp [h4, ha]

theorem gsSkipRich_zero (s : GsState) (h : s.richtext_num = 0) : gsSkipRich s = s := by
  unfold gsSkipRich
  simp [h]

theorem gsSkipPhonetic_zero (s : GsState) (h : s.phonetic_size = 0) :
    gsSkipPhonetic s = s := by
  unfold gsSkipPhonetic
  simp [h]

/-- The single-byte text read when the reader holds at least the whole text. -/
theorem gsTextNarrow_complete (T : Tables) (s : GsState) (body rest : List Nat)
    (hb : s.buf = body ++ rest) (hlen : body.length < 65536) (hne : body ++ rest ≠ []) :
    gsTextNarrow T s body.length =
      { s with buf := rest, err := none, res := decodeCharset T s.w body } := by
  unfold gsTextNarrow readSome
  rw [hb]
  have hm : body.length % 65536 = body.length := Nat.mod_eq_of_lt hlen
  simp [hne, hm]

/-- The single-byte text read when the reader holds fewer bytes than the text has. -/
theorem gsTextNarrow_short (T : Tables) (s : GsState) (piece : List Nat) (size : Nat)
    (hb : s.buf = piece) (hlen : piece.length < size) (hsize : size < 65536) :
    gsTextNarrow T s size =
      { s with
        w := { s.w with continue_utf16 := size - piece.length }
        buf := []
        err := some .eof
        res := decodeCharset T { s.w with continue_utf16 := size - piece.length } piece } := by
  unfold gsTextNarrow readSome
  rw [hb]
  have hp : piece.length % 65536 = piece.length := Nat.mod_eq_of_lt (by omega)
  by_cases hnil : piece = []
  · subst hnil
    have : 0 < size := by simpa using hlen
    simp [this]
  · have h1 : List.take size piece = piece := List.take_of_length_le (by omega)
    have h2 : List.drop size piece = [] := List.drop_of_length_le (by omega)
    simp [hnil, h1, h2, hp, hlen]

theorem set_getD_self (l : List Nat) (i d : Nat) : l.set i (l.getD i d) = l := by
  induction l generalizing i with
  | nil => rfl
  | cons a l ih =>
    cases i with
    | zero => rfl
    | succ i =>
      have := ih i
      simp only [List.getD_eq_getElem?_getD] at this
      simp [List.set, this]

theorem set_append_replicate (done : List Nat) (m u : Nat) :
    (done ++ List.replicate (m + 1) 0).set done.length u =
      (done ++ [u]) ++ List.replicate m 0 := by
  induction done with
  | nil => simp [List.replicate_succ]
  | cons a l ih => simp [List.set] at ih ⊢

theorem unitBytes_cons (u : Nat) (us : List Nat) :
    unitBytes (u :: us) = le16 u ++ unitBytes us := by
  simp [unitBytes]

theorem unitBytes_length (us : List Nat) : (unitBytes us).length = 2 * us.length := by
  induction us with
  | nil => rfl
  | cons u us ih => rw [unitBytes_cons, List.length_append, ih]; simp [le16]; omega

/-- Reading the units that are there: `p` more iterations remain afterwards. -/
theorem readUnits_units (us : List Nat) :
    ∀ (done rest : List Nat) (m p : Nat), (∀ u ∈ us, u < 65536) →
      readUnits (us.length + p)
          ⟨done.length, none, done ++ List.replicate (us.length + m) 0, unitBytes us ++ rest⟩ =
        readUnits p ⟨done.length + us.length, none, done ++ us ++ List.replicate m 0, rest⟩ := by
  induction us with
  | nil =>
    intro done rest m p _
    simp [unitBytes]
  | cons u us ih =>
    intro done rest m p hu
    have hu0 : u < 65536 := hu u (List.mem_cons_self _ _)
    have e : (u :: us).length + p = (us.length + p) + 1 := by simp; omega
    rw [e]
    simp only [readUnits, if_true]
    rw [unitBytes_cons, List.append_assoc, readUint_le16 u _ _ hu0]
    dsimp only
    have e2 : (u :: us).length + m = (us.length + m) + 1 := by simp; omega
    rw [e2, set_append_replicate]
    have := ih (done ++ [u]) rest m p (fun x hx => hu x (List.mem_cons_of_mem _ hx))
    simp only [List.length_append, List.length_singleton] at this
    rw [this]
    simp [Nat.add_assoc, Nat.add_comm 1]

theorem readUnits_stopped (n : Nat) (u : Units) (h : u.err ≠ none) : readUnits n u = u := by
  cases n with
  | zero => rfl
  | succ n => simp [readUnits, h]

/-- Reading at the end of the data: the loop stops after one failed read. -/
theorem readUnits_at_end (p i : Nat) (bts : List Nat) :
    readUnits (p + 1) ⟨i, none, bts, []⟩ = ⟨i + 1, some .eof, bts, []⟩ := by
  simp only [readUnits, if_true]
  rw [readUint_nil 2 _ (by omega)]
  dsimp only
  rw [set_getD_self]
  exact readUnits_stopped _ _ (by simp)

/-- The UTF-16 text read when the reader holds at least the whole text. -/
theorem gsTextWide_complete (s : GsState) (us rest : List Nat) (hb : s.buf = unitBytes us ++ rest)
    (he : s.err = none) (hu : ∀ u ∈ us, u < 65536) :
    gsTextWide s us.length =
      .ok { s with buf := rest, err := none, res := runesToString (utf16Decode us) } := by
  unfold gsTextWide
  rw [hb, he]
  have := readUnits_units us [] rest 0 0 hu
  simp only [List.length_nil, Nat.add_zero, List.nil_append, Nat.zero_add, List.replicate_zero,
    List.append_nil, readUnits] at this
  rw [this]
  simp [sliceTo]

/-- The UTF-16 text read when the reader holds only the first `us.length` units of
the `size` the text has. -/
theorem gsTextWide_short (s : GsState) (us : List Nat) (size : Nat) (hb : s.buf = unitBytes us)
    (he : s.err = none) (hu : ∀ u ∈ us, u < 65536) (hlen : us.length < size)
    (hsize : size < 65536) :
    gsTextWide s size =
      .ok { s with
        w := { s.w with continue_utf16 := size - us.length }
        buf := []
        err := some .eof
        res := runesToString (utf16Decode us) } := by
  unfold gsTextWide
  rw [hb, he]
  obtain ⟨p, hp⟩ : ∃ p, size = us.length + (p + 1) := ⟨size - us.length - 1, by omega⟩
  have := readUnits_units us [] [] (p + 1) (p + 1) hu
  simp only [List.length_nil, List.nil_append, Nat.zero_add, List.append_nil] at this
  rw [hp, this, readUnits_at_end]
  have hi : (us.length + 1 + 65535) % 65536 = us.length := by omega
  simp [sliceTo, hi]

theorem decodeCharset_congr (T : Tables) (w1 w2 : WorkBook) (enc : List Nat)
    (h1 : w1.Codepage = w2.Codepage) (h2 : w1.charset = w2.charset) :
    decodeCharset T w1 enc = decodeCharset T w2 enc := by
  rw [decodeCharset_eq, decodeCharset_eq, h1, h2]

theorem decodeCharset_append (T : Tables) (w : WorkBook) (a b : List Nat) :
    decodeCharset T w (a ++ b) = decodeCharset T w a ++ decodeCharset T w b := by
  simp [decodeCharset_eq]

/-- The modern branch of `get_string` behind a flag byte without rich-text and
phonetic bits, when no carry is pending. -/
theorem get_string_modern (T : Tables) (w : WorkBook) (f : Nat) (r : List Nat) (size : Nat)
    (hw : w.settled) (hf : f < 256) (h8 : f &&& 0x8 = 0) (h4 : f &&& 0x4 = 0) :
    get_string T w (f :: r) size =
      match (if f &&& 0x1 ≠ 0 then gsTextWide ⟨w, r, none, 0, 0, []⟩ size
             else .ok (gsTextNarrow T ⟨w, r, none, 0, 0, []⟩ size)) with
      | .error e => .error e
      | .ok t =>
        .ok ⟨(gsSkipPhonetic (gsSkipRich t)).res, (gsSkipPhonetic (gsSkipRich t)).err,
             (gsSkipPhonetic (gsSkipRich t)).w, (gsSkipPhonetic (gsSkipRich t)).buf⟩ := by
  obtain ⟨h5, hr, ha⟩ := hw
  have hI : ¬ (w.Is5ver = true) := by rw [h5]; decide
  unfold get_string
  rw [if_neg hI, gsFlagRich_plain w f r hf h8 hr]
  dsimp only
  rw [gsPhonetic_plain f _ h4 ha]

/-- `get_string` on a whole plain string: its text, no error, workbook unchanged. -/
theorem get_string_complete (T : Tables) (w : WorkBook) (x : XStr) (rest : List Nat)
    (hw : w.settled) (hx : x.plain)
    (hne : x.flag &&& 0x1 ≠ 0 ∨ x.units ≠ [] ∨ rest ≠ []) :
    get_string T w (x.flag :: (x.body ++ rest)) x.units.length =
      .ok ⟨x.text T w, none, w, rest⟩ := by
  obtain ⟨hf, h8, h4, hlen, hu⟩ := hx
  rw [get_string_modern T w x.flag _ _ hw hf h8 h4]
  by_cases h1 : x.flag &&& 0x1 ≠ 0
  · rw [if_pos h1]
    have hbody : x.body = unitBytes x.units := by unfold XStr.body; rw [if_pos h1]
    rw [gsTextWide_complete _ x.units rest (by rw [hbody]) rfl (hu h1)]
    dsimp only
    rw [gsSkipRich_zero _ rfl, gsSkipPhonetic_zero _ rfl]
    unfold XStr.text
    rw [if_pos h1]
  · rw [if_neg h1]
    have hbody : x.body = x.units := by unfold XStr.body; rw [if_neg h1]
    have hne2 : x.units ++ rest ≠ [] := by
      rcases hne with h | h | h
      · exact absurd h h1
      · simp [h]
      · simp [h]
    rw [gsTextNarrow_complete T _ x.units rest (by rw [hbody]) hlen hne2]
    dsimp only
    rw [gsSkipRich_zero _ rfl, gsSkipPhonetic_zero _ rfl]
    unfold XStr.text
    rw [if_neg h1]

/-- `get_string` on a single-byte string of which only `piece` is there. -/
theorem get_string_short_narrow (T : Tables) (w : WorkBook) (f : Nat) (piece : List Nat)
    (size : Nat) (hw : w.settled) (hf : f < 256) (h8 : f &&& 0x8 = 0) (h4 : f &&& 0x4 = 0)
    (h1 : f &&& 0x1 = 0) (hlen : piece.length < size) (hsize : size < 65536) :
    get_string T w (f :: piece) size =
      .ok ⟨decodeCharset T w piece, some .eof,
        { w with continue_utf16 := size - piece.length }, []⟩ := by
  rw [get_string_modern T w f _ _ hw hf h8 h4]
  have h1n : ¬ (f &&& 0x1 ≠ 0) := by rw [h1]; decide
  rw [if_neg h1n, gsTextNarrow_short T _ piece size rfl hlen hsize]
  dsimp only
  rw [gsSkipRich_zero _ rfl, gsSkipPhonetic_zero _ rfl]
  dsimp only
  have := decodeCharset_congr T { w with continue_utf16 := size - piece.length } w piece rfl rfl
  rw [this]

/-- `get_string` on a UTF-16 string of which only the units `us` are there. -/
theorem get_string_short_wide (T : Tables) (w : WorkBook) (f : Nat) (us : List Nat)
    (size : Nat) (hw : w.settled) (hf : f < 256) (h8 : f &&& 0x8 = 0) (h4 : f &&& 0x4 = 0)
    (h1 : f &&& 0x1 ≠ 0) (hu : ∀ u ∈ us, u < 65536) (hlen : us.length < size)
    (hsize : size < 65536) :
    get_string T w (f :: unitBytes us) size =
      .ok ⟨runesToString (utf16Decode us), some .eof,
        { w with continue_utf16 := size - us.length }, []⟩ := by
  rw [get_string_modern T w f _ _ hw hf h8 h4]
  rw [if_pos h1, gsTextWide_short _ us size rfl rfl hu hlen hsize]
  dsimp only
  rw [gsSkipRich_zero _ rfl, gsSkipPhonetic_zero _ rfl]

/-! ### The shared-string loops on plain strings -/

theorem XStr.text_congr (T : Tables) (w1 w2 : WorkBook) (x : XStr)
    (h1 : w1.Codepage = w2.Codepage) (h2 : w1.charset = w2.charset) :
    x.text T w1 = x.text T w2 := by
  unfold XStr.text
  rw [decodeCharset_congr T w1 w2 _ h1 h2]

theorem XStr.encode_append (x : XStr) (rest : List Nat) :
    x.encode ++ rest = le16 x.units.length ++ (x.flag :: (x.body ++ rest)) := by
  simp [XStr.encode]

theorem encodeStrings_cons (x : XStr) (xs : List XStr) :
    encodeStrings (x :: xs) = x.encode ++ encodeStrings xs := by
  simp [encodeStrings]

theorem XStr.encode_ne_nil (x : XStr) : x.encode ≠ [] := by
  simp [XStr.encode, le16]

theorem settled_sst (w : WorkBook) (v : List (List Nat)) (h : w.settled) :
    ({ w with sst := v } : WorkBook).settled := h

theorem settled_utf16 (w : WorkBook) (v : Nat) (h : w.settled) :
    ({ w with continue_utf16 := v } : WorkBook).settled := h

/-- One iteration of the SST loop over a whole plain string. -/
theorem sstLoop_complete (T : Tables) (n : Nat) (w : WorkBook) (x : XStr) (rest : List Nat)
    (sz : Nat) (e : Option GoErr) (i : Nat) (hw : w.settled) (hx : x.plain)
    (hne : x.flag &&& 0x1 ≠ 0 ∨ x.units ≠ [] ∨ rest ≠ []) :
    sstLoop T (n + 1) ⟨w, x.encode ++ rest, sz, e, i⟩ =
      sstLoop T n ⟨{ w with sst := appendAt w.sst i (x.text T w) }, rest, x.units.length,
        none, i + 1⟩ := by
  simp only [sstLoop]
  rw [XStr.encode_append, readUint_le16 _ _ _ hx.2.2.2.1]
  simp only [if_true]
  rw [get_string_complete T w x rest hw hx hne]
  simp

/-- The SST loop over a run of whole plain strings followed by more data. -/
theorem sstLoop_strings (T : Tables) (xs : List XStr) :
    ∀ (n : Nat) (w : WorkBook) (rest : List Nat) (sz : Nat) (e : Option GoErr) (i : Nat),
      w.settled → (∀ x ∈ xs, x.plain) → rest ≠ [] →
      ∃ sz1 e1, sstLoop T (xs.length + n) ⟨w, encodeStrings xs ++ rest, sz, e, i⟩ =
        sstLoop T n ⟨{ w with sst := fillFrom w.sst i (xs.map (XStr.text T w)) }, rest, sz1, e1,
          i + xs.length⟩ := by
  induction xs with
  | nil =>
    intro n w rest sz e i _ _ _
    refine ⟨sz, e, ?_⟩
    simp [encodeStrings, fillFrom]
  | cons x xs ih =>
    intro n w rest sz e i hw hx hrest
    have hne : encodeStrings xs ++ rest ≠ [] := by simp [hrest]
    have e1 : (x :: xs).length + n = (xs.length + n) + 1 := by simp; omega
    rw [e1, encodeStrings_cons, List.append_assoc,
      sstLoop_complete T _ w x _ sz e i hw (hx x (List.mem_cons_self _ _)) (Or.inr (Or.inr hne))]
    obtain ⟨sz1, e2, h⟩ := ih n { w with sst := appendAt w.sst i (x.text T w) } rest
      x.units.length none (i + 1) (settled_sst w _ hw)
      (fun y hy => hx y (List.mem_cons_of_mem _ hy)) hrest
    refine ⟨sz1, e2, ?_⟩
    rw [h]
    have ht : xs.map (XStr.text T { w with sst := appendAt w.sst i (x.text T w) }) =
        xs.map (XStr.text T w) :=
      List.map_congr_left (fun y _ => XStr.text_congr T _ w y rfl rfl)
    rw [ht]
    simp [fillFrom, Nat.add_assoc, Nat.add_comm 1]

/-- The SST loop at the end of the payload changes neither workbook nor index. -/
theorem sstLoop_at_end (T : Tables) (n : Nat) (w : WorkBook) (sz : Nat) (e : Option GoErr)
    (i : Nat) :
    ∃ sz1 e1, sstLoop T n ⟨w, [], sz, e, i⟩ = .ok ⟨w, [], sz1, e1, i⟩ := by
  cases n with
  | zero => exact ⟨sz, e, rfl⟩
  | succ n =>
    refine ⟨sz, some .eof, ?_⟩
    simp only [sstLoop]
    rw [readUint_nil 2 _ (by omega)]
    simp

/-- The SST loop at a single-byte string of which only `piece` is in the payload. -/
theorem sstLoop_short_narrow (T : Tables) (n : Nat) (w : WorkBook) (f : Nat)
    (piece : List Nat) (size sz : Nat) (e : Option GoErr) (i : Nat) (hw : w.settled)
    (hf : f < 256) (h8 : f &&& 0x8 = 0) (h4 : f &&& 0x4 = 0) (h1 : f &&& 0x1 = 0)
    (hlen : piece.length < size) (hsize : size < 65536) :
    sstLoop T (n + 1) ⟨w, le16 size ++ f :: piece, sz, e, i⟩ =
      .ok ⟨{ w with
              sst := appendAt w.sst i (decodeCharset T w piece)
              continue_utf16 := size - piece.length },
            [], size, some .eof, i⟩ := by
  simp only [sstLoop]
  rw [readUint_le16 _ _ _ hsize]
  simp only [if_true]
  rw [get_string_short_narrow T w f piece size hw hf h8 h4 h1 hlen hsize]
  simp

/-- The SST loop at a UTF-16 string of which only the units `us` are in the payload. -/
theorem sstLoop_short_wide (T : Tables) (n : Nat) (w : WorkBook) (f : Nat)
    (us : List Nat) (size sz : Nat) (e : Option GoErr) (i : Nat) (hw : w.settled)
    (hf : f < 256) (h8 : f &&& 0x8 = 0) (h4 : f &&& 0x4 = 0) (h1 : f &&& 0x1 ≠ 0)
    (hu : ∀ u ∈ us, u < 65536) (hlen : us.length < size) (hsize : size < 65536) :
    sstLoop T (n + 1) ⟨w, le16 size ++ f :: unitBytes us, sz, e, i⟩ =
      .ok ⟨{ w with
              sst := appendAt w.sst i (runesToString (utf16Decode us))
              continue_utf16 := size - us.length },
            [], size, some .eof, i⟩ := by
  simp only [sstLoop]
  rw [readUint_le16 _ _ _ hsize]
  simp only [if_true]
  rw [get_string_short_wide T w f us size hw hf h8 h4 h1 hu hlen hsize]
  simp

theorem appendAt_getD_ne (sst : List (List Nat)) (i j : Nat) (t d : List Nat) (h : j ≠ i) :
    (appendAt sst i t).getD j d = sst.getD j d := by
  simp [appendAt, List.getD_eq_getElem?_getD, List.getElem?_set, Ne.symm h]

theorem appendAt_getElem?_self (sst : List (List Nat)) (i : Nat) (t : List Nat)
    (h : i < sst.length) : (appendAt sst i t)[i]? = some (sst.getD i [] ++ t) := by
  simp [appendAt, List.getElem?_set, h]

theorem fillFrom_length (ts : List (List Nat)) :
    ∀ (sst : List (List Nat)) (i : Nat), (fillFrom sst i ts).length = sst.length := by
  induction ts with
  | nil => intro sst i; rfl
  | cons t ts ih =>
    intro sst i
    simp only [fillFrom]
    rw [ih, appendAt_length]

theorem fillFrom_getD_ge (ts : List (List Nat)) :
    ∀ (sst : List (List Nat)) (i j : Nat) (d : List Nat), i + ts.length ≤ j →
      (fillFrom sst i ts).getD j d = sst.getD j d := by
  induction ts with
  | nil => intro sst i j d _; rfl
  | cons t ts ih =>
    intro sst i j d h
    simp only [fillFrom]
    simp only [List.length_cons] at h
    rw [ih _ _ _ _ (by omega), appendAt_getD_ne _ _ _ _ _ (by omega)]

theorem replicate_getD_nil (c j : Nat) :
    (List.replicate c ([] : List Nat)).getD j [] = [] := by
  simp [List.getD_eq_getElem?_getD, List.getElem?_replicate]
  split_ifs <;> rfl

theorem handle_sst_eq (L : Layout) (T : Tables) (w : WorkBook) (b : bof) (bts : List Nat)
    (pre : bof) (off : Nat) (hb : b.Id = 0xfc) :
    handle L T w b bts pre off = handleSst L T w b bts := by
  unfold handle
  have e1 : ¬ b.Id = 0x809 := by omega
  have e2 : ¬ b.Id = 0x042 := by omega
  have e3 : ¬ b.Id = 0x3c := by omega
  rw [if_neg e1, if_neg e2, if_neg e3, if_pos hb]

theorem handle_continue_eq (L : Layout) (T : Tables) (w : WorkBook) (c : bof)
    (bts : List Nat) (pre : bof) (off : Nat) (hc : c.Id = 0x3c) :
    handle L T w c bts pre off = handleContinue T w bts pre off := by
  unfold handle
  have e1 : ¬ c.Id = 0x809 := by omega
  have e2 : ¬ c.Id = 0x042 := by omega
  rw [if_neg e1, if_neg e2, if_pos hc]

/-- The SST handler over whole plain strings followed by more data `tail`: the loop
arrives at `tail` with the texts in the first slots and the other slots empty. -/
theorem handleSst_strings (L : Layout) (T : Tables) (w : WorkBook) (b : bof)
    (hdr : List Nat) (xs : List XStr) (tail : List Nat) (m : Nat) (hw : w.settled)
    (hhdr : hdr.length = L.sstInfoSize) (hxs : ∀ x ∈ xs, x.plain) (htail : tail ≠ [])
    (hc : L.sstCount.get hdr = xs.length + m) :
    ∃ sz1 e1, ∀ s1,
      sstLoop T m ⟨{ w with
          sst := (fillFrom (List.replicate (xs.length + m) []) 0 (xs.map (XStr.text T w))) },
          tail, sz1, e1, xs.length⟩ = .ok s1 →
      handleSst L T w b (hdr ++ (encodeStrings xs ++ tail)) = .ok ⟨s1.w, b, s1.offset⟩ := by
  obtain ⟨sz1, e1, h⟩ := sstLoop_strings T xs m
    { w with sst := List.replicate (xs.length + m) [] } tail 0 none 0 (settled_sst w _ hw) hxs htail
  refine ⟨sz1, e1, ?_⟩
  intro s1 hs
  unfold handleSst
  rw [readStruct_append hdr _ _ hhdr.symm]
  dsimp only
  rw [hc, h]
  have ht : xs.map (XStr.text T { w with sst := List.replicate (xs.length + m) [] }) =
      xs.map (XStr.text T w) :=
    List.map_congr_left (fun y _ => XStr.text_congr T _ w y rfl rfl)
  rw [ht]
  simp only [Nat.zero_add] at hs ⊢
  rw [hs]

theorem continueLoop_stopped (T : Tables) (n : Nat) (s : SstLoop) (h : s.err ≠ none) :
    continueLoop T n s = .ok s := by
  cases n with
  | zero => rfl
  | succ n => simp [continueLoop, h]

/-- A CONTINUE record that brings only part of the pending single-byte text. -/
theorem handleContinue_short_narrow (T : Tables) (w : WorkBook) (f : Nat) (p : List Nat)
    (pre : bof) (off rem : Nat) (hw : w.settled) (hpre : pre.Id = 0xfc)
    (hrem : w.continue_utf16 = rem) (hf : f < 256) (h8 : f &&& 0x8 = 0)
    (h4 : f &&& 0x4 = 0) (h1 : f &&& 0x1 = 0) (hlen : p.length < rem) (hsize : rem < 65536)
    (hoff : off < w.sst.length) :
    handleContinue T w (f :: p) pre off =
      .ok ⟨{ w with
              sst := appendAt w.sst off (decodeCharset T w p)
              continue_utf16 := rem - p.length }, pre, off⟩ := by
  unfold handleContinue
  have hge : w.continue_utf16 ≥ 1 := by omega
  rw [if_pos hpre, if_pos hge]
  dsimp only
  obtain ⟨k, hk⟩ : ∃ k, w.sst.length - off = k + 1 := ⟨w.sst.length - off - 1, by omega⟩
  rw [hk]
  simp only [continueLoop]
  have hc : True ∧ off < w.sst.length := ⟨trivial, hoff⟩
  rw [if_pos hc, hrem,
    get_string_short_narrow T _ f p rem (settled_utf16 w 0 hw) hf h8 h4 h1 hlen hsize]
  have hd := decodeCharset_congr T { w with continue_utf16 := 0 } w p rfl rfl
  simp [hd]

/-- A CONTINUE record that brings all of the pending text. -/
theorem handleContinue_complete (T : Tables) (w : WorkBook) (x : XStr) (pre : bof)
    (off : Nat) (hw : w.settled) (hpre : pre.Id = 0xfc)
    (hrem : w.continue_utf16 = x.units.length) (hx : x.plain) (hne : x.units ≠ [])
    (hoff : off < w.sst.length) :
    handleContinue T w (x.flag :: x.body) pre off =
      .ok ⟨{ w with
              sst := appendAt w.sst off (x.text T w)
              continue_utf16 := 0 }, pre, off + 1⟩ := by
  unfold handleContinue
  have hpos : 0 < x.units.length := List.length_pos.mpr hne
  have hge : w.continue_utf16 ≥ 1 := by omega
  rw [if_pos hpre, if_pos hge]
  dsimp only
  obtain ⟨k, hk⟩ : ∃ k, w.sst.length - off = k + 1 := ⟨w.sst.length - off - 1, by omega⟩
  rw [hk]
  simp only [continueLoop]
  have hc : True ∧ off < w.sst.length := ⟨trivial, hoff⟩
  have hg := get_string_complete T { w with continue_utf16 := 0 } x [] (settled_utf16 w 0 hw) hx
    (Or.inr (Or.inl hne))
  rw [List.append_nil] at hg
  rw [if_pos hc, hrem, hg]
  dsimp only
  have he : ¬ ((none : Option GoErr) = some GoErr.eof) := by simp
  rw [if_neg he, readUint_nil 2 _ (by omega)]
  rw [continueLoop_stopped T k _ (by simp)]
  have hd := XStr.text_congr T { w with continue_utf16 := 0 } w x rfl rfl
  simp [hd]

/-! ### UTF-16 decoding of a concatenation -/

theorem utf16Decode_singleton_append (r : Nat) (b : List Nat)
    (h : ¬ cutsPair [r] b) : utf16Decode (r :: b) = utf16Decode [r] ++ utf16Decode b := by
  cases b with
  | nil => simp [utf16Decode]
  | cons l rest =>
    by_cases hn : r < 0xd800 ∨ 0xe000 ≤ r
    · simp [utf16Decode, hn]
    · have hp : ¬ (r < 0xdc00 ∧ 0xdc00 ≤ l ∧ l < 0xe000) := by
        intro hp
        apply h
        refine ⟨r, l, rfl, rfl, ⟨by omega, hp.1⟩, hp.2⟩
      simp [utf16Decode, hn, hp]

theorem cutsPair_cons (r r2 : Nat) (rest b : List Nat) (h : ¬ cutsPair (r :: r2 :: rest) b) :
    ¬ cutsPair (r2 :: rest) b := by
  intro ⟨hh, l, h1, h2, h3, h4⟩
  exact h ⟨hh, l, by simpa [List.getLast?_cons_cons] using h1, h2, h3, h4⟩

/-- `utf16.Decode` of a concatenation is the concatenation of the decodings unless
the cut separates a surrogate pair. -/
theorem utf16Decode_append (a : List Nat) :
    ∀ (b : List Nat), ¬ cutsPair a b → utf16Decode (a ++ b) = utf16Decode a ++ utf16Decode b := by
  induction a using utf16Decode.induct with
  | case1 => intro b _; simp [utf16Decode]
  | case2 r hr => intro b h; exact utf16Decode_singleton_append r b h
  | case3 r hr => intro b h; exact utf16Decode_singleton_append r b h
  | case4 r r2 rest hn ih =>
    intro b h
    have := ih b (cutsPair_cons r r2 rest b h)
    simp only [List.cons_append] at this ⊢
    simp only [utf16Decode, hn, if_true]
    rw [this]
    simp
  | case5 r r2 rest hn hp ih =>
    intro b h
    cases rest with
    | nil =>
      cases b with
      | nil => simp [utf16Decode]
      | cons l b2 =>
        simp only [List.cons_append, List.nil_append]
        simp [utf16Decode, hn, hp]
    | cons r3 rest2 =>
      have hc : ¬ cutsPair (r3 :: rest2) b := cutsPair_cons r2 r3 rest2 b (cutsPair_cons r r2 _ b h)
      have := ih b hc
      simp only [List.cons_append] at this ⊢
      simp only [utf16Decode, hn, hp, if_false, if_true, and_self]
      rw [this]
      simp
  | case6 r r2 rest hn hp ih =>
    intro b h
    have := ih b (cutsPair_cons r r2 rest b h)
    simp only [List.cons_append] at this ⊢
    simp only [utf16Decode, hn, hp, if_false]
    rw [this]
    simp

/-! ### Strings cut at a record boundary -/

theorem appendAt_getD_self (sst : List (List Nat)) (i : Nat) (t : List Nat)
    (h : i < sst.length) : (appendAt sst i t).getD i [] = sst.getD i [] ++ t := by
  rw [List.getD_eq_getElem?_getD, appendAt_getElem?_self sst i t h]
  rfl

theorem getElem?_eq_getD (sst : List (List Nat)) (i : Nat) (h : i < sst.length) :
    sst[i]? = some (sst.getD i []) := by
  simp [List.getD_eq_getElem?_getD, List.getElem?_eq_getElem h]

theorem decodeCharset_nil (T : Tables) (w : WorkBook) : decodeCharset T w [] = [] := by
  simp [decodeCharset_eq]

theorem narrow_plain (p : List Nat) (h : p.length < 65536) : (⟨0, p⟩ : XStr).plain := by
  unfold XStr.plain
  simp only [Nat.zero_and, ne_eq, not_true_eq_false, false_implies, and_true]
  exact ⟨by decide, trivial, trivial, h⟩

theorem flatten_ne_nil (ps : List (List Nat)) (h : ps ≠ []) (hne : ∀ p ∈ ps, p ≠ []) :
    0 < ps.flatten.length := by
  cases ps with
  | nil => exact absurd rfl h
  | cons p ps =>
    have := List.length_pos.mpr (hne p (List.mem_cons_self _ _))
    simp
    omega

/-- A run of CONTINUE records, each with flag byte 0 and the next non-empty piece of
the pending single-byte text, the pieces adding up to the pending count: the open
slot receives the decoding of all the pieces. -/
theorem continue_chain (L : Layout) (T : Tables) (ps : List (List Nat)) :
    ∀ (s : PState), s.w.settled → s.pre.Id = 0xfc → s.offset < s.w.sst.length →
      s.w.continue_utf16 = ps.flatten.length → ps.flatten.length < 65536 →
      (∀ p ∈ ps, p ≠ []) →
      ∃ s1, handleAll L T s (ps.map (continueRecord 0)) = .ok s1 ∧
        s1.w.sst[s.offset]? =
          some (s.w.sst.getD s.offset [] ++ decodeCharset T s.w ps.flatten) := by
  induction ps with
  | nil =>
    intro s _ _ hoff _ _ _
    refine ⟨s, rfl, ?_⟩
    simp only [List.flatten_nil, decodeCharset_nil, List.append_nil]
    exact getElem?_eq_getD _ _ hoff
  | cons p ps ih =>
    intro s hw hpre hoff hrem hsize hne
    have hp : p ≠ [] := hne p (List.mem_cons_self _ _)
    have hne2 : ∀ q ∈ ps, q ≠ [] := fun q hq => hne q (List.mem_cons_of_mem _ hq)
    simp only [List.flatten_cons, List.length_append] at hrem hsize
    simp only [List.map_cons, handleAll]
    have hc : handle L T s.w (continueRecord 0 p).1 (continueRecord 0 p).2 s.pre s.offset =
        handleContinue T s.w (0 :: p) s.pre s.offset :=
      handle_continue_eq L T s.w _ _ s.pre s.offset rfl
    rw [hc]
    by_cases hps : ps = []
    · subst hps
      simp only [List.flatten_nil, List.length_nil, Nat.add_zero] at hrem hsize
      have hx := narrow_plain p hsize
      have hbody : (⟨0, p⟩ : XStr).body = p := by simp [XStr.body]
      have htext : (⟨0, p⟩ : XStr).text T s.w = decodeCharset T s.w p := by simp [XStr.text]
      have := handleContinue_complete T s.w ⟨0, p⟩ s.pre s.offset hw hpre hrem hx hp hoff
      rw [hbody, htext] at this
      rw [this]
      refine ⟨_, rfl, ?_⟩
      simp only [List.flatten_cons, List.flatten_nil, List.append_nil]
      exact appendAt_getElem?_self _ _ _ hoff
    · have hpos := flatten_ne_nil ps hps hne2
      have := handleContinue_short_narrow T s.w 0 p s.pre s.offset _ hw hpre hrem
        (by decide) (by decide) (by decide) (by decide) (by omega) hsize hoff
      rw [this]
      dsimp only
      obtain ⟨s1, h1, h2⟩ := ih
        ⟨{ s.w with
            sst := appendAt s.w.sst s.offset (decodeCharset T s.w p)
            continue_utf16 := p.length + ps.flatten.length - p.length }, s.pre, s.offset⟩
        hw hpre (by simp only [appendAt_length]; exact hoff)
        (by simp) (by omega) hne2
      refine ⟨s1, h1, ?_⟩
      rw [h2]
      dsimp only
      rw [appendAt_getD_self _ _ _ hoff, List.flatten_cons, decodeCharset_append,
        List.append_assoc]
      congr 3

/-- The slot right after the whole strings is still empty when the loop gets there. -/
theorem fill_slot_empty (c : Nat) (ts : List (List Nat)) :
    (fillFrom (List.replicate c []) 0 ts).getD ts.length [] = [] := by
  rw [fillFrom_getD_ge ts _ 0 ts.length [] (by omega), replicate_getD_nil]

theorem fill_length (c : Nat) (ts : List (List Nat)) :
    (fillFrom (List.replicate c ([] : List Nat)) 0 ts).length = c := by
  rw [fillFrom_length, List.length_replicate]

/-- The SST handler on whole plain strings followed by a string whose text is cut
after `p0`: the text so far is in the slot, the rest is pending. -/
theorem handleSst_short_narrow (L : Layout) (T : Tables) (w : WorkBook) (b : bof)
    (hdr : List Nat) (xs : List XStr) (f : Nat) (p0 : List Nat) (size : Nat)
    (hw : w.settled) (hhdr : hdr.length = L.sstInfoSize) (hxs : ∀ x ∈ xs, x.plain)
    (hcount : xs.length < L.sstCount.get hdr) (hf : f < 256) (h8 : f &&& 0x8 = 0)
    (h4 : f &&& 0x4 = 0) (h1 : f &&& 0x1 = 0) (hlen : p0.length < size)
    (hsize : size < 65536) :
    handleSst L T w b (sstPayload hdr xs (le16 size ++ f :: p0)) =
      .ok ⟨{ w with
              sst := appendAt (fillFrom (List.replicate (L.sstCount.get hdr) []) 0
                (xs.map (XStr.text T w))) xs.length (decodeCharset T w p0)
              continue_utf16 := size - p0.length }, b, xs.length⟩ := by
  obtain ⟨m, hm⟩ : ∃ m, L.sstCount.get hdr = xs.length + (m + 1) :=
    ⟨L.sstCount.get hdr - xs.length - 1, by omega⟩
  obtain ⟨sz1, e1, h⟩ := handleSst_strings L T w b hdr xs (le16 size ++ f :: p0) (m + 1) hw hhdr
    hxs (by simp [le16]) hm
  unfold sstPayload
  rw [h _ (sstLoop_short_narrow T m _ f p0 size sz1 e1 xs.length (settled_sst w _ hw) hf h8 h4 h1
    hlen hsize), hm]
  dsimp only
  congr 3

/-- The SST handler on whole plain strings followed by one more whole plain string
that ends the payload. -/
theorem handleSst_last_complete (L : Layout) (T : Tables) (w : WorkBook) (b : bof)
    (hdr : List Nat) (xs : List XStr) (x : XStr)
    (hw : w.settled) (hhdr : hdr.length = L.sstInfoSize) (hxs : ∀ y ∈ xs, y.plain)
    (hcount : xs.length < L.sstCount.get hdr) (hx : x.plain) (hne : x.units ≠ []) :
    handleSst L T w b (sstPayload hdr xs x.encode) =
      .ok ⟨{ w with
              sst := appendAt (fillFrom (List.replicate (L.sstCount.get hdr) []) 0
                (xs.map (XStr.text T w))) xs.length (x.text T w) }, b, xs.length + 1⟩ := by
  obtain ⟨m, hm⟩ : ∃ m, L.sstCount.get hdr = xs.length + (m + 1) :=
    ⟨L.sstCount.get hdr - xs.length - 1, by omega⟩
  obtain ⟨sz1, e1, h⟩ := handleSst_strings L T w b hdr xs x.encode (m + 1) hw hhdr
    hxs (XStr.encode_ne_nil x) hm
  have hstep := sstLoop_complete T m
    { w with
      sst := (fillFrom (List.replicate (xs.length + (m + 1)) []) 0 (xs.map (XStr.text T w))) }
    x [] sz1 e1 xs.length (settled_sst w _ hw) hx (Or.inr (Or.inl hne))
  rw [List.append_nil] at hstep
  obtain ⟨sz2, e2, hend⟩ := sstLoop_at_end T m
    { w with
      sst := (appendAt (fillFrom (List.replicate (xs.length + (m + 1)) []) 0
        (xs.map (XStr.text T w))) xs.length (x.text T w)) } x.units.length none (xs.length + 1)
  have htext : x.text T { w with
      sst := (fillFrom (List.replicate (xs.length + (m + 1)) []) 0 (xs.map (XStr.text T w))) } =
      x.text T w := XStr.text_congr T _ w x rfl rfl
  rw [htext] at hstep
  unfold sstPayload
  rw [h _ (hstep.trans hend), hm]

/-- C4, amended. Modern mode, no rich-text or phonetic carry pending. An SST record
holds whole strings without rich-text and phonetic data and then, within the declared
count, a single-byte string of `n` bytes whose flag byte has the rich-text and
phonetic bits clear and whose text is cut after the first piece `p0`; `m ≥ 1` CONTINUE
records follow, each with flag byte 0 and the next non-empty piece. Afterwards the
string's slot holds the charset decoding of all `n` bytes, which is also what the SST
record with the whole string gives. -/
theorem single_byte_string_across_continues (L : Layout) (T : Tables) (w : WorkBook)
    (pre : bof) (off : Nat) (hdr : List Nat) (xs : List XStr) (f : Nat) (p0 : List Nat)
    (ps : List (List Nat)) (hw : w.settled) (hhdr : hdr.length = L.sstInfoSize)
    (hxs : ∀ x ∈ xs, x.plain) (hcount : xs.length < L.sstCount.get hdr)
    (hf : f < 256) (h8 : f &&& 0x8 = 0) (h4 : f &&& 0x4 = 0) (h1 : f &&& 0x1 = 0)
    (hp0 : p0 ≠ []) (hps : ps ≠ []) (hne : ∀ p ∈ ps, p ≠ [])
    (hn : (p0 ++ ps.flatten).length < 65536) :
    (∃ s, handleAll L T ⟨w, pre, off⟩
        (sstRecord (sstPayload hdr xs (le16 (p0 ++ ps.flatten).length ++ f :: p0)) ::
          ps.map (continueRecord 0)) = .ok s ∧
        s.w.sst[xs.length]? = some (decodeCharset T w (p0 ++ ps.flatten))) ∧
    (∃ s, handleAll L T ⟨w, pre, off⟩
        [sstRecord (sstPayload hdr xs (le16 (p0 ++ ps.flatten).length ++ f :: (p0 ++ ps.flatten)))]
          = .ok s ∧
        s.w.sst[xs.length]? = some (decodeCharset T w (p0 ++ ps.flatten))) := by
  have hpos := flatten_ne_nil ps hps hne
  have hlen : (p0 ++ ps.flatten).length = p0.length + ps.flatten.length := List.length_append _ _
  constructor
  · simp only [handleAll, sstRecord]
    rw [handle_sst_eq L T w _ _ pre off rfl,
      handleSst_short_narrow L T w _ hdr xs f p0 _ hw hhdr hxs hcount hf h8 h4 h1 (by omega) hn]
    dsimp only
    have hj : xs.length < (fillFrom (List.replicate (L.sstCount.get hdr) ([] : List Nat)) 0
        (xs.map (XStr.text T w))).length := by rw [fill_length]; exact hcount
    obtain ⟨s1, hs1, hslot⟩ := continue_chain L T ps
      ⟨{ w with
          sst := appendAt (fillFrom (List.replicate (L.sstCount.get hdr) []) 0
            (xs.map (XStr.text T w))) xs.length (decodeCharset T w p0)
          continue_utf16 := (p0 ++ ps.flatten).length - p0.length },
        ⟨0xfc, (sstPayload hdr xs (le16 (p0 ++ ps.flatten).length ++ f :: p0)).length⟩, xs.length⟩
      hw rfl (by simp only [appendAt_length]; exact hj)
      (by simp) (by omega) hne
    refine ⟨s1, hs1, ?_⟩
    rw [hslot]
    dsimp only
    rw [appendAt_getD_self _ _ _ hj]
    have h0 := fill_slot_empty (L.sstCount.get hdr) (xs.map (XStr.text T w))
    rw [List.length_map] at h0
    rw [h0, List.nil_append, decodeCharset_append]
    congr 2
  · simp only [handleAll, sstRecord]
    have hx : (⟨f, p0 ++ ps.flatten⟩ : XStr).plain := by
      refine ⟨hf, h8, h4, hn, ?_⟩
      intro hh
      exact absurd h1 hh
    have hbody : (⟨f, p0 ++ ps.flatten⟩ : XStr).body = p0 ++ ps.flatten := by
      simp [XStr.body, h1]
    have htext : (⟨f, p0 ++ ps.flatten⟩ : XStr).text T w = decodeCharset T w (p0 ++ ps.flatten) := by
      simp [XStr.text, h1]
    have henc : (⟨f, p0 ++ ps.flatten⟩ : XStr).encode =
        le16 (p0 ++ ps.flatten).length ++ f :: (p0 ++ ps.flatten) := by
      simp [XStr.encode, hbody]
    have hne2 : (⟨f, p0 ++ ps.flatten⟩ : XStr).units ≠ [] := by simp [hp0]
    have := handleSst_last_complete L T w ⟨0xfc, (sstPayload hdr xs
      (le16 (p0 ++ ps.flatten).length ++ f :: (p0 ++ ps.flatten))).length⟩ hdr xs
      ⟨f, p0 ++ ps.flatten⟩ hw hhdr hxs hcount hx hne2
    rw [henc, htext] at this
    rw [handle_sst_eq L T w _ _ pre off rfl, this]
    refine ⟨_, rfl, ?_⟩
    dsimp only
    have hj : xs.length < (fillFrom (List.replicate (L.sstCount.get hdr) ([] : List Nat)) 0
        (xs.map (XStr.text T w))).length := by rw [fill_length]; exact hcount
    rw [appendAt_getElem?_self _ _ _ hj]
    have h0 := fill_slot_empty (L.sstCount.get hdr) (xs.map (XStr.text T w))
    rw [List.length_map] at h0
    rw [h0, List.nil_append]

theorem runesToString_append (a b : List Nat) :
    runesToString (a ++ b) = runesToString a ++ runesToString b := by
  simp [runesToString]

/-- The SST handler on whole plain strings followed by a UTF-16 string of which only
the units `us` are in the payload. -/
theorem handleSst_short_wide (L : Layout) (T : Tables) (w : WorkBook) (b : bof)
    (hdr : List Nat) (xs : List XStr) (f : Nat) (us : List Nat) (size : Nat)
    (hw : w.settled) (hhdr : hdr.length = L.sstInfoSize) (hxs : ∀ x ∈ xs, x.plain)
    (hcount : xs.length < L.sstCount.get hdr) (hf : f < 256) (h8 : f &&& 0x8 = 0)
    (h4 : f &&& 0x4 = 0) (h1 : f &&& 0x1 ≠ 0) (hu : ∀ u ∈ us, u < 65536)
    (hlen : us.length < size) (hsize : size < 65536) :
    handleSst L T w b (sstPayload hdr xs (le16 size ++ f :: unitBytes us)) =
      .ok ⟨{ w with
              sst := appendAt (fillFrom (List.replicate (L.sstCount.get hdr) []) 0
                (xs.map (XStr.text T w))) xs.length (runesToString (utf16Decode us))
              continue_utf16 := size - us.length }, b, xs.length⟩ := by
  obtain ⟨m, hm⟩ : ∃ m, L.sstCount.get hdr = xs.length + (m + 1) :=
    ⟨L.sstCount.get hdr - xs.length - 1, by omega⟩
  obtain ⟨sz1, e1, h⟩ := handleSst_strings L T w b hdr xs (le16 size ++ f :: unitBytes us)
    (m + 1) hw hhdr hxs (by simp [le16]) hm
  unfold sstPayload
  rw [h _ (sstLoop_short_wide T m _ f us size sz1 e1 xs.length (settled_sst w _ hw) hf h8 h4 h1
    hu hlen hsize), hm]

/-- Where the carried unit count is enough. Modern mode, no carry pending. An SST
record holds whole plain strings and then a UTF-16 string of `n` units whose text is
cut after the first `k` units, `0 < k < n`; a CONTINUE record follows with a flag byte
that has the UTF-16 bit set (rich-text and phonetic bits clear) and the remaining
`n - k` units. When the cut does not separate a high surrogate from the low surrogate
after it, the string's slot then holds the text the SST record with all `n` units
gives. -/
theorem utf16_string_across_continue (L : Layout) (T : Tables) (w : WorkBook)
    (pre : bof) (off : Nat) (hdr : List Nat) (xs : List XStr) (f0 f1 : Nat) (us : List Nat)
    (k : Nat) (hw : w.settled) (hhdr : hdr.length = L.sstInfoSize)
    (hxs : ∀ x ∈ xs, x.plain) (hcount : xs.length < L.sstCount.get hdr)
    (hf0 : f0 < 256 ∧ f0 &&& 0x8 = 0 ∧ f0 &&& 0x4 = 0 ∧ f0 &&& 0x1 ≠ 0)
    (hf1 : f1 < 256 ∧ f1 &&& 0x8 = 0 ∧ f1 &&& 0x4 = 0 ∧ f1 &&& 0x1 ≠ 0)
    (hu : ∀ u ∈ us, u < 65536) (hk0 : 0 < k) (hkn : k < us.length) (hn : us.length < 65536)
    (hcut : ¬ cutsPair (us.take k) (us.drop k)) :
    (∃ s, handleAll L T ⟨w, pre, off⟩
        [sstRecord (sstPayload hdr xs (le16 us.length ++ f0 :: unitBytes (us.take k))),
          continueRecord f1 (unitBytes (us.drop k))] = .ok s ∧
        s.w.sst[xs.length]? = some (runesToString (utf16Decode us))) ∧
    (∃ s, handleAll L T ⟨w, pre, off⟩
        [sstRecord (sstPayload hdr xs (le16 us.length ++ f0 :: unitBytes us))] = .ok s ∧
        s.w.sst[xs.length]? = some (runesToString (utf16Decode us))) := by
  obtain ⟨hf0a, hf0b, hf0c, hf0d⟩ := hf0
  obtain ⟨hf1a, hf1b, hf1c, hf1d⟩ := hf1
  have hj : xs.length < (fillFrom (List.replicate (L.sstCount.get hdr) ([] : List Nat)) 0
      (xs.map (XStr.text T w))).length := by rw [fill_length]; exact hcount
  have h0 := fill_slot_empty (L.sstCount.get hdr) (xs.map (XStr.text T w))
  rw [List.length_map] at h0
  constructor
  · simp only [handleAll, sstRecord, continueRecord]
    have htake : (us.take k).length = k := by rw [List.length_take]; omega
    have hdrop : (us.drop k).length = us.length - k := List.length_drop _ _
    rw [handle_sst_eq L T w _ _ pre off rfl,
      handleSst_short_wide L T w _ hdr xs f0 (us.take k) us.length hw hhdr hxs hcount hf0a hf0b
        hf0c hf0d (fun u hu1 => hu u (List.mem_of_mem_take hu1)) (by omega) hn]
    dsimp only
    have hx : (⟨f1, us.drop k⟩ : XStr).plain :=
      ⟨hf1a, hf1b, hf1c, by rw [hdrop]; omega, fun _ u hu1 => hu u (List.mem_of_mem_drop hu1)⟩
    have hbody : (⟨f1, us.drop k⟩ : XStr).body = unitBytes (us.drop k) := by
      simp only [XStr.body]; rw [if_pos hf1d]
    have hne : (⟨f1, us.drop k⟩ : XStr).units ≠ [] := by
      intro h
      have : (us.drop k).length = 0 := by rw [show us.drop k = [] from h]; rfl
      omega
    have hc := handleContinue_complete T
      { w with
        sst := appendAt (fillFrom (List.replicate (L.sstCount.get hdr) []) 0
          (xs.map (XStr.text T w))) xs.length (runesToString (utf16Decode (us.take k)))
        continue_utf16 := us.length - (us.take k).length }
      ⟨f1, us.drop k⟩ ⟨0xfc, (sstPayload hdr xs
        (le16 us.length ++ f0 :: unitBytes (us.take k))).length⟩ xs.length hw rfl
      (by show us.length - (us.take k).length = (us.drop k).length; rw [htake, hdrop]) hx hne
      (by simp only [appendAt_length]; exact hj)
    rw [hbody] at hc
    rw [handle_continue_eq L T _ _ _ _ _ rfl, hc]
    refine ⟨_, rfl, ?_⟩
    dsimp only
    rw [appendAt_getElem?_self _ _ _ (by simp only [appendAt_length]; exact hj),
      appendAt_getD_self _ _ _ hj, h0, List.nil_append]
    have ht : (⟨f1, us.drop k⟩ : XStr).text T
        { w with
          sst := appendAt (fillFrom (List.replicate (L.sstCount.get hdr) []) 0
            (xs.map (XStr.text T w))) xs.length (runesToString (utf16Decode (us.take k)))
          continue_utf16 := us.length - (us.take k).length } =
        runesToString (utf16Decode (us.drop k)) := by
      simp only [XStr.text]; rw [if_pos hf1d]
    rw [ht, ← runesToString_append, ← utf16Decode_append _ _ hcut, List.take_append_drop]
  · simp only [handleAll, sstRecord]
    have hx : (⟨f0, us⟩ : XStr).plain := ⟨hf0a, hf0b, hf0c, hn, fun _ => hu⟩
    have hbody : (⟨f0, us⟩ : XStr).body = unitBytes us := by
      simp only [XStr.body]; rw [if_pos hf0d]
    have htext : (⟨f0, us⟩ : XStr).text T w = runesToString (utf16Decode us) := by
      simp only [XStr.text]; rw [if_pos hf0d]
    have henc : (⟨f0, us⟩ : XStr).encode = le16 us.length ++ f0 :: unitBytes us := by
      simp only [XStr.encode, hbody]
    have hne : (⟨f0, us⟩ : XStr).units ≠ [] := by
      intro h
      have : us.length = 0 := by rw [show us = [] from h]; rfl
      omega
    have := handleSst_last_complete L T w ⟨0xfc, (sstPayload hdr xs
      (le16 us.length ++ f0 :: unitBytes us)).length⟩ hdr xs ⟨f0, us⟩ hw hhdr hxs hcount hx hne
    rw [henc, htext] at this
    rw [handle_sst_eq L T w _ _ pre off rfl, this]
    refine ⟨_, rfl, ?_⟩
    dsimp only
    rw [appendAt_getElem?_self _ _ _ hj, h0, List.nil_append]

/-- C3. The claim fails on the code when the record boundary separates the two units
of a surrogate pair: the count of missing units is carried into the CONTINUE record,
but the units of each record are decoded on their own, so for D83D DE00 cut between
its units the slot holds two U+FFFD, and U+1F600 when both units are in one record. -/
theorem surrogate_pair_cut_decodes_differently :
    sstOf asciiTables surrogateSplit = .ok [[0xEF, 0xBF, 0xBD, 0xEF, 0xBF, 0xBD]] ∧
    sstOf asciiTables surrogateUnsplit = .ok [[0xF0, 0x9F, 0x98, 0x80]] ∧
    sstOf asciiTables surrogateSplit ≠ sstOf asciiTables surrogateUnsplit := by
  have h1 : sstOf asciiTables surrogateSplit = .ok [[0xEF, 0xBF, 0xBD, 0xEF, 0xBF, 0xBD]] := rfl
  have h2 : sstOf asciiTables surrogateUnsplit = .ok [[0xF0, 0x9F, 0x98, 0x80]] := rfl
  refine ⟨h1, h2, ?_⟩
  rw [h1, h2]
  intro h
  injection h with h
  revert h
  decide

/-- The string "hi" in UTF-16 cut after "h". -/
theorem utf16_string_across_continue_witness :
    (∃ s, handleAll biff8 asciiTables (initState (emptyWorkBook [] ""))
        [(⟨0xfc, 13⟩, oneStringInfo ++ [2, 0, 1, 0x68, 0]), (⟨0x3c, 3⟩, [1, 0x69, 0])] = .ok s ∧
        s.w.sst[0]? = some [0x68, 0x69]) ∧
    (∃ s, handleAll biff8 asciiTables (initState (emptyWorkBook [] ""))
        [(⟨0xfc, 15⟩, oneStringInfo ++ [2, 0, 1, 0x68, 0, 0x69, 0])] = .ok s ∧
        s.w.sst[0]? = some [0x68, 0x69]) :=
  utf16_string_across_continue biff8 asciiTables (emptyWorkBook [] "") ⟨0, 0⟩ 0 oneStringInfo []
    1 1 [0x68, 0x69] 1 ⟨rfl, rfl, rfl⟩ rfl (by simp) (by decide) (by decide) (by decide)
    (by decide) (by decide) (by decide) (by decide)
    (by decide)

/-- C4, amended, at the string "Hi" of the end-to-end stream: count 1, "H" in the SST
record and "i" in one CONTINUE record; also the whole stream parsed from the start. -/
theorem single_byte_string_across_continues_witness :
    ((∃ s, handleAll biff8 asciiTables (initState (emptyWorkBook [] "")) [hiSst, hiContinue]
        = .ok s ∧ s.w.sst[0]? = some [0x48, 0x69]) ∧
     (∃ s, handleAll biff8 asciiTables (initState (emptyWorkBook [] ""))
        [(⟨0xfc, 13⟩, oneStringInfo ++ [2, 0, 0, 0x48, 0x69])] = .ok s ∧
        s.w.sst[0]? = some [0x48, 0x69])) ∧
    sstOf asciiTables hiStream = .ok [[0x48, 0x69]] :=
  ⟨single_byte_string_across_continues biff8 asciiTables (emptyWorkBook [] "") ⟨0, 0⟩ 0
    oneStringInfo [] 0 [0x48] [[0x69]] ⟨rfl, rfl, rfl⟩ rfl (by simp) (by decide) (by decide)
    (by decide) (by decide) (by decide) (by decide) (by decide) (by simp) (by decide), rfl⟩

/-! ### Loop bounds -/

theorem readFull_rest_length (r : List Nat) (n : Nat) : (readFull r n).rest.length ≤ r.length := by
  unfold readFull
  split_ifs <;> simp

theorem readStruct_rest_length (r : List Nat) (n : Nat) :
    (readStruct r n).2.length ≤ r.length := by
  unfold readStruct
  have := readFull_rest_length r n
  dsimp only
  split <;> exact this

theorem readBof_rest_length (buf : List Nat) (b : bof) (rest : List Nat)
    (h : readBof buf = some (b, rest)) : rest.length + 4 ≤ buf.length := by
  unfold readBof readFull at h
  split_ifs at h with h4 hn
  · simp only [Option.some.injEq, Prod.mk.injEq] at h
    rw [← h.2]
    simp
    omega

/-- The bound of `records` does not matter once it reaches the length of the stream:
every record takes at least the four header bytes. -/
theorem records_fuel (fuel1 : Nat) :
    ∀ (fuel2 : Nat) (buf : List Nat), buf.length ≤ fuel1 → buf.length ≤ fuel2 →
      records fuel1 buf = records fuel2 buf := by
  induction fuel1 with
  | zero =>
    intro fuel2 buf h1 _
    have hb : buf = [] := List.length_eq_zero.mp (by omega)
    subst hb
    cases fuel2 with
    | zero => rfl
    | succ n => simp [records, readBof_short [] (by simp)]
  | succ n ih =>
    intro fuel2 buf h1 h2
    cases fuel2 with
    | zero =>
      have hb : buf = [] := List.length_eq_zero.mp (by omega)
      subst hb
      simp [records, readBof_short [] (by simp)]
    | succ m =>
      simp only [records]
      cases hb : readBof buf with
      | none => rfl
      | some p =>
        obtain ⟨b, rest⟩ := p
        dsimp only
        have h3 := readBof_rest_length buf b rest hb
        have h4 := readStruct_rest_length rest b.Size
        rw [ih m _ (by omega) (by omega)]

/-- The bound of the loop of `Parse` does not matter once it reaches the length of
the stream. -/
theorem ParseLoop_fuel (L : Layout) (T : Tables) (fuel : Nat) (buf : List Nat) (s : PState)
    (h : buf.length ≤ fuel) : ParseLoop L T fuel buf s = ParseLoop L T buf.length buf s := by
  rw [ParseLoop_eq_handleAll, ParseLoop_eq_handleAll, records_fuel fuel buf.length buf h (le_refl _)]

/-- The bound of the CONTINUE loop does not matter once it reaches the number of
slots from the resume index on. -/
theorem continueLoop_fuel (T : Tables) (n : Nat) :
    ∀ (m : Nat) (s : SstLoop), s.w.sst.length - s.offset ≤ n → s.w.sst.length - s.offset ≤ m →
      continueLoop T n s = continueLoop T m s := by
  induction n with
  | zero =>
    intro m s h1 _
    cases m with
    | zero => rfl
    | succ m =>
      have : ¬ (s.err = none ∧ s.offset < s.w.sst.length) := by
        intro hc
        omega
      simp [continueLoop, this]
  | succ n ih =>
    intro m s h1 h2
    cases m with
    | zero =>
      have : ¬ (s.err = none ∧ s.offset < s.w.sst.length) := by
        intro hc
        omega
      simp [continueLoop, this]
    | succ m =>
      simp only [continueLoop]
      split_ifs with hc
      · cases hg : get_string T s.w s.buf s.size with
        | error f => rfl
        | ok g =>
          dsimp only
          split_ifs with he
          · rfl
          · have hl := (get_string_append_frame T s.w s.buf s.size s.offset g hg).2
            apply ih
            · dsimp only
              rw [hl]
              omega
            · dsimp only
              rw [hl]
              omega
      · rfl

/-- The second of two `GetSheet` calls for the same index hands back the same
descriptor and leaves the workbook as it is, whatever the sheet decoder: it does
not parse. -/
theorem GetSheet_second_call (L : Layout) (D D1 : SheetParse) (w : WorkBook) (num : Int)
    (s1 : WorkSheet) (w1 : WorkBook)
    (h : GetSheet L (parseSheet D) w num = .ok (some s1, w1)) :
    GetSheet L D1 w1 num = .ok (some s1, w1) := by
  unfold GetSheet at h
  split_ifs at h with hlt
  swap
  · simp at h
  split at h
  · cases h
  · rename_i s hs
    unfold goIndex at hs
    split_ifs at hs with hneg
    split at hs
    · rename_i x hx
      injection hs with hs
      subst hs
      have hlen : num.toNat < w.sheets.length := by
        have := List.getElem?_eq_some_iff.mp hx
        exact this.1
      split_ifs at h with hp
      · simp only [Except.ok.injEq, Prod.mk.injEq, Option.some.injEq] at h
        obtain ⟨h1, h2⟩ := h
        subst h1 h2
        unfold GetSheet
        have hlt2 : num < ((w.sheets.set num.toNat (prepareSheet L (parseSheet D) w x)).length : Int) := by
          simpa using hlt
        simp only [hlt2, if_true]
        have hget : (w.sheets.set num.toNat (prepareSheet L (parseSheet D) w x))[num.toNat]? =
            some (prepareSheet L (parseSheet D) w x) := by
          simp [List.getElem?_set, hlen]
        have hpar : (prepareSheet L (parseSheet D) w x).parsed = true := rfl
        simp [goIndex, hneg, hget, hpar]
      · simp only [Except.ok.injEq, Prod.mk.injEq, Option.some.injEq] at h
        obtain ⟨h1, h2⟩ := h
        subst h1 h2
        unfold GetSheet
        simp only [hlt, if_true]
        have hpar : x.parsed = true := by simpa using hp
        simp [goIndex, hneg, hx, hpar]
    · cases hs

/-- C11. The claim fails on the code at `ReadAllCells`: the first `GetSheet(0)`
parses the sheet (one run of the decoder), the second returns the same descriptor
without parsing, but `ReadAllCells(1)` afterwards calls `prepareSheet` without
looking at `parsed` and the decoder runs a second time. -/
theorem ReadAllCells_parses_again :
    GetSheet biff8 (parseSheet countingDecoder) hiAfterAll.w 0 =
        .ok (some (sheet1After 1), bookAfter 1) ∧
    GetSheet biff8 (parseSheet countingDecoder) (bookAfter 1) 0 =
        .ok (some (sheet1After 1), bookAfter 1) ∧
    ReadAllCells biff8 (parseSheet countingDecoder) (bookAfter 1) 1 =
        .ok ([[]], bookAfter 2) :=
  ⟨rfl, rfl, rfl⟩

/-- C19. The claim fails on the code: with three loaded sheets of two rows each and
`max = 5` the call returns 4 rows, not `min 5 6 = 5`; for the third sheet `max` has
already been lowered to 3 by the second pass and the 4 rows read so far are compared
with that. -/
theorem ReadAllCells_stops_early :
    ReadAllCells biff8 markParsed threeSheetBook 5 = .ok ([[], [], [], []], threeSheetBook) :=
  rfl

/-- C13. The claim fails on the code when the first part ends with an empty
single-byte string: `Read` into a zero-length slice at the end of the payload
reports `io.EOF`, the SST loop leaves without advancing, and the CONTINUE handler
resumes at the slot of the empty string, so "B" lands in slot 0. -/
theorem empty_string_before_boundary_shifts_table :
    sstOf asciiTables emptyThenB = .ok [[], [0x42]] ∧
    sstOf asciiTables emptyThenBSplit = .ok [[0x42], []] :=
  ⟨rfl, rfl⟩

/-- C14. The claim fails on the code for an odd number of bytes: with size 2 and one
dangling byte behind the flag the failed read reports `io.ErrUnexpectedEOF`, `i` is
not taken back, and the result is one NUL character with remainder 1 instead of the
empty text with remainder 2; with size 1 the remainder is not set at all. With an
even number of bytes the result is as the claim says. -/
theorem dangling_byte_decodes_extra_unit :
    get_string asciiTables (emptyWorkBook [] "") [0x01, 0x68] 2 =
        .ok ⟨[0], some .unexpectedEOF, { emptyWorkBook [] "" with continue_utf16 := 1 }, []⟩ ∧
    get_string asciiTables (emptyWorkBook [] "") [0x01, 0x68] 1 =
        .ok ⟨[0], some .unexpectedEOF, emptyWorkBook [] "", []⟩ ∧
    get_string asciiTables (emptyWorkBook [] "") [0x01, 0x68, 0x00] 2 =
        .ok ⟨[0x68], some .eof, { emptyWorkBook [] "" with continue_utf16 := 1 }, []⟩ :=
  ⟨rfl, rfl, rfl⟩

/-- C15 as stated fails: a single-byte text of size 2 of which one byte is there
leaves the pending remainder at 1, not at the 0 it had before the call. -/
theorem single_byte_truncation_changes_remainder :
    (emptyWorkBook [] "").continue_utf16 = 0 ∧
    get_string asciiTables (emptyWorkBook [] "") [0x00, 0x48] 2 =
        .ok ⟨[0x48], some .eof, { emptyWorkBook [] "" with continue_utf16 := 1 }, []⟩ :=
  ⟨rfl, rfl⟩

/-- C15, amended. Modern mode, no rich-text or phonetic carry pending: on a flag
byte with the UTF-16, rich-text and phonetic bits clear followed by `m < n` bytes,
`get_string` returns the charset decoding of those bytes with `io.EOF`, has read
all of them, and sets the pending remainder to `n - m`. -/
theorem single_byte_truncation_sets_remainder (T : Tables) (w : WorkBook) (f : Nat)
    (piece : List Nat) (n : Nat) (hw : w.settled) (hf : f < 256) (h8 : f &&& 0x8 = 0)
    (h4 : f &&& 0x4 = 0) (h1 : f &&& 0x1 = 0) (hm : piece.length < n) (hn : n < 65536) :
    get_string T w (f :: piece) n =
      .ok ⟨decodeCharset T w piece, some .eof,
        { w with continue_utf16 := n - piece.length }, []⟩ :=
  get_string_short_narrow T w f piece n hw hf h8 h4 h1 hm hn

/-- C15, amended, at "H" of the two bytes "Hi". -/
theorem single_byte_truncation_sets_remainder_witness :
    get_string asciiTables (emptyWorkBook [] "") (0x00 :: [0x48]) 2 =
      .ok ⟨decodeCharset asciiTables (emptyWorkBook [] "") [0x48], some .eof,
        { emptyWorkBook [] "" with continue_utf16 := 2 - [0x48].length }, []⟩ :=
  single_byte_truncation_sets_remainder asciiTables (emptyWorkBook [] "") 0x00 [0x48] 2
    (by decide) (by decide) (by decide) (by decide) (by decide) (by decide) (by decide)

/-- C20 as stated fails: after a header of version 0x500 a second header of version
0x600 leaves the workbook legacy. -/
theorem modern_header_does_not_clear_legacy :
    (newWorkBookFromOle2 biff8 asciiTables legacyThenModern "").map
        (fun w => (w.Is5ver, w.Type_)) = .ok (true, 0x10) ∧
    biff8.biffVer.get (headerOf biff8 ((legacyThenModern.drop 24).take 16)) = 0x600 :=
  ⟨rfl, rfl⟩

/-- C20, amended. After a header record the workbook is legacy exactly when the
record's version field differs from 0x600 or the workbook was legacy before; the
workbook type is the record's type field. -/
theorem header_sets_revision (L : Layout) (T : Tables) (w : WorkBook) (b : bof)
    (bts : List Nat) (pre : bof) (off : Nat) (hb : b.Id = 0x809) :
    ∃ s, handle L T w b bts pre off = .ok s ∧
      (s.w.Is5ver = true ↔ (L.biffVer.get (headerOf L bts) ≠ 0x600 ∨ w.Is5ver = true)) ∧
      s.w.Type_ = L.biffType.get (headerOf L bts) := by
  unfold handle
  rw [if_pos hb]
  refine ⟨_, rfl, ?_, rfl⟩
  dsimp only
  unfold headerOf
  split_ifs with hv
  · simp [hv]
  · simp [hv]

/-- C20, amended, at the second header of `legacyThenModern` met in a legacy
workbook and in a modern one. -/
theorem header_sets_revision_witness :
    (∃ s, handle biff8 asciiTables { emptyWorkBook [] "" with Is5ver := true } ⟨0x809, 16⟩
        ((legacyThenModern.drop 24).take 16) ⟨0, 0⟩ 0 = .ok s ∧
      (s.w.Is5ver = true ↔
        (biff8.biffVer.get (headerOf biff8 ((legacyThenModern.drop 24).take 16)) ≠ 0x600 ∨
          ({ emptyWorkBook [] "" with Is5ver := true } : WorkBook).Is5ver = true)) ∧
      s.w.Type_ = biff8.biffType.get (headerOf biff8 ((legacyThenModern.drop 24).take 16))) ∧
    (∃ s, handle biff8 asciiTables (emptyWorkBook [] "") ⟨0x809, 16⟩
        ((legacyThenModern.drop 24).take 16) ⟨0, 0⟩ 0 = .ok s ∧
      (s.w.Is5ver = true ↔
        (biff8.biffVer.get (headerOf biff8 ((legacyThenModern.drop 24).take 16)) ≠ 0x600 ∨
          (emptyWorkBook [] "").Is5ver = true)) ∧
      s.w.Type_ = biff8.biffType.get (headerOf biff8 ((legacyThenModern.drop 24).take 16))) :=
  ⟨header_sets_revision biff8 asciiTables _ ⟨0x809, 16⟩ _ ⟨0, 0⟩ 0 rfl,
   header_sets_revision biff8 asciiTables _ ⟨0x809, 16⟩ _ ⟨0, 0⟩ 0 rfl⟩

/-- The rich-text skip when the whole run block is there and `4 * r` fits 16 bits. -/
theorem gsSkipRich_exact (s : GsState) (block rest : List Nat) (h5 : s.w.Is5ver = false)
    (hr : 0 < s.richtext_num) (hb : s.buf = block ++ rest)
    (hlen : block.length = 4 * s.richtext_num) (hfit : 4 * s.richtext_num < 65536) :
    gsSkipRich s = { s with buf := rest, err := none } := by
  unfold gsSkipRich
  have hI : ¬ (s.w.Is5ver = true) := by rw [h5]; decide
  have hrd : readFull s.buf (4 * s.richtext_num % 65536) = ⟨none, block, rest⟩ := by
    rw [Nat.mod_eq_of_lt hfit, hb, readFull_append block rest _ hlen.symm]
  rw [if_pos hr]
  simp only [if_neg hI, hrd]
  simp

/-- Beyond the length of a record payload the 16-bit product shows: for the run count
16384 it is 0 and, behind the complete text "A", `get_string` reads past no byte of
what follows. A reader that holds the 65536 bytes of such a run block is longer than
any payload `parseBof` makes. -/
theorem rich_skip_wraps_at_16384 (T : Tables) (tail : List Nat) :
    get_string T (emptyWorkBook [] "") ([0x08, 0x00, 0x40, 0x41] ++ tail) 1 =
      .ok ⟨decodeCharset T (emptyWorkBook [] "") [0x41], none, emptyWorkBook [] "", tail⟩ := by
  have h1 : readUint (0x08 :: ([0x00, 0x40, 0x41] ++ tail)) 1 0 =
      ⟨none, 0x08, [0x00, 0x40, 0x41] ++ tail⟩ := readUint_cons _ _ _ (by decide)
  have h2 : readUint ([0x00, 0x40] ++ (0x41 :: tail)) 2 0 = ⟨none, le [0x00, 0x40], 0x41 :: tail⟩ :=
    readUint_append _ _ _ _ rfl
  have hle : le [0x00, 0x40] = 16384 := by decide
  have hflag : gsFlagRich (emptyWorkBook [] "") ([0x08, 0x00, 0x40, 0x41] ++ tail) =
      (0x08, ⟨emptyWorkBook [] "", 0x41 :: tail, none, 16384, 0, []⟩) := by
    simp only [List.cons_append, List.nil_append] at h1 h2 ⊢
    unfold gsFlagRich
    have h8 : (0x08 : Nat) &&& 0x8 ≠ 0 := by decide
    simp only [h1, h2, hle, if_pos h8]
  have hph := gsPhonetic_plain 0x08 ⟨emptyWorkBook [] "", 0x41 :: tail, none, 16384, 0, []⟩
    (by decide) rfl
  have htext := gsTextNarrow_complete T ⟨emptyWorkBook [] "", 0x41 :: tail, none, 16384, 0, []⟩
    [0x41] tail rfl (by decide) (by simp)
  have hskip : gsSkipRich ⟨emptyWorkBook [] "", tail, none, 16384, 0,
      decodeCharset T (emptyWorkBook [] "") [0x41]⟩ =
      ⟨emptyWorkBook [] "", tail, none, 16384, 0, decodeCharset T (emptyWorkBook [] "") [0x41]⟩ := by
    unfold gsSkipRich
    have hz : 4 * 16384 % 65536 = 0 := by decide
    have h4 : readFull tail 0 = ⟨none, [], tail⟩ := by simp [readFull]
    have hI : ¬ ((emptyWorkBook [] "").Is5ver = true) := by decide
    simp [hI, hz, h4]
  have h1n : ¬ ((0x08 : Nat) &&& 0x1 ≠ 0) := by decide
  have hI : ¬ ((emptyWorkBook [] "").Is5ver = true) := by decide
  unfold get_string
  rw [if_neg hI, hflag]
  dsimp only
  rw [hph, if_neg h1n]
  simp only [List.length_singleton] at htext
  rw [htext]
  dsimp only
  rw [hskip, gsSkipPhonetic_zero _ rfl]

theorem fillRows_length (leng : Int) (rows : List (Nat × Row)) :
    ∀ (temp temp1 : List (List (List Nat))), fillRows leng rows temp = .ok temp1 →
      temp1.length = temp.length := by
  induction rows with
  | nil =>
    intro temp temp1 h
    simp only [fillRows] at h
    injection h with h
    rw [h]
  | cons kr rows ih =>
    intro temp temp1 h
    simp only [fillRows] at h
    by_cases hc : kr.2.cols.length > 0
    · rw [if_pos hc] at h
      cases hf : fillRow kr.2.cols [] with
      | error f => rw [hf] at h; cases h
      | ok data =>
        rw [hf] at h
        have := ih _ _ h
        rw [this]
        by_cases hl : leng > (kr.1 : Int)
        · rw [if_pos hl, List.length_set]
        · rw [if_neg hl]
    · rw [if_neg hc] at h
      exact ih _ _ h

/-- One pass of the loop of `ReadAllCells` keeps `max` and the number of rows read
below any bound they were below before. -/
theorem readSheet_bound (L : Layout) (P : SheetParse) (c c1 : Cells) (idx : Nat)
    (sheet : WorkSheet) (M : Int) (h : readSheet L P c idx sheet = .ok c1)
    (hm : c.max ≤ M) (hl : (c.res.length : Int) ≤ M) :
    c1.max ≤ M ∧ (c1.res.length : Int) ≤ M := by
  unfold readSheet at h
  by_cases hlt : (c.res.length : Int) < c.max
  · rw [if_pos hlt] at h
    dsimp only at h
    by_cases hrow : (prepareSheet L P c.w sheet).MaxRow ≠ 0
    · rw [if_pos hrow] at h
      cases ht : fillRows
          (if c.max - (c.res.length : Int) < ((prepareSheet L P c.w sheet).MaxRow : Int) + 1
            then c.max - (c.res.length : Int)
            else ((prepareSheet L P c.w sheet).MaxRow : Int) + 1)
          (prepareSheet L P c.w sheet).rows
          (List.replicate
            (if c.max - (c.res.length : Int) < ((prepareSheet L P c.w sheet).MaxRow : Int) + 1
              then c.max - (c.res.length : Int)
              else ((prepareSheet L P c.w sheet).MaxRow : Int) + 1).toNat []) with
      | error f => rw [ht] at h; cases h
      | ok temp =>
        rw [ht] at h
        injection h with h
        subst h
        have hlen := fillRows_length _ _ _ _ ht
        rw [List.length_replicate] at hlen
        dsimp only
        rw [List.length_append, hlen]
        constructor
        · omega
        · push_cast
          split_ifs with hmin
          · omega
          · omega
    · rw [if_neg hrow] at h
      injection h with h
      subst h
      dsimp only
      constructor <;> omega
  · rw [if_neg hlt] at h
    injection h with h
    subst h
    exact ⟨hm, hl⟩

theorem readSheets_bound (L : Layout) (P : SheetParse) (sheets : List WorkSheet) :
    ∀ (idx : Nat) (c c1 : Cells) (M : Int), readSheets L P idx sheets c = .ok c1 →
      c.max ≤ M → (c.res.length : Int) ≤ M → c1.max ≤ M ∧ (c1.res.length : Int) ≤ M := by
  induction sheets with
  | nil =>
    intro idx c c1 M h hm hl
    simp only [readSheets] at h
    injection h with h
    subst h
    exact ⟨hm, hl⟩
  | cons sheet rest ih =>
    intro idx c c1 M h hm hl
    simp only [readSheets] at h
    split at h
    · cases h
    · rename_i c2 h2
      obtain ⟨a, b⟩ := readSheet_bound L P c c2 idx sheet M h2 hm hl
      exact ih _ _ _ M h a b

theorem readSheets_nothing (L : Layout) (P : SheetParse) (sheets : List WorkSheet) :
    ∀ (idx : Nat) (c : Cells), c.max ≤ (c.res.length : Int) →
      readSheets L P idx sheets c = .ok c := by
  induction sheets with
  | nil => intro idx c _; rfl
  | cons sheet rest ih =>
    intro idx c h
    have hs : readSheet L P c idx sheet = .ok c := by
      unfold readSheet
      have : ¬ ((c.res.length : Int) < c.max) := by omega
      rw [if_neg this]
    simp only [readSheets, hs]
    exact ih _ _ h

/-- C12. `ReadAllCells(max)` returns at most `max` rows for `max ≥ 0`, and for
`max ≤ 0` it returns no rows and touches no sheet. -/
theorem ReadAllCells_at_most_max (L : Layout) (P : SheetParse) (w : WorkBook) (max : Int) :
    (∀ (res : List (List (List Nat))) (w1 : WorkBook),
        ReadAllCells L P w max = .ok (res, w1) → 0 ≤ max → (res.length : Int) ≤ max) ∧
    (max ≤ 0 → ReadAllCells L P w max = .ok ([], w)) := by
  constructor
  · intro res w1 h hmax
    unfold ReadAllCells at h
    split at h
    · cases h
    · rename_i c hc
      simp only [Except.ok.injEq, Prod.mk.injEq] at h
      have := (readSheets_bound L P w.sheets 0 _ c max hc (le_refl _) (by simpa using hmax)).2
      rw [← h.1]
      exact this
  · intro hmax
    unfold ReadAllCells
    rw [readSheets_nothing L P w.sheets 0 ⟨[], max, w⟩ (by simpa using hmax)]

/-- C12, at three loaded sheets of two rows each with `max = 5` and `max = 0`. -/
theorem ReadAllCells_at_most_max_witness :
    ((([[], [], [], []] : List (List (List Nat))).length : Int) ≤ 5) ∧
    ReadAllCells biff8 markParsed threeSheetBook 0 = .ok ([], threeSheetBook) :=
  ⟨(ReadAllCells_at_most_max biff8 markParsed threeSheetBook 5).1 _ threeSheetBook rfl
      (by decide),
   (ReadAllCells_at_most_max biff8 markParsed threeSheetBook 0).2 (by decide)⟩

theorem tailUnset_appendAt (sst : List (List Nat)) (i : Nat) (t : List Nat)
    (h : tailUnset sst i) : tailUnset (appendAt sst i t) i := by
  intro j hj
  rw [appendAt_getD_ne _ _ _ _ _ (by omega)]
  exact h j hj

theorem tailUnset_mono (sst : List (List Nat)) (i k : Nat) (h : tailUnset sst i) (hik : i ≤ k) :
    tailUnset sst k := by
  intro j hj
  exact h j (by omega)

theorem tailUnset_replicate (c k : Nat) : tailUnset (List.replicate c []) k := by
  intro j _
  exact replicate_getD_nil c j

/-- One `get_string` and the table update of the loops keep the slots above the
index unset. -/
theorem get_string_append_tail (T : Tables) (w : WorkBook) (buf : List Nat) (size i : Nat)
    (g : GsResult) (h : get_string T w buf size = .ok g) (ht : tailUnset w.sst i) :
    tailUnset (appendAt g.w.sst i g.res) i := by
  rw [carryOnly_sst (get_string_carryOnly T w buf size g h)]
  exact tailUnset_appendAt _ _ _ ht

theorem sstLoop_tail (T : Tables) (n : Nat) :
    ∀ (s s1 : SstLoop), sstLoop T n s = .ok s1 → tailUnset s.w.sst s.offset →
      tailUnset s1.w.sst s1.offset ∧ s1.offset ≤ s.offset + n := by
  induction n with
  | zero =>
    intro s s1 h ht
    simp only [sstLoop] at h
    injection h with h; subst h
    exact ⟨ht, le_refl _⟩
  | succ n ih =>
    intro s s1 h ht
    simp only [sstLoop] at h
    by_cases hr : (readUint s.buf 2 s.size).err = none
    · rw [if_pos hr] at h
      cases hg : get_string T s.w (readUint s.buf 2 s.size).rest (readUint s.buf 2 s.size).val with
      | error f => rw [hg] at h; cases h
      | ok g =>
        rw [hg] at h
        dsimp only at h
        have hta := get_string_append_tail T _ _ _ s.offset g hg ht
        by_cases he : g.err = some GoErr.eof
        · rw [if_pos he] at h
          injection h with h; subst h
          exact ⟨hta, by dsimp only; omega⟩
        · rw [if_neg he] at h
          have := ih _ _ h (tailUnset_mono _ _ _ hta (Nat.le_succ _))
          exact ⟨this.1, by have := this.2; dsimp only at this; omega⟩
    · rw [if_neg hr] at h
      by_cases he : (readUint s.buf 2 s.size).err = some GoErr.eof
      · rw [if_pos he] at h
        injection h with h; subst h
        exact ⟨ht, by dsimp only; omega⟩
      · rw [if_neg he] at h
        have := ih _ _ h (tailUnset_mono _ _ _ ht (Nat.le_succ _))
        exact ⟨this.1, by have := this.2; dsimp only at this; omega⟩

theorem continueLoop_tail (T : Tables) (n : Nat) :
    ∀ (s s1 : SstLoop), continueLoop T n s = .ok s1 → tailUnset s.w.sst s.offset →
      s.offset ≤ s.w.sst.length →
      tailUnset s1.w.sst s1.offset ∧ s1.offset ≤ s1.w.sst.length := by
  induction n with
  | zero =>
    intro s s1 h ht hl
    simp only [continueLoop] at h
    injection h with h; subst h
    exact ⟨ht, hl⟩
  | succ n ih =>
    intro s s1 h ht hl
    simp only [continueLoop] at h
    by_cases hc : s.err = none ∧ s.offset < s.w.sst.length
    · rw [if_pos hc] at h
      cases hg : get_string T s.w s.buf s.size with
      | error f => rw [hg] at h; cases h
      | ok g =>
        rw [hg] at h
        dsimp only at h
        have hta := get_string_append_tail T _ _ _ s.offset g hg ht
        have hlen := (get_string_append_frame T s.w s.buf s.size s.offset g hg).2
        by_cases he : g.err = some GoErr.eof
        · rw [if_pos he] at h
          injection h with h; subst h
          exact ⟨hta, by dsimp only; omega⟩
        · rw [if_neg he] at h
          exact ih _ _ h (tailUnset_mono _ _ _ hta (Nat.le_succ _)) (by dsimp only; omega)
    · rw [if_neg hc] at h
      injection h with h; subst h
      exact ⟨ht, hl⟩

theorem handleSst_tail (L : Layout) (T : Tables) (w : WorkBook) (b : bof) (bts : List Nat)
    (s : PState) (h : handleSst L T w b bts = .ok s) :
    s.offset ≤ s.w.sst.length ∧ tailUnset s.w.sst s.offset := by
  have hlen := (handleSst_frame L T w b bts s h).2.1
  unfold handleSst at h
  dsimp only at h
  split at h
  · cases h
  · rename_i s1 hs
    injection h with h; subst h
    have := sstLoop_tail T _ _ _ hs (tailUnset_replicate _ _)
    refine ⟨?_, this.1⟩
    have h2 := this.2
    dsimp only at h2 hlen ⊢
    rw [hlen]
    unfold declaredCount
    omega

theorem handleContinue_tail (T : Tables) (w : WorkBook) (bts : List Nat) (pre : bof)
    (off : Nat) (s : PState) (h : handleContinue T w bts pre off = .ok s)
    (hl : off ≤ w.sst.length) (ht : tailUnset w.sst off) :
    s.offset ≤ s.w.sst.length ∧ tailUnset s.w.sst s.offset := by
  unfold handleContinue at h
  split_ifs at h with hp hu
  · dsimp only at h
    split at h
    · cases h
    · rename_i s1 hs
      injection h with h; subst h
      have := continueLoop_tail T _ _ _ hs ht hl
      exact ⟨this.2, this.1⟩
  · dsimp only at h
    split at h
    · cases h
    · rename_i s1 hs
      injection h with h; subst h
      have := continueLoop_tail T _ _ _ hs ht hl
      exact ⟨this.2, this.1⟩
  · injection h with h; subst h
    exact ⟨hl, ht⟩

theorem handle_openSlotInv (L : Layout) (T : Tables) (s : PState) (b : bof) (bts : List Nat)
    (s1 : PState) (hinv : openSlotInv s) (h : handle L T s.w b bts s.pre s.offset = .ok s1) :
    openSlotInv s1 := by
  by_cases hc : b.Id = 0x3c
  · rw [handle_continue_eq L T _ _ _ _ _ hc] at h
    have hpre := (handleContinue_frame T _ _ _ _ _ h).2.2
    intro hp
    rw [hpre] at hp
    obtain ⟨hl, ht⟩ := hinv hp
    exact handleContinue_tail T _ _ _ _ _ h hl ht
  · by_cases hs : b.Id = 0xfc
    · rw [handle_sst_eq L T _ _ _ _ _ hs] at h
      intro _
      exact handleSst_tail L T _ _ _ _ h
    · intro hp
      rw [handle_pre_of_ne_continue L T _ _ _ _ _ _ hc h] at hp
      exact absurd hp hs

theorem handleAll_openSlotInv (L : Layout) (T : Tables) (recs : List Record) :
    ∀ (s s1 : PState), openSlotInv s → handleAll L T s recs = .ok s1 → openSlotInv s1 := by
  induction recs with
  | nil =>
    intro s s1 hinv h
    simp only [handleAll] at h
    injection h with h; subst h
    exact hinv
  | cons r rest ih =>
    intro s s1 hinv h
    simp only [handleAll] at h
    split at h
    · cases h
    · rename_i s2 hs
      exact ih s2 s1 (handle_openSlotInv L T s r.1 r.2 s2 hinv hs) h

/-- C17. The resume index an SST handler returns is at most the length of the table
and every slot above it is unset; a processed CONTINUE handler that starts from such
an index returns such an index again; and so, along every run of `Parse`, whenever
the remembered record is an SST record (the last handler that acted was the SST
handler or a processed CONTINUE handler) the resume index bounds the written slots:
it is at most the length and every slot above it is the empty string. -/
theorem resume_index_bounds_written_slots (L : Layout) (T : Tables) :
    (∀ (w : WorkBook) (b : bof) (bts : List Nat) (pre : bof) (off : Nat) (s : PState),
        b.Id = 0xfc → handle L T w b bts pre off = .ok s →
        s.offset ≤ s.w.sst.length ∧ ∀ j, s.offset < j → s.w.sst.getD j [] = []) ∧
    (∀ (w : WorkBook) (c : bof) (bts : List Nat) (pre : bof) (off : Nat) (s : PState),
        c.Id = 0x3c → pre.Id = 0xfc → off ≤ w.sst.length →
        (∀ j, off < j → w.sst.getD j [] = []) → handle L T w c bts pre off = .ok s →
        s.offset ≤ s.w.sst.length ∧ ∀ j, s.offset < j → s.w.sst.getD j [] = []) ∧
    (∀ (w : WorkBook) (recs : List Record) (s : PState),
        handleAll L T (initState w) recs = .ok s → s.pre.Id = 0xfc →
        s.offset ≤ s.w.sst.length ∧ ∀ j, s.offset < j → s.w.sst.getD j [] = []) := by
  refine ⟨?_, ?_, ?_⟩
  · intro w b bts pre off s hb h
    rw [handle_sst_eq L T _ _ _ _ _ hb] at h
    exact handleSst_tail L T _ _ _ _ h
  · intro w c bts pre off s hc _ hl ht h
    rw [handle_continue_eq L T _ _ _ _ _ hc] at h
    exact handleContinue_tail T _ _ _ _ _ h hl ht
  · intro w recs s h hp
    have hinit : openSlotInv (initState w) := by
      intro h0
      have h1 : (0 : Nat) = 0xfc := h0
      exact absurd h1 (by decide)
    exact handleAll_openSlotInv L T recs _ _ hinit h hp

/-- C17, at the SST record of the end-to-end stream (resume index 0 of 1 slot) and
at the SST record followed by its CONTINUE (resume index 1). -/
theorem resume_index_bounds_written_slots_witness :
    (hiAfterSst.offset ≤ hiAfterSst.w.sst.length ∧
      ∀ j, hiAfterSst.offset < j → hiAfterSst.w.sst.getD j [] = []) ∧
    ((1 : Nat) ≤ [[0x48, 0x69]].length ∧
      ∀ j, 1 < j → ([[0x48, 0x69]] : List (List Nat)).getD j [] = []) :=
  ⟨(resume_index_bounds_written_slots biff8 asciiTables).1 (emptyWorkBook [] "") hiSst.1 hiSst.2
      ⟨0, 0⟩ 0 hiAfterSst rfl rfl,
   (resume_index_bounds_written_slots biff8 asciiTables).2.2 (emptyWorkBook [] "")
      [hiSst, hiContinue]
      ⟨{ emptyWorkBook [] "" with sst := [[0x48, 0x69]] }, ⟨0xfc, 12⟩, 1⟩ rfl rfl⟩

theorem sameButUtf16_set (w : WorkBook) (v : Nat) :
    sameButUtf16 w { w with continue_utf16 := v } := rfl

theorem sameButUtf16_eq {w1 w2 : WorkBook} (h : sameButUtf16 w1 w2) :
    w2 = { w1 with continue_utf16 := w2.continue_utf16 } := by
  unfold sameButUtf16 at h
  cases w1; cases w2
  simp only [WorkBook.mk.injEq] at h ⊢
  simp only [h, and_self]

theorem agreeSt_of_eq (s : GsState) (v : Nat) (t : GsState)
    (h : t = { s with w := { s.w with continue_utf16 := v } }) : agreeSt s t := by
  subst h
  exact ⟨rfl, rfl, rfl, rfl, rfl, rfl⟩

theorem gsFlagRich_utf16 (w : WorkBook) (v : Nat) (buf : List Nat) :
    (gsFlagRich { w with continue_utf16 := v } buf).1 = (gsFlagRich w buf).1 ∧
      agreeSt (gsFlagRich w buf).2 (gsFlagRich { w with continue_utf16 := v } buf).2 := by
  unfold gsFlagRich
  dsimp only
  split_ifs <;> exact ⟨rfl, rfl, rfl, rfl, rfl, rfl, rfl⟩

theorem gsPhonetic_utf16 (f : Nat) (s : GsState) (v : Nat) :
    agreeSt (gsPhonetic f s) (gsPhonetic f { s with w := { s.w with continue_utf16 := v } }) := by
  unfold gsPhonetic
  dsimp only
  split_ifs <;> exact ⟨rfl, rfl, rfl, rfl, rfl, rfl⟩

theorem gsSkipRich_utf16 (s : GsState) (v : Nat) :
    agreeSt (gsSkipRich s) (gsSkipRich { s with w := { s.w with continue_utf16 := v } }) := by
  unfold gsSkipRich
  dsimp only
  split_ifs <;> exact ⟨rfl, rfl, rfl, rfl, rfl, rfl⟩

theorem gsSkipPhonetic_utf16 (s : GsState) (v : Nat) :
    agreeSt (gsSkipPhonetic s)
      (gsSkipPhonetic { s with w := { s.w with continue_utf16 := v } }) := by
  unfold gsSkipPhonetic
  dsimp only
  split_ifs <;> exact ⟨rfl, rfl, rfl, rfl, rfl, rfl⟩

theorem gsTextNarrow_utf16 (T : Tables) (s : GsState) (size v : Nat) :
    agreeSt (gsTextNarrow T s size)
      (gsTextNarrow T { s with w := { s.w with continue_utf16 := v } } size) := by
  unfold gsTextNarrow
  dsimp only
  split_ifs
  · exact ⟨rfl, rfl, rfl, rfl, decodeCharset_congr T _ _ _ rfl rfl, rfl⟩
  · exact ⟨rfl, rfl, rfl, rfl, decodeCharset_congr T _ _ _ rfl rfl, rfl⟩

theorem agreeSt_eq {s1 s2 : GsState} (h : agreeSt s1 s2) :
    s2 = { s1 with w := { s1.w with continue_utf16 := s2.w.continue_utf16 } } := by
  obtain ⟨h1, h2, h3, h4, h5, h6⟩ := h
  have hw := sameButUtf16_eq h6
  cases s1; cases s2
  simp only at h1 h2 h3 h4 h5 hw ⊢
  subst h1 h2 h3 h4 h5
  rw [← hw]

theorem gsPhonetic_agree (f : Nat) {s1 s2 : GsState} (h : agreeSt s1 s2) :
    agreeSt (gsPhonetic f s1) (gsPhonetic f s2) := by
  rw [agreeSt_eq h]
  exact gsPhonetic_utf16 f s1 _

theorem gsSkipRich_agree {s1 s2 : GsState} (h : agreeSt s1 s2) :
    agreeSt (gsSkipRich s1) (gsSkipRich s2) := by
  rw [agreeSt_eq h]
  exact gsSkipRich_utf16 s1 _

theorem gsSkipPhonetic_agree {s1 s2 : GsState} (h : agreeSt s1 s2) :
    agreeSt (gsSkipPhonetic s1) (gsSkipPhonetic s2) := by
  rw [agreeSt_eq h]
  exact gsSkipPhonetic_utf16 s1 _

theorem gsTextNarrow_agree (T : Tables) (size : Nat) {s1 s2 : GsState} (h : agreeSt s1 s2) :
    agreeSt (gsTextNarrow T s1 size) (gsTextNarrow T s2 size) := by
  rw [agreeSt_eq h]
  exact gsTextNarrow_utf16 T s1 size _

/-- The UTF-16 branch on two agreeing states: the same fault or agreeing states. -/
theorem gsTextWide_agree (size : Nat) {s1 s2 : GsState} (h : agreeSt s1 s2) :
    (∃ f, gsTextWide s1 size = .error f ∧ gsTextWide s2 size = .error f) ∨
    (∃ t1 t2, gsTextWide s1 size = .ok t1 ∧ gsTextWide s2 size = .ok t2 ∧ agreeSt t1 t2) := by
  rw [agreeSt_eq h]
  unfold gsTextWide
  dsimp only
  cases hs : sliceTo (readUnits size ⟨0, s1.err, List.replicate size 0, s1.buf⟩).bts
      (if (readUnits size ⟨0, s1.err, List.replicate size 0, s1.buf⟩).err = some GoErr.eof
        then ((readUnits size ⟨0, s1.err, List.replicate size 0, s1.buf⟩).i + 65535) % 65536
        else (readUnits size ⟨0, s1.err, List.replicate size 0, s1.buf⟩).i) with
  | error f => exact Or.inl ⟨f, rfl, rfl⟩
  | ok units =>
    refine Or.inr ⟨_, _, rfl, rfl, ?_⟩
    dsimp only
    split_ifs <;> exact ⟨rfl, rfl, rfl, rfl, rfl, rfl⟩

/-- `get_string` does not read the pending UTF-16 remainder: on workbooks that
differ only there it gives the same text, error and remaining bytes. -/
theorem get_string_utf16 (T : Tables) (w : WorkBook) (v : Nat) (buf : List Nat) (size : Nat) :
    agreeGs (get_string T w buf size) (get_string T { w with continue_utf16 := v } buf size) := by
  unfold get_string
  by_cases h5 : w.Is5ver = true
  · have h5' : ({ w with continue_utf16 := v } : WorkBook).Is5ver = true := h5
    rw [if_pos h5, if_pos h5']
    exact ⟨decodeCharset_congr T _ _ _ rfl rfl, rfl, rfl, rfl⟩
  · have h5' : ¬ (({ w with continue_utf16 := v } : WorkBook).Is5ver = true) := h5
    rw [if_neg h5, if_neg h5']
    dsimp only
    obtain ⟨hf, hs⟩ := gsFlagRich_utf16 w v buf
    rw [hf]
    have hp := gsPhonetic_agree (gsFlagRich w buf).1 hs
    by_cases hw : (gsFlagRich w buf).1 &&& 0x1 ≠ 0
    · rw [if_pos hw, if_pos hw]
      rcases gsTextWide_agree size hp with ⟨f, e1, e2⟩ | ⟨t1, t2, e1, e2, ht⟩
      · rw [e1, e2]
        exact rfl
      · rw [e1, e2]
        have := gsSkipPhonetic_agree (gsSkipRich_agree ht)
        exact ⟨this.2.2.2.2.1, this.2.1, this.1, this.2.2.2.2.2⟩
    · rw [if_neg hw, if_neg hw]
      have := gsSkipPhonetic_agree (gsSkipRich_agree (gsTextNarrow_agree T size hp))
      exact ⟨this.2.2.2.2.1, this.2.1, this.1, this.2.2.2.2.2⟩

/-- What two agreeing outcomes of `get_string` look like. -/
theorem agreeGs_cases {r1 r2 : Except Fault GsResult} (h : agreeGs r1 r2) :
    (∃ f, r1 = .error f ∧ r2 = .error f) ∨
    (∃ g v, r1 = .ok g ∧ r2 = .ok ⟨g.res, g.err, { g.w with continue_utf16 := v }, g.buf⟩) := by
  cases r1 with
  | error f1 =>
    cases r2 with
    | error f2 =>
      have : f1 = f2 := h
      subst this
      exact Or.inl ⟨f1, rfl, rfl⟩
    | ok g2 => exact absurd h id
  | ok g1 =>
    cases r2 with
    | error f2 => exact absurd h id
    | ok g2 =>
      obtain ⟨h1, h2, h3, h4⟩ := h
      refine Or.inr ⟨g1, g2.w.continue_utf16, rfl, ?_⟩
      have hw := sameButUtf16_eq h4
      cases g1; cases g2
      simp only at h1 h2 h3 hw ⊢
      subst h1 h2 h3
      rw [← hw]

theorem get_string_utf16_cases (T : Tables) (w : WorkBook) (v : Nat) (buf : List Nat)
    (size : Nat) :
    (∃ f, get_string T w buf size = .error f ∧
      get_string T { w with continue_utf16 := v } buf size = .error f) ∨
    (∃ g v1, get_string T w buf size = .ok g ∧
      get_string T { w with continue_utf16 := v } buf size =
        .ok ⟨g.res, g.err, { g.w with continue_utf16 := v1 }, g.buf⟩) :=
  agreeGs_cases (get_string_utf16 T w v buf size)

theorem sstLoop_utf16 (T : Tables) (n : Nat) :
    ∀ (s : SstLoop) (v : Nat),
      agreeLoop (sstLoop T n s) (sstLoop T n { s with w := { s.w with continue_utf16 := v } }) := by
  induction n with
  | zero =>
    intro s v
    exact ⟨rfl, rfl, rfl, rfl, rfl⟩
  | succ n ih =>
    intro s v
    simp only [sstLoop]
    by_cases hr : (readUint s.buf 2 s.size).err = none
    · rw [if_pos hr, if_pos hr]
      rcases get_string_utf16_cases T s.w v (readUint s.buf 2 s.size).rest
          (readUint s.buf 2 s.size).val with ⟨f, e1, e2⟩ | ⟨g, v1, e1, e2⟩
      · rw [e1, e2]
        exact rfl
      · rw [e1, e2]
        dsimp only
        by_cases he : g.err = some GoErr.eof
        · rw [if_pos he, if_pos he]
          exact ⟨rfl, rfl, rfl, rfl, rfl⟩
        · rw [if_neg he, if_neg he]
          exact ih _ v1
    · rw [if_neg hr, if_neg hr]
      by_cases he : (readUint s.buf 2 s.size).err = some GoErr.eof
      · rw [if_pos he, if_pos he]
        exact ⟨rfl, rfl, rfl, rfl, rfl⟩
      · rw [if_neg he, if_neg he]
        exact ih _ v

theorem agreeLoop_cases {r1 r2 : Except Fault SstLoop} (h : agreeLoop r1 r2) :
    (∃ f, r1 = .error f ∧ r2 = .error f) ∨
    (∃ s1 s2, r1 = .ok s1 ∧ r2 = .ok s2 ∧ s1.offset = s2.offset ∧ sameButUtf16 s1.w s2.w) := by
  cases r1 with
  | error f1 =>
    cases r2 with
    | error f2 =>
      have : f1 = f2 := h
      subst this
      exact Or.inl ⟨f1, rfl, rfl⟩
    | ok g2 => exact absurd h id
  | ok g1 =>
    cases r2 with
    | error f2 => exact absurd h id
    | ok g2 => exact Or.inr ⟨g1, g2, rfl, rfl, h.2.2.2.1, h.2.2.2.2⟩

/-- A record handler other than the CONTINUE handler does not read the pending
UTF-16 remainder. -/
theorem handle_utf16 (L : Layout) (T : Tables) (w : WorkBook) (v : Nat) (b : bof)
    (bts : List Nat) (pre : bof) (off : Nat) (hb : b.Id ≠ 0x3c) :
    agreePs (handle L T w b bts pre off)
      (handle L T { w with continue_utf16 := v } b bts pre off) := by
  unfold handle
  by_cases h1 : b.Id = 0x809
  · rw [if_pos h1, if_pos h1]
    dsimp only
    split_ifs <;> exact ⟨rfl, rfl, rfl⟩
  rw [if_neg h1, if_neg h1]
  by_cases h2 : b.Id = 0x042
  · rw [if_pos h2, if_pos h2]
    exact ⟨rfl, rfl, rfl⟩
  rw [if_neg h2, if_neg h2, if_neg hb, if_neg hb]
  by_cases h4 : b.Id = 0xfc
  · rw [if_pos h4, if_pos h4]
    unfold handleSst
    dsimp only
    rcases agreeLoop_cases (sstLoop_utf16 T (L.sstCount.get (readStruct bts L.sstInfoSize).1)
        ⟨{ w with sst := List.replicate (L.sstCount.get (readStruct bts L.sstInfoSize).1) [] },
          (readStruct bts L.sstInfoSize).2, 0, none, 0⟩ v) with ⟨f, e1, e2⟩ | ⟨s1, s2, e1, e2, ho, hw⟩
    · rw [e1]
      dsimp only at e2
      rw [e2]
      exact rfl
    · rw [e1]
      dsimp only at e2
      rw [e2]
      exact ⟨rfl, ho, hw⟩
  rw [if_neg h4, if_neg h4]
  by_cases h5 : b.Id = 0x85
  · rw [if_pos h5, if_pos h5]
    dsimp only
    unfold addSheet
    rcases get_string_utf16_cases T w v (readStruct bts L.boundsheetSize).2
        (L.bsName.get (readStruct bts L.boundsheetSize).1 % 65536) with ⟨f, e1, e2⟩ | ⟨g, v1, e1, e2⟩
    · rw [e1, e2]
      exact rfl
    · rw [e1, e2]
      exact ⟨rfl, rfl, rfl⟩
  rw [if_neg h5, if_neg h5]
  by_cases h6 : b.Id = 0x0e0
  · rw [if_pos h6, if_pos h6]
    by_cases hv : w.Is5ver = true
    · have hv' : ({ w with continue_utf16 := v } : WorkBook).Is5ver = true := hv
      rw [if_pos hv, if_pos hv']
      exact ⟨rfl, rfl, rfl⟩
    · have hv' : ¬ (({ w with continue_utf16 := v } : WorkBook).Is5ver = true) := hv
      rw [if_neg hv, if_neg hv']
      exact ⟨rfl, rfl, rfl⟩
  rw [if_neg h6, if_neg h6]
  by_cases h7 : b.Id = 0x031
  · rw [if_pos h7, if_pos h7]
    dsimp only
    unfold addFont
    rcases get_string_utf16_cases T w v (readStruct bts L.fontInfoSize).2
        (L.fontNameB.get (readStruct bts L.fontInfoSize).1 % 65536) with ⟨f, e1, e2⟩ | ⟨g, v1, e1, e2⟩
    · rw [e1, e2]
      exact rfl
    · rw [e1, e2]
      exact ⟨rfl, rfl, rfl⟩
  rw [if_neg h7, if_neg h7]
  by_cases h8 : b.Id = 0x41E
  · rw [if_pos h8, if_pos h8]
    dsimp only
    rcases get_string_utf16_cases T w v (readStruct bts L.formatHeadSize).2
        (L.fmtSize.get (readStruct bts L.formatHeadSize).1 % 65536) with ⟨f, e1, e2⟩ | ⟨g, v1, e1, e2⟩
    · rw [e1, e2]
      exact rfl
    · rw [e1, e2]
      exact ⟨rfl, rfl, rfl⟩
  rw [if_neg h8, if_neg h8]
  by_cases h9 : b.Id = 0x22
  · rw [if_pos h9, if_pos h9]
    exact ⟨rfl, rfl, rfl⟩
  rw [if_neg h9, if_neg h9]
  exact ⟨rfl, rfl, rfl⟩

/-- C18 as stated fails: a pending rich-text count is taken up by the first string
of an SST record (the run skip then swallows the second string: the table is
`["A", ""]` instead of `["A", "B"]`, and the count is gone afterwards), and a FONT
record whose name is cut short sets the pending UTF-16 remainder. -/
theorem carry_is_read_and_set_outside_continue :
    (handle biff8 asciiTables (emptyWorkBook [] "") abRecord.1 abRecord.2 ⟨0, 0⟩ 0).map
        (fun s => (s.w.sst, s.w.continue_rich)) = .ok ([[0x41], [0x42]], 0) ∧
    (handle biff8 asciiTables staleRichBook abRecord.1 abRecord.2 ⟨0, 0⟩ 0).map
        (fun s => (s.w.sst, s.w.continue_rich)) = .ok ([[0x41], []], 0) ∧
    staleRichBook.continue_rich = 1 ∧
    (handle biff8 asciiTables (emptyWorkBook [] "") shortFontRecord.1 shortFontRecord.2
        ⟨0, 0⟩ 0).map (fun s => (s.w.Fonts.map (fun f => f.Name), s.w.continue_utf16)) =
      .ok ([[0x41]], 1) ∧
    (emptyWorkBook [] "").continue_utf16 = 0 :=
  ⟨rfl, rfl, rfl, rfl, rfl⟩

/-- C18, amended. The pending UTF-16 remainder is read by the CONTINUE handler only:
on two workbooks that differ at most in that counter every other record (FONT,
FORMAT, sheet-boundary and SST among them) with the same payload gives the same
fault or the same remembered record and resume index and workbooks that again differ
at most in that counter, so the same decoded strings; and every `get_string` call
gives the same text and error and leaves the same bytes unread. -/
theorem utf16_remainder_read_by_continue_only (L : Layout) (T : Tables) (w1 w2 : WorkBook)
    (h : sameButUtf16 w1 w2) :
    (∀ (b : bof) (bts : List Nat) (pre : bof) (off : Nat), b.Id ≠ 0x3c →
      agreePs (handle L T w1 b bts pre off) (handle L T w2 b bts pre off)) ∧
    (∀ (buf : List Nat) (size : Nat),
      agreeGs (get_string T w1 buf size) (get_string T w2 buf size)) := by
  rw [sameButUtf16_eq h]
  constructor
  · intro b bts pre off hb
    exact handle_utf16 L T w1 _ b bts pre off hb
  · intro buf size
    exact get_string_utf16 T w1 _ buf size

/-- C18, amended, at the FONT record with the short name and at its name string, on
a fresh workbook and one with a pending UTF-16 remainder of 7. -/
theorem utf16_remainder_read_by_continue_only_witness :
    agreePs
      (handle biff8 asciiTables (emptyWorkBook [] "") shortFontRecord.1 shortFontRecord.2
        ⟨0, 0⟩ 0)
      (handle biff8 asciiTables { emptyWorkBook [] "" with continue_utf16 := 7 }
        shortFontRecord.1 shortFontRecord.2 ⟨0, 0⟩ 0) ∧
    agreeGs (get_string asciiTables (emptyWorkBook [] "") [0, 0x41] 2)
      (get_string asciiTables { emptyWorkBook [] "" with continue_utf16 := 7 } [0, 0x41] 2) :=
  have h := utf16_remainder_read_by_continue_only biff8 asciiTables (emptyWorkBook [] "")
    { emptyWorkBook [] "" with continue_utf16 := 7 } rfl
  ⟨h.1 shortFontRecord.1 shortFontRecord.2 ⟨0, 0⟩ 0 (by decide), h.2 [0, 0x41] 2⟩

/-! ### The rich-text skip within a record payload -/

theorem le_le32 (v : Nat) (hv : v < 4294967296) : le (le32 v) = v := by
  simp only [le32, le]
  omega

theorem readUint_le32 (v : Nat) (r : List Nat) (old : Nat) (hv : v < 4294967296) :
    readUint (le32 v ++ r) 4 old = ⟨none, v, r⟩ := by
  rw [readUint_append (le32 v) r 4 old (by simp [le32]), le_le32 v hv]

/-- The flag byte and the run count of a string whose flag has the rich-text bit. -/
theorem gsFlagRich_count (w : WorkBook) (f r : Nat) (tail : List Nat) (hf : f < 256)
    (h8 : f &&& 0x8 ≠ 0) (hr : r < 65536) :
    gsFlagRich w (f :: (le16 r ++ tail)) = (f, ⟨w, tail, none, r, 0, []⟩) := by
  unfold gsFlagRich
  rw [readUint_cons f _ 0 hf]
  simp only [if_pos h8]
  rw [readUint_le16 r tail 0 hr]

/-- The phonetic size of a string: read behind the run count when the flag has the
phonetic bit, the pending count otherwise. -/
theorem gsPhonetic_size (f p : Nat) (s : GsState) (tail : List Nat) (hp : p < 4294967296)
    (hb : s.buf = (if f &&& 0x4 ≠ 0 then le32 p else []) ++ tail) (he : s.err = none)
    (hz : s.phonetic_size = 0) :
    gsPhonetic f s =
      { s with
        w := if f &&& 0x4 ≠ 0 then s.w else { s.w with continue_apsb := 0 }
        buf := tail
        err := none
        phonetic_size := if f &&& 0x4 ≠ 0 then p else s.w.continue_apsb } := by
  unfold gsPhonetic
  by_cases h4 : f &&& 0x4 ≠ 0
  · rw [if_pos h4] at hb
    rw [if_pos h4, if_pos h4, if_pos h4, hb, readUint_le32 p tail 0 hp]
  · rw [if_neg h4] at hb
    rw [if_neg h4, if_neg h4, if_neg h4]
    simp only [List.nil_append] at hb
    by_cases ha : s.w.continue_apsb > 0
    · rw [if_pos ha]
      cases s
      simp_all
    · rw [if_neg ha]
      have ha0 : s.w.continue_apsb = 0 := by omega
      obtain ⟨w, buf, err, rn, ps, res⟩ := s
      simp only at hb he hz ha0 ⊢
      subst hb he hz
      congr 1
      · cases w
        simp_all
      · exact ha0.symm

/-- The text of a string that is wholly in the reader, with at least one byte after
it: all its units are read and decoded, no error. -/
theorem gsText_whole (T : Tables) (s : GsState) (f : Nat) (units tail : List Nat)
    (hb : s.buf = XStr.body ⟨f, units⟩ ++ tail) (he : s.err = none)
    (hu : f &&& 0x1 ≠ 0 → ∀ u ∈ units, u < 65536) (hlen : units.length < 65536)
    (htail : tail ≠ []) :
    (if f &&& 0x1 ≠ 0 then gsTextWide s units.length
      else .ok (gsTextNarrow T s units.length)) =
      .ok { s with buf := tail, err := none, res := XStr.text T s.w ⟨f, units⟩ } := by
  by_cases h1 : f &&& 0x1 ≠ 0
  · rw [if_pos h1]
    have hbody : XStr.body ⟨f, units⟩ = unitBytes units := by unfold XStr.body; rw [if_pos h1]
    rw [gsTextWide_complete s units tail (by rw [hb, hbody]) he (hu h1)]
    unfold XStr.text
    rw [if_pos h1]
  · rw [if_neg h1]
    have hbody : XStr.body ⟨f, units⟩ = units := by unfold XStr.body; rw [if_neg h1]
    rw [gsTextNarrow_complete T s units tail (by rw [hb, hbody]) hlen (by simp [htail])]
    unfold XStr.text
    rw [if_neg h1]

/-- The rest of `get_string` behind the flag byte, the run count and the phonetic size
of a string with rich-text runs, when text and run block are in the reader. -/
theorem get_string_rich (T : Tables) (w : WorkBook) (f r p : Nat) (units block rest : List Nat)
    (h5 : w.Is5ver = false) (hf : f < 256) (h8 : f &&& 0x8 ≠ 0) (hr : 1 ≤ r)
    (hp : p < 4294967296) (hu : f &&& 0x1 ≠ 0 → ∀ u ∈ units, u < 65536)
    (hblock : block.length = 4 * r)
    (hpay : (richHeader f r p ++ (XStr.body ⟨f, units⟩ ++ (block ++ rest))).length < 65536) :
    get_string T w (richHeader f r p ++ (XStr.body ⟨f, units⟩ ++ (block ++ rest))) units.length =
      .ok (GsState.result (gsSkipPhonetic
        ⟨if f &&& 0x4 ≠ 0 then w else { w with continue_apsb := 0 }, rest, none, r,
         if f &&& 0x4 ≠ 0 then p else w.continue_apsb, XStr.text T w ⟨f, units⟩⟩)) := by
  have hI : ¬ (w.Is5ver = true) := by rw [h5]; decide
  have hlen : (richHeader f r p ++ (XStr.body ⟨f, units⟩ ++ (block ++ rest))).length =
      1 + 2 + (if f &&& 0x4 ≠ 0 then le32 p else []).length + (XStr.body ⟨f, units⟩).length +
        4 * r + rest.length := by
    simp only [richHeader, List.length_append, List.length_cons, le16, List.length_nil, hblock]
    omega
  have hbl : units.length ≤ (XStr.body ⟨f, units⟩).length := by
    unfold XStr.body
    dsimp only
    split
    · rw [unitBytes_length]; omega
    · exact Nat.le_refl _
  have hr2 : r < 65536 := by omega
  have hfit : 4 * r < 65536 := by omega
  have hul : units.length < 65536 := by omega
  have hne : block ++ rest ≠ [] := by
    intro h
    have := congrArg List.length h
    simp only [List.length_append, List.length_nil, hblock] at this
    omega
  unfold get_string
  rw [if_neg hI]
  have hhead : richHeader f r p ++ (XStr.body ⟨f, units⟩ ++ (block ++ rest)) =
      f :: (le16 r ++ ((if f &&& 0x4 ≠ 0 then le32 p else []) ++
        (XStr.body ⟨f, units⟩ ++ (block ++ rest)))) := by
    simp [richHeader]
  rw [hhead, gsFlagRich_count w f r _ hf h8 hr2]
  dsimp only
  rw [gsPhonetic_size f p _ (XStr.body ⟨f, units⟩ ++ (block ++ rest)) hp rfl rfl rfl]
  dsimp only
  rw [gsText_whole T _ f units (block ++ rest) rfl rfl hu hul hne]
  dsimp only
  have h5b : (if f &&& 0x4 ≠ 0 then w else { w with continue_apsb := 0 }).Is5ver = false := by
    split <;> exact h5
  rw [gsSkipRich_exact ⟨if f &&& 0x4 ≠ 0 then w else { w with continue_apsb := 0 },
      block ++ rest, none, r, if f &&& 0x4 ≠ 0 then p else w.continue_apsb,
      XStr.text T (if f &&& 0x4 ≠ 0 then w else { w with continue_apsb := 0 }) ⟨f, units⟩⟩
    block rest h5b hr rfl hblock hfit]
  dsimp only
  have ht : XStr.text T (if f &&& 0x4 ≠ 0 then w else { w with continue_apsb := 0 }) ⟨f, units⟩ =
      XStr.text T w ⟨f, units⟩ := by
    apply XStr.text_congr <;> split <;> rfl
  rw [ht]
  rfl

theorem le_two_lt (l : List Nat) (h : l.length ≤ 2) : le l < 65536 := by
  match l, h with
  | [], _ => simp [le]
  | [a], _ => simp only [le]; omega
  | [a, b], _ => simp only [le]; omega

theorem readStruct_length (r : List Nat) (n : Nat) : (readStruct r n).1.length = n := by
  unfold readStruct readFull
  by_cases h : n ≤ r.length
  · simp [h]
  · rw [if_neg h]
    by_cases h2 : r = []
    · rw [if_pos h2]; simp
    · rw [if_neg h2]; simp

theorem readBof_size (buf : List Nat) (b : bof) (rest : List Nat)
    (h : readBof buf = some (b, rest)) : b.Size < 65536 := by
  unfold readBof readFull at h
  by_cases h4 : 4 ≤ buf.length
  · simp only [h4, if_true, Option.some.injEq, Prod.mk.injEq] at h
    rw [← h.1]
    exact le_two_lt _ (by simp)
  · by_cases h2 : buf = [] <;> simp [h4, h2] at h

/-- Every payload `Parse` hands a record handler has fewer than 65536 bytes. -/
theorem records_payload_short (fuel : Nat) :
    ∀ (buf : List Nat), ∀ r ∈ records fuel buf, r.2.length < 65536 := by
  induction fuel with
  | zero => intro buf r hr; simp [records] at hr
  | succ n ih =>
    intro buf r hr
    simp only [records] at hr
    cases hb : readBof buf with
    | none => rw [hb] at hr; simp at hr
    | some p =>
      obtain ⟨b, rest⟩ := p
      rw [hb] at hr
      simp only [List.mem_cons] at hr
      rcases hr with hr | hr
      · rw [hr]
        dsimp only
        rw [readStruct_length]
        exact readBof_size buf b rest hb
      · exact ih _ r hr

/-- C16. Modern mode. `Parse` hands the record handlers, and these hand `get_string`,
only payloads of fewer than 65536 bytes (the private copy `parseBof` makes with the
16-bit size of the record header); on such a payload the rich-text skip takes exactly
`4 * r` bytes whenever they are there. First, `Parse` is the handler folded over the
records of the stream, each with a payload below 65536 bytes. Second, the skip step
for every run count `r ≥ 1`, from the string header or from a pending count: with the
run block of `4 * r` bytes in the reader the step reads past exactly that block and
reports no error. Third, `get_string` on a string whose flag has the rich-text bit,
with its run count `r ≥ 1`, its whole text (single-byte or UTF-16) and the run block
in the payload: what is left to do after the skip is the phonetic skip, which starts
at the byte `4 * r` positions after the end of the text; and without phonetic data
`get_string` returns the text with no error and leaves exactly the bytes behind the
run block unread. -/
theorem rich_skip_consumes_four_per_run (T : Tables) (block rest : List Nat) :
    (∀ (L : Layout) (w : WorkBook) (stream : List Nat),
      Parse L T w stream =
        (handleAll L T (initState w) (recordsOf stream)).map (fun s => s.w) ∧
      ∀ r ∈ recordsOf stream, r.2.length < 65536) ∧
    (∀ s : GsState, s.w.Is5ver = false → 1 ≤ s.richtext_num → s.buf = block ++ rest →
      block.length = 4 * s.richtext_num → s.buf.length < 65536 →
      gsSkipRich s = { s with buf := rest, err := none }) ∧
    (∀ (w : WorkBook) (f r p : Nat) (units : List Nat),
      w.Is5ver = false → f < 256 → f &&& 0x8 ≠ 0 → 1 ≤ r → p < 4294967296 →
      (f &&& 0x1 ≠ 0 → ∀ u ∈ units, u < 65536) → block.length = 4 * r →
      (richHeader f r p ++ (XStr.body ⟨f, units⟩ ++ (block ++ rest))).length < 65536 →
      get_string T w (richHeader f r p ++ (XStr.body ⟨f, units⟩ ++ (block ++ rest)))
          units.length =
        .ok (GsState.result (gsSkipPhonetic
          ⟨if f &&& 0x4 ≠ 0 then w else { w with continue_apsb := 0 }, rest, none, r,
           if f &&& 0x4 ≠ 0 then p else w.continue_apsb, XStr.text T w ⟨f, units⟩⟩)) ∧
      (f &&& 0x4 = 0 → w.continue_apsb = 0 →
        get_string T w (richHeader f r p ++ (XStr.body ⟨f, units⟩ ++ (block ++ rest)))
            units.length =
          .ok ⟨XStr.text T w ⟨f, units⟩, none, w, rest⟩)) := by
  refine ⟨?_, ?_, ?_⟩
  · intro L w stream
    exact ⟨Parse_eq_handleAll L T w stream, records_payload_short _ stream⟩
  · intro s h5 hr hb hblock hlen
    have hfit : 4 * s.richtext_num < 65536 := by
      rw [hb, List.length_append, hblock] at hlen
      omega
    exact gsSkipRich_exact s block rest h5 hr hb hblock hfit
  · intro w f r p units h5 hf h8 hr hp hu hblock hpay
    have h := get_string_rich T w f r p units block rest h5 hf h8 hr hp hu hblock hpay
    refine ⟨h, ?_⟩
    intro h4 ha
    rw [h]
    have h4n : ¬ (f &&& 0x4 ≠ 0) := by rw [h4]; decide
    rw [if_neg h4n, if_neg h4n, gsSkipPhonetic_zero _ ha]
    unfold GsState.result
    dsimp only
    congr 2
    cases w
    simp_all

/-- C16 at one run: behind the flag 0x08, the run count 1, the text "A" and the four
bytes of the run block, `get_string` leaves exactly the next byte unread; and the skip
step with a pending count of 1 reads past the four bytes of the block. -/
theorem rich_skip_consumes_four_per_run_witness :
    get_string asciiTables (emptyWorkBook [] "") [0x08, 1, 0, 0x41, 0, 0, 1, 0, 0x42] 1 =
      .ok ⟨[0x41], none, emptyWorkBook [] "", [0x42]⟩ ∧
    gsSkipRich ⟨emptyWorkBook [] "", [0, 0, 1, 0, 0x42], none, 1, 0, []⟩ =
      ⟨emptyWorkBook [] "", [0x42], none, 1, 0, []⟩ :=
  ⟨((rich_skip_consumes_four_per_run asciiTables [0, 0, 1, 0] [0x42]).2.2 (emptyWorkBook [] "")
      0x08 1 0 [0x41] rfl (by decide) (by decide) (by decide) (by decide) (by decide) rfl
      (by decide)).2 (by decide) rfl,
   (rich_skip_consumes_four_per_run asciiTables [0, 0, 1, 0] [0x42]).2.1
      ⟨emptyWorkBook [] "", [0, 0, 1, 0, 0x42], none, 1, 0, []⟩ rfl (by decide) rfl rfl
      (by decide)⟩

/-! ### A pending run count met by a split single-byte string -/

/-- C4 as stated fails: the records of `aHiSplit` alone give "Hi" in slot 1, but
behind a FONT record that left a rich-text run count pending, "A" takes up the count,
the run skip swallows the header and the first piece of "Hi", and the CONTINUE record
reads its flag byte and "i" as a length: slot 1 stays empty. The workbook is in modern
mode throughout. -/
theorem pending_run_count_breaks_single_byte_split :
    sstOf asciiTables aHiSplit = .ok [[0x41], [0x48, 0x69]] ∧
    sstOf asciiTables (richNameFont ++ aHiSplit) = .ok [[0x41], []] ∧
    (newWorkBookFromOle2 biff8 asciiTables richNameFont "").map
        (fun w => (w.Is5ver, w.continue_rich, w.continue_apsb)) = .ok (false, 1, 0) ∧
    (newWorkBookFromOle2 biff8 asciiTables (richNameFont ++ aHiSplit) "").map
        (fun w => (w.Is5ver, w.continue_utf16)) = .ok (false, 26880) :=
  ⟨rfl, rfl, rfl, rfl⟩

end Xls
